import Mathlib

/-! CPlusPlusCodeTokeniser

A shallow embedding of `juce_CPlusPlusCodeTokeniser.cpp`: the character
classes, the document iterator, the keyword table, the literal scanners and
`readNextToken`, followed by the properties proved about them.

Conventions of the embedding.

* `juce_wchar` is `Char`; the end sentinel returned by the iterator is the
  character with code 0.
* A `CodeDocument::Iterator` is the pair of its position and the text that is
  still ahead of it.  Copying an iterator (`original (source)`,
  `source = original`) is reusing the value.
* Positions in a `CodeDocument` are `int`, so a document holds fewer than
  `2^31` characters and the `int` counters of the scanners never wrap; they
  are natural numbers here.
* Functions that take `Iterator&` return the advanced iterator next to their
  result.
-/

namespace CharacterFunctions

/-- Modelled from the spec: `CharacterFunctions::isWhitespace` is not part of
the tokeniser source; whitespace is the C `iswspace` class of the default
locale: space, tab, line feed, vertical tab, form feed, carriage return. -/
def isWhitespace (c : Char) : Bool :=
  c = ' ' || c = '\t' || c = '\n' || c = '\x0b' || c = '\x0c' || c = '\r'

/-- Modelled from the spec: `CharacterFunctions::isDigit`, the decimal digits. -/
def isDigit (c : Char) : Bool :=
  decide ('0' ≤ c) && decide (c ≤ '9')

/-- Modelled from the spec: `CharacterFunctions::isLetter`, the letter class of
the default locale (`a`..`z`, `A`..`Z`). -/
def isLetter (c : Char) : Bool :=
  (decide ('a' ≤ c) && decide (c ≤ 'z')) || (decide ('A' ≤ c) && decide (c ≤ 'Z'))

/-- Modelled from the spec: `CharacterFunctions::isLetterOrDigit`, a letter or
a decimal digit. -/
def isLetterOrDigit (c : Char) : Bool :=
  isLetter c || isDigit c

/-- Modelled from the spec: `CharacterFunctions::compare` on two
zero-terminated character arrays (`wcscmp`): the difference of the first pair
of characters that differ, 0 when both arrays end together.  The end of the
list stands for the terminator as well. -/
def compare : List Char → List Char → Int
  | [], [] => 0
  | [], c2 :: _ => - (c2.toNat : Int)
  | c1 :: _, [] => (c1.toNat : Int)
  | c1 :: s1, c2 :: s2 =>
    if c1 ≠ c2 then (c1.toNat : Int) - (c2.toNat : Int)
    else if c1 = '\x00' then 0
    else compare s1 s2

end CharacterFunctions

namespace CodeDocument

/-- Modelled from the spec: the `CodeDocument::Iterator` cursor, which the
tokeniser consumes but does not own: a position in an immutable character
sequence together with the characters from that position on. -/
structure Iterator where
  /-- The characters not yet consumed. -/
  remaining : List Char
  /-- The index of the next character in the document. -/
  position : Nat
deriving DecidableEq, Repr

namespace Iterator

/-- Modelled from the spec: peek the current character without consuming it;
past the end of the sequence this is the sentinel 0. -/
def peekNextChar (source : Iterator) : Char :=
  source.remaining.headD '\x00'

/-- Modelled from the spec: advance by one character; at the end of the
sequence the cursor stays where it is. -/
def skip (source : Iterator) : Iterator :=
  match source.remaining with
  | [] => source
  | _ :: rest => ⟨rest, source.position + 1⟩

/-- Modelled from the spec: consume-and-advance: the peeked character and the
cursor after one `skip`. -/
def nextChar (source : Iterator) : Char × Iterator :=
  (source.peekNextChar, source.skip)

/-- The loop `while (p (source.peekNextChar())) { source.skip(); ++count; }`
on the text ahead, returning the cursor and the counter.  Every predicate the
tokeniser loops on is false at the end sentinel, so the loop stops at the end
of the text. -/
def skipWhileFrom (p : Char → Bool) : List Char → Nat → Nat → Iterator × Nat
  | [], position, count => (⟨[], position⟩, count)
  | c :: rest, position, count =>
    if p c then skipWhileFrom p rest (position + 1) (count + 1)
    else (⟨c :: rest, position⟩, count)

/-- The loop `while (p (source.peekNextChar())) { source.skip(); ++count; }`
started with `count = 0`. -/
def skipWhile (p : Char → Bool) (source : Iterator) : Iterator × Nat :=
  skipWhileFrom p source.remaining source.position 0

/-- Modelled from the spec: skip contiguous whitespace:
`while (isWhitespace (peekNextChar())) skip();`. -/
def skipWhitespace (source : Iterator) : Iterator :=
  (skipWhile CharacterFunctions.isWhitespace source).1

/-- Skip to the end of the current line on the text ahead: through the next
line feed, or to the end of the text. -/
def skipToEndOfLineFrom : List Char → Nat → Iterator
  | [], position => ⟨[], position⟩
  | c :: rest, position =>
    if c = '\n' then ⟨rest, position + 1⟩
    else skipToEndOfLineFrom rest (position + 1)

/-- Modelled from the spec: skip to the end of the current line; the cursor
lands at the start of the next line, or at the end of the text. -/
def skipToEndOfLine (source : Iterator) : Iterator :=
  skipToEndOfLineFrom source.remaining source.position

/-- Modelled from the spec: no more input. -/
def isEOF (source : Iterator) : Bool :=
  source.remaining.isEmpty

end Iterator

end CodeDocument

open CodeDocument

namespace CPlusPlusCodeTokeniser

/-- Modelled from the spec: the token categories of
`juce_CPlusPlusCodeTokeniser.h`, an enumeration whose ordinals index the
colour and name tables, in the order Error, Comment, Keyword, Identifier,
IntegerLiteral, FloatLiteral, StringLiteral, Operator, Bracket, Punctuation,
Preprocessor. -/
def tokenType_error : Int := 0

/-- Modelled from the spec: ordinal 1 of the category enumeration. -/
def tokenType_comment : Int := 1

/-- Modelled from the spec: ordinal 2 of the category enumeration. -/
def tokenType_builtInKeyword : Int := 2

/-- Modelled from the spec: ordinal 3 of the category enumeration. -/
def tokenType_identifier : Int := 3

/-- Modelled from the spec: ordinal 4 of the category enumeration. -/
def tokenType_integerLiteral : Int := 4

/-- Modelled from the spec: ordinal 5 of the category enumeration. -/
def tokenType_floatLiteral : Int := 5

/-- Modelled from the spec: ordinal 6 of the category enumeration. -/
def tokenType_stringLiteral : Int := 6

/-- Modelled from the spec: ordinal 7 of the category enumeration. -/
def tokenType_operator : Int := 7

/-- Modelled from the spec: ordinal 8 of the category enumeration. -/
def tokenType_bracket : Int := 8

/-- Modelled from the spec: ordinal 9 of the category enumeration. -/
def tokenType_punctuation : Int := 9

/-- Modelled from the spec: ordinal 10 of the category enumeration. -/
def tokenType_preprocessor : Int := 10

end CPlusPlusCodeTokeniser

namespace CppTokeniser

open CharacterFunctions CPlusPlusCodeTokeniser

/-- Source `isIdentifierStart`. -/
def isIdentifierStart (c : Char) : Bool :=
  isLetter c || c = '_' || c = '@'

/-- Source `isIdentifierBody`. -/
def isIdentifierBody (c : Char) : Bool :=
  isLetterOrDigit c || c = '_' || c = '@'

/-- The array `keywords2Char` of `isReservedKeyword`. -/
def keywords2Char : List (List Char) :=
  ["if", "do", "or", "id"].map String.toList

/-- The array `keywords3Char` of `isReservedKeyword`. -/
def keywords3Char : List (List Char) :=
  ["for", "int", "new", "try", "xor", "and", "asm", "not"].map String.toList

/-- The array `keywords4Char` of `isReservedKeyword`. -/
def keywords4Char : List (List Char) :=
  ["bool", "void", "this", "true", "long", "else", "char",
   "enum", "case", "goto", "auto"].map String.toList

/-- The array `keywords5Char` of `isReservedKeyword`. -/
def keywords5Char : List (List Char) :=
  ["while", "bitor", "break", "catch", "class", "compl", "const", "false",
   "float", "short", "throw", "union", "using", "or_eq"].map String.toList

/-- The array `keywords6Char` of `isReservedKeyword`. -/
def keywords6Char : List (List Char) :=
  ["return", "struct", "and_eq", "bitand", "delete", "double", "extern",
   "friend", "inline", "not_eq", "public", "sizeof", "static", "signed",
   "switch", "typeid", "wchar_t", "xor_eq"].map String.toList

/-- The array `keywordsOther` of `isReservedKeyword`. -/
def keywordsOther : List (List Char) :=
  ["const_cast", "continue", "default", "explicit", "mutable", "namespace",
   "operator", "private", "protected", "register", "reinterpret_cast", "static_cast",
   "template", "typedef", "typename", "unsigned", "virtual", "volatile",
   "@implementation", "@interface", "@end", "@synthesize", "@dynamic", "@public",
   "@private", "@property", "@protected", "@class"].map String.toList

/-- The search loop of `isReservedKeyword` over the chosen array `k`:
`k[i][0] == token[0] && compare (k[i], token) == 0`, entry by entry up to the
terminating null entry.  `token` is a zero-terminated character array. -/
def searchKeywords : List (List Char) → List Char → Bool
  | [], _ => false
  | ki :: k, token =>
    if ki.headD '\x00' = token.headD '\x00' ∧ CharacterFunctions.compare ki token = 0 then true
    else searchKeywords k token

/-- Source `CppTokeniser::isReservedKeyword (token, tokenLength)`: the switch
on `tokenLength` picks the array, the loop searches it. -/
def isReservedKeyword (token : List Char) (tokenLength : Int) : Bool :=
  if tokenLength = 2 then searchKeywords keywords2Char token
  else if tokenLength = 3 then searchKeywords keywords3Char token
  else if tokenLength = 4 then searchKeywords keywords4Char token
  else if tokenLength = 5 then searchKeywords keywords5Char token
  else if tokenLength = 6 then searchKeywords keywords6Char token
  else if tokenLength < 2 ∨ tokenLength > 16 then false
  else searchKeywords keywordsOther token

end CppTokeniser

namespace CPlusPlusCodeTokeniser

/-- Source `CPlusPlusCodeTokeniser::isReservedKeyword (const String& token)`:
a `String` is a sequence of non-zero characters; converted to a character
pointer it is that sequence followed by the terminator, and `length()` is
the number of characters. -/
def isReservedKeyword (token : List Char) : Bool :=
  CppTokeniser.isReservedKeyword (token ++ ['\x00']) (token.length : Int)

end CPlusPlusCodeTokeniser

namespace CppTokeniser

open CharacterFunctions CPlusPlusCodeTokeniser

/-- The `while` loop of `parseIdentifier` on the text ahead: each
identifier-body character is consumed, stored at index `tokenLength` of the
buffer when `tokenLength < numElementsInArray (possibleIdentifier) - 1`
(that is, below 18), and counted. -/
def parseIdentifierLoop : List Char → Nat → Nat → List Char → Iterator × Nat × List Char
  | [], position, tokenLength, possibleIdentifier =>
    (⟨[], position⟩, tokenLength, possibleIdentifier)
  | c :: rest, position, tokenLength, possibleIdentifier =>
    if isIdentifierBody c then
      parseIdentifierLoop rest (position + 1) (tokenLength + 1)
        (if tokenLength < 19 - 1 then possibleIdentifier.set tokenLength c
         else possibleIdentifier)
    else (⟨c :: rest, position⟩, tokenLength, possibleIdentifier)

/-- Source `parseIdentifier`, started on a given content of the local array
`possibleIdentifier [19]` (the array is not initialised by the source). -/
def parseIdentifierFrom (possibleIdentifier : List Char) (source : Iterator) : Int × Iterator :=
  let r := parseIdentifierLoop source.remaining source.position 0 possibleIdentifier
  let source := r.1
  let tokenLength := r.2.1
  let possibleIdentifier := r.2.2
  if tokenLength > 1 ∧ tokenLength ≤ 16 then
    let possibleIdentifier := possibleIdentifier.set tokenLength '\x00'
    if isReservedKeyword possibleIdentifier (tokenLength : Int) then
      (tokenType_builtInKeyword, source)
    else (tokenType_identifier, source)
  else (tokenType_identifier, source)

/-- Source `parseIdentifier`, with the 19 cells of `possibleIdentifier`
holding zeros on entry. -/
def parseIdentifier (source : Iterator) : Int × Iterator :=
  parseIdentifierFrom (List.replicate 19 '\x00') source

/-- Source `skipNumberSuffix`. -/
def skipNumberSuffix (source : Iterator) : Bool × Iterator :=
  let c := source.peekNextChar
  let source := if c = 'l' ∨ c = 'L' ∨ c = 'u' ∨ c = 'U' then source.skip else source
  if isLetterOrDigit source.peekNextChar then (false, source)
  else (true, source)

/-- Source `isHexDigit`. -/
def isHexDigit (c : Char) : Bool :=
  (decide (c ≥ '0') && decide (c ≤ '9'))
    || (decide (c ≥ 'a') && decide (c ≤ 'f'))
    || (decide (c ≥ 'A') && decide (c ≤ 'F'))

/-- Source `parseHexLiteral`. -/
def parseHexLiteral (source : Iterator) : Bool × Iterator :=
  let r := source.nextChar
  let source := r.2
  if r.1 ≠ '0' then (false, source)
  else
    let r := source.nextChar
    let c := r.1
    let source := r.2
    if c ≠ 'x' ∧ c ≠ 'X' then (false, source)
    else
      let r := source.skipWhile isHexDigit
      let source := r.1
      let numDigits := r.2
      if numDigits = 0 then (false, source)
      else skipNumberSuffix source

/-- Source `isOctalDigit`. -/
def isOctalDigit (c : Char) : Bool :=
  decide (c ≥ '0') && decide (c ≤ '7')

/-- Source `parseOctalLiteral`. -/
def parseOctalLiteral (source : Iterator) : Bool × Iterator :=
  let r := source.nextChar
  let source := r.2
  if r.1 ≠ '0' then (false, source)
  else
    let r := source.nextChar
    let source := r.2
    if ¬ isOctalDigit r.1 then (false, source)
    else
      let source := (source.skipWhile isOctalDigit).1
      skipNumberSuffix source

/-- Source `isDecimalDigit`. -/
def isDecimalDigit (c : Char) : Bool :=
  decide (c ≥ '0') && decide (c ≤ '9')

/-- Source `parseDecimalLiteral`. -/
def parseDecimalLiteral (source : Iterator) : Bool × Iterator :=
  let r := source.skipWhile isDecimalDigit
  let source := r.1
  let numChars := r.2
  if numChars = 0 then (false, source)
  else skipNumberSuffix source

/-- The mantissa part of `parseFloatLiteral` (from `int numDigits = 0` to the
end of the `if (hasPoint)` block): a run of digits, then a point and a second
run of digits when the next character is `.`.  Returns the iterator,
`numDigits` and `hasPoint`. -/
def parseFloatMantissa (source : Iterator) : Iterator × Nat × Bool :=
  let r := source.skipWhile isDecimalDigit
  let source := r.1
  let numDigits := r.2
  let hasPoint : Bool := source.peekNextChar = '.'
  if hasPoint then
    let r := source.skip.skipWhile isDecimalDigit
    (r.1, numDigits + r.2, hasPoint)
  else (source, numDigits, hasPoint)

/-- The exponent part of `parseFloatLiteral` (from `juce_wchar c = ...` to the
end of the `if (hasExponent)` block).  Returns `false` first when the source
returns false there (`numExpDigits == 0`), then `hasExponent` and the
iterator. -/
def parseFloatExponent (source : Iterator) : Bool × Bool × Iterator :=
  let c := source.peekNextChar
  let hasExponent : Bool := c = 'e' ∨ c = 'E'
  if hasExponent then
    let source := source.skip
    let c := source.peekNextChar
    let source := if c = '+' ∨ c = '-' then source.skip else source
    let r := source.skipWhile isDecimalDigit
    let source := r.1
    let numExpDigits := r.2
    if numExpDigits = 0 then (false, hasExponent, source)
    else (true, hasExponent, source)
  else (true, hasExponent, source)

/-- Source `parseFloatLiteral`: the mantissa, `if (numDigits == 0) return
false`, the exponent, then the `f`/`F` suffix test. -/
def parseFloatLiteral (source : Iterator) : Bool × Iterator :=
  let m := parseFloatMantissa source
  let source := m.1
  let numDigits := m.2.1
  let hasPoint := m.2.2
  if numDigits = 0 then (false, source)
  else
    let e := parseFloatExponent source
    let hasExponent := e.2.1
    let source := e.2.2
    if e.1 = false then (false, source)
    else
      let c := source.peekNextChar
      if c = 'f' ∨ c = 'F' then (true, source.skip)
      else if ¬ (hasExponent = true ∨ hasPoint = true) then (false, source)
      else (true, source)

/-- Source `parseNumber`: the four literal grammars in order, each tried on a
copy of the original iterator; when all fail one character is skipped. -/
def parseNumber (source : Iterator) : Int × Iterator :=
  let original := source
  let r := parseFloatLiteral source
  if r.1 then (tokenType_floatLiteral, r.2)
  else
    let r := parseHexLiteral original
    if r.1 then (tokenType_integerLiteral, r.2)
    else
      let r := parseOctalLiteral original
      if r.1 then (tokenType_integerLiteral, r.2)
      else
        let r := parseDecimalLiteral original
        if r.1 then (tokenType_integerLiteral, r.2)
        else (tokenType_error, original.skip)

/-- The `for (;;)` loop of `skipQuotedString` on the text ahead, after the
opening quote has been read: `nextChar` until the quote or the sentinel 0;
after a backslash one more character is skipped. -/
def skipQuotedStringLoop (quote : Char) : List Char → Nat → Iterator
  | [], position => ⟨[], position⟩
  | c :: rest, position =>
    if c = quote ∨ c = '\x00' then ⟨rest, position + 1⟩
    else if c = '\\' then
      match rest with
      | [] => ⟨[], position + 1⟩
      | _ :: rest2 => skipQuotedStringLoop quote rest2 (position + 2)
    else skipQuotedStringLoop quote rest (position + 1)

/-- Source `skipQuotedString`. -/
def skipQuotedString (source : Iterator) : Iterator :=
  let r := source.nextChar
  let quote := r.1
  let source := r.2
  skipQuotedStringLoop quote source.remaining source.position

/-- The `for (;;)` loop of `skipComment` on the text ahead: `nextChar` until
the sentinel 0 or a `/` that follows a `*`. -/
def skipCommentLoop : List Char → Nat → Bool → Iterator
  | [], position, _ => ⟨[], position⟩
  | c :: rest, position, lastWasStar =>
    if c = '\x00' ∨ (c = '/' ∧ lastWasStar = true) then ⟨rest, position + 1⟩
    else skipCommentLoop rest (position + 1) (decide (c = '*'))

/-- Source `skipComment`. -/
def skipComment (source : Iterator) : Iterator :=
  skipCommentLoop source.remaining source.position false

end CppTokeniser

namespace CPlusPlusCodeTokeniser

open CharacterFunctions

/-- The body shared by the cases `'<'`, `'>'`, `'|'`, `'&'` and `'^'` of
`readNextToken`, entered after the first character has been skipped: a
following `=` is skipped; otherwise a following `partner` is skipped, and a
`=` after it as well. -/
def skipOperatorTail (partner : Char) (source : Iterator) : Iterator :=
  if source.peekNextChar = '=' then source.skip
  else if source.peekNextChar = partner then
    let source := source.skip
    if source.peekNextChar = '=' then source.skip else source
  else source

/-- Source `CPlusPlusCodeTokeniser::readNextToken`: the category of the next
token and the iterator after it. -/
def readNextToken (source : Iterator) : Int × Iterator :=
  let result := tokenType_error
  let source := source.skipWhitespace
  let firstChar := source.peekNextChar
  if firstChar = '\x00' then (result, source.skip)
  else if firstChar = '0' ∨ firstChar = '1' ∨ firstChar = '2' ∨ firstChar = '3'
      ∨ firstChar = '4' ∨ firstChar = '5' ∨ firstChar = '6' ∨ firstChar = '7'
      ∨ firstChar = '8' ∨ firstChar = '9' then
    CppTokeniser.parseNumber source
  else if firstChar = '.' then
    let r := CppTokeniser.parseNumber source
    if r.1 = tokenType_error then (tokenType_punctuation, r.2) else r
  else if firstChar = ',' ∨ firstChar = ';' ∨ firstChar = ':' then
    (tokenType_punctuation, source.skip)
  else if firstChar = '(' ∨ firstChar = ')' ∨ firstChar = '{' ∨ firstChar = '}'
      ∨ firstChar = '[' ∨ firstChar = ']' then
    (tokenType_bracket, source.skip)
  else if firstChar = '"' ∨ firstChar = '\'' then
    (tokenType_stringLiteral, CppTokeniser.skipQuotedString source)
  else if firstChar = '+' then
    let source := source.skip
    if source.peekNextChar = '+' then (tokenType_operator, source.skip)
    else if source.peekNextChar = '=' then (tokenType_operator, source.skip)
    else (tokenType_operator, source)
  else if firstChar = '-' then
    let source := source.skip
    let r := CppTokeniser.parseNumber source
    let source := r.2
    if r.1 = tokenType_error then
      if source.peekNextChar = '-' then (tokenType_operator, source.skip)
      else if source.peekNextChar = '=' then (tokenType_operator, source.skip)
      else (tokenType_operator, source)
    else r
  else if firstChar = '*' ∨ firstChar = '%' ∨ firstChar = '=' ∨ firstChar = '!' then
    let source := source.skip
    if source.peekNextChar = '=' then (tokenType_operator, source.skip)
    else (tokenType_operator, source)
  else if firstChar = '/' then
    let source := source.skip
    if source.peekNextChar = '=' then (tokenType_operator, source.skip)
    else if source.peekNextChar = '/' then (tokenType_comment, source.skipToEndOfLine)
    else if source.peekNextChar = '*' then
      (tokenType_comment, CppTokeniser.skipComment source.skip)
    else (tokenType_operator, source)
  else if firstChar = '?' ∨ firstChar = '~' then
    (tokenType_operator, source.skip)
  else if firstChar = '<' then
    (tokenType_operator, skipOperatorTail '<' source.skip)
  else if firstChar = '>' then
    (tokenType_operator, skipOperatorTail '<' source.skip)
  else if firstChar = '|' then
    (tokenType_operator, skipOperatorTail '|' source.skip)
  else if firstChar = '&' then
    (tokenType_operator, skipOperatorTail '&' source.skip)
  else if firstChar = '^' then
    (tokenType_operator, skipOperatorTail '^' source.skip)
  else if firstChar = '#' then
    (tokenType_preprocessor, source.skipToEndOfLine)
  else if CppTokeniser.isIdentifierStart firstChar then
    CppTokeniser.parseIdentifier source
  else (result, source.skip)

/-- The iterator at the start of a document. -/
def startOf (text : String) : Iterator :=
  ⟨text.toList, 0⟩

end CPlusPlusCodeTokeniser

/-! ## Definitions used to state the properties -/

namespace CodeDocument.Iterator

/-- `Ahead a b`: the cursor `b` is reached from `a` by consuming characters:
the text ahead of `b` is a suffix of the text ahead of `a` and the position
has grown by the number of characters dropped. -/
def Ahead (a b : Iterator) : Prop :=
  b.remaining <:+ a.remaining ∧
    b.position + b.remaining.length = a.position + a.remaining.length

end CodeDocument.Iterator

namespace CppTokeniser

/-- The content of a zero-terminated character array: the characters before
the first zero. -/
def cString : List Char → List Char
  | [] => []
  | c :: rest => if c = '\x00' then [] else c :: cString rest

/-- The content of the array `possibleIdentifier` after the loop of
`parseIdentifier` has consumed `run`, when `tokenLength` was `k` and the array
held `buffer` before: the writes of the loop, one after the other. -/
def storeRun : Nat → List Char → List Char → List Char
  | _, [], buffer => buffer
  | k, c :: run, buffer =>
    storeRun (k + 1) run (if k < 19 - 1 then buffer.set k c else buffer)

/-- A character after which `skipNumberSuffix` rejects: a letter or digit that
is not one of the suffix letters `l`, `L`, `u`, `U`. -/
def rejectsSuffix (x : Char) : Prop :=
  CharacterFunctions.isLetterOrDigit x = true ∧ ¬ (x = 'l' ∨ x = 'L' ∨ x = 'u' ∨ x = 'U')

/-- In the body `t` of a quoted string (the text after the opening quote),
the character at index `i` directly follows a consumed backslash: the
character before it is a backslash that does not itself directly follow a
consumed backslash. -/
def followsBackslash (t : List Char) : Nat → Bool
  | 0 => false
  | i + 1 => decide (t.getD i '\x00' = '\\') && !followsBackslash t i

/-- The character at index `i` of the body `t` closes a string opened with
`quote`: it is the same quote and does not directly follow a consumed
backslash. -/
def closesString (quote : Char) (t : List Char) (i : Nat) : Bool :=
  decide (t.get? i = some quote) && !followsBackslash t i

/-- The spellings listed in the six keyword arrays of `isReservedKeyword`. -/
def keywordSpellings : List (List Char) :=
  keywords2Char ++ keywords3Char ++ keywords4Char ++ keywords5Char ++ keywords6Char
    ++ keywordsOther

end CppTokeniser

namespace CPlusPlusCodeTokeniser

/-- The driver of the tokeniser: `readNextToken` is called again and again
until the iterator reports the end of the input.  Each call is recorded as
its category, the position before the call and the position after it.  At
most `fuel` calls are made; `none` when the end is not reached with them. -/
def tokeniseWith : Nat → Iterator → Option (List (Int × Nat × Nat))
  | 0, source => if source.isEOF then some [] else none
  | fuel + 1, source =>
    if source.isEOF then some []
    else
      let r := readNextToken source
      (tokeniseWith fuel r.2).map
        (fun spans => (r.1, source.position, r.2.position) :: spans)

/-- The spans of a tokenisation are contiguous from `start` to `stop`: the
first begins at `start`, each one is non-empty and begins where the one
before it ended, and the last one ends at `stop`. -/
def spansContiguous : Nat → List (Int × Nat × Nat) → Nat → Prop
  | start, [], stop => start = stop
  | start, (_, a, b) :: spans, stop => a = start ∧ a < b ∧ spansContiguous b spans stop

/-- The characters of `text` in the span `[a, b)`. -/
def spanText (text : List Char) (span : Int × Nat × Nat) : List Char :=
  (text.drop span.2.1).take (span.2.2 - span.2.1)

end CPlusPlusCodeTokeniser

namespace CppTokeniser

/-- The two characters at indices `i` and `i + 1` of the body `t` of a block
comment (the text after the opening `/*`) are `*/`. -/
def closesComment (t : List Char) (i : Nat) : Prop :=
  t.get? i = some '*' ∧ t.get? (i + 1) = some '/'

end CppTokeniser

namespace CPlusPlusCodeTokeniser

/-- The local array `colours` of `getDefaultColour`, one ARGB value for each
token category. -/
def colours : List Nat :=
  [0xffcc0000,  -- error
   0xff00aa00,  -- comment
   0xff0000cc,  -- keyword
   0xff000000,  -- identifier
   0xff880000,  -- int literal
   0xff885500,  -- float literal
   0xff990099,  -- string literal
   0xff225500,  -- operator
   0xff000055,  -- bracket
   0xff004400,  -- punctuation
   0xff660000]  -- preprocessor

/-- Modelled from the spec: `Colours::black` of `juce_Colours.h`, the fallback
colour 0xff000000.  A `Colour` is its ARGB value. -/
def black : Nat := 0xff000000

/-- Source `CPlusPlusCodeTokeniser::getDefaultColour`.  The array read
`colours [tokenType]` is a checked read: `none` stands for a read outside the
array.  `numElementsInArray (colours)` is the length of the array. -/
def getDefaultColour (tokenType : Int) : Option Nat :=
  if tokenType ≥ 0 ∧ tokenType < (colours.length : Int) then
    colours.get? tokenType.toNat
  else some black

end CPlusPlusCodeTokeniser

namespace CppTokeniser

open CharacterFunctions CPlusPlusCodeTokeniser

/-- The `while` loop of `parseIdentifier` together with a record of its array
writes: next to what `parseIdentifierLoop` returns, the indices at which
`possibleIdentifier [tokenLength] = c` was executed, in order. -/
def parseIdentifierLoopTraced :
    List Char → Nat → Nat → List Char → (Iterator × Nat × List Char) × List Nat
  | [], position, tokenLength, possibleIdentifier =>
    ((⟨[], position⟩, tokenLength, possibleIdentifier), [])
  | c :: rest, position, tokenLength, possibleIdentifier =>
    if isIdentifierBody c then
      if tokenLength < 19 - 1 then
        let r := parseIdentifierLoopTraced rest (position + 1) (tokenLength + 1)
          (possibleIdentifier.set tokenLength c)
        (r.1, tokenLength :: r.2)
      else parseIdentifierLoopTraced rest (position + 1) (tokenLength + 1) possibleIdentifier
    else ((⟨c :: rest, position⟩, tokenLength, possibleIdentifier), [])

/-- What one call of `parseIdentifier` does to its array `possibleIdentifier`. -/
structure IdentifierTrace where
  /-- The category returned and the iterator after the call. -/
  result : Int × Iterator
  /-- The indices of the character writes of the loop, in order. -/
  charWrites : List Nat
  /-- The index of the write `possibleIdentifier [tokenLength] = 0`, when it is made. -/
  terminatorWrite : Option Nat
  /-- The array and the length passed to `isReservedKeyword`, when it is called. -/
  lookupArguments : Option (List Char × Int)

/-- Source `parseIdentifier` together with the record of its array writes and
of the arguments of the keyword lookup. -/
def parseIdentifierTraced (possibleIdentifier : List Char) (source : Iterator) :
    IdentifierTrace :=
  let r := parseIdentifierLoopTraced source.remaining source.position 0 possibleIdentifier
  let source := r.1.1
  let tokenLength := r.1.2.1
  let possibleIdentifier := r.1.2.2
  if tokenLength > 1 ∧ tokenLength ≤ 16 then
    let possibleIdentifier := possibleIdentifier.set tokenLength '\x00'
    if CppTokeniser.isReservedKeyword possibleIdentifier (tokenLength : Int) then
      ⟨(tokenType_builtInKeyword, source), r.2, some tokenLength,
        some (possibleIdentifier, (tokenLength : Int))⟩
    else
      ⟨(tokenType_identifier, source), r.2, some tokenLength,
        some (possibleIdentifier, (tokenLength : Int))⟩
  else ⟨(tokenType_identifier, source), r.2, none, none⟩

end CppTokeniser

namespace CPlusPlusCodeTokeniser

/-- The characters, other than the end sentinel and the digits, that have a
case of their own in the `switch` of `readNextToken`. -/
def switchChars : List Char :=
  ['.', ',', ';', ':', '(', ')', '{', '}', '[', ']', '"', '\'', '+', '-', '*', '%', '=',
   '!', '/', '?', '~', '<', '>', '|', '&', '^', '#']

end CPlusPlusCodeTokeniser

namespace CppTokeniser

/-- The text `ex` is an exponent: `e` or `E`, an optional `+` or `-`, one or
more decimal digits. -/
def isExponentForm (ex : List Char) : Prop :=
  ∃ (e : Char) (sign digits : List Char), ex = e :: (sign ++ digits)
    ∧ (e = 'e' ∨ e = 'E') ∧ (sign = [] ∨ sign = ['+'] ∨ sign = ['-'])
    ∧ digits ≠ [] ∧ ∀ x ∈ digits, isDecimalDigit x = true

/-- The text `p` has the form of a float literal: an optional run `d1` of
decimal digits, an optional `.` followed by an optional run `d2` of digits, an
optional exponent, an optional `f` or `F`, where the mantissa holds at least
one digit and at least one of the point, the exponent and the suffix is
there. -/
def isFloatForm (p : List Char) : Prop :=
  ∃ d1 point d2 ex suffix : List Char, p = d1 ++ point ++ d2 ++ ex ++ suffix
    ∧ (∀ x ∈ d1, isDecimalDigit x = true)
    ∧ ((point = [] ∧ d2 = []) ∨ (point = ['.'] ∧ ∀ x ∈ d2, isDecimalDigit x = true))
    ∧ (ex = [] ∨ isExponentForm ex)
    ∧ (suffix = [] ∨ suffix = ['f'] ∨ suffix = ['F'])
    ∧ (d1 ≠ [] ∨ d2 ≠ [])
    ∧ (point ≠ [] ∨ ex ≠ [] ∨ suffix ≠ [])

/-- The text that follows the longest mantissa at the start of `s`: the
longest run of digits is dropped, and when a `.` follows, the point and the
longest run of digits after it as well. -/
def afterMantissa (s : List Char) : List Char :=
  let r := s.dropWhile isDecimalDigit
  if r.headD '\x00' = '.' then r.tail.dropWhile isDecimalDigit else r

/-- The text `r` starts with `e` or `E` that is not followed by an optional
sign and a digit: an exponent that is begun and not completed. -/
def danglingExponentAt (r : List Char) : Bool :=
  if r.headD '\x00' = 'e' ∨ r.headD '\x00' = 'E' then
    let r1 := r.tail
    let r2 := if r1.headD '\x00' = '+' ∨ r1.headD '\x00' = '-' then r1.tail else r1
    !isDecimalDigit (r2.headD '\x00')
  else false

/-- The longest mantissa at the start of `s` is followed by an exponent that
is begun and not completed. -/
def danglingExponent (s : List Char) : Bool :=
  danglingExponentAt (afterMantissa s)

end CppTokeniser

namespace CodeDocument.Iterator

/-- The same text ahead, seen `k` characters further into the document. -/
def shift (k : Nat) (source : Iterator) : Iterator :=
  ⟨source.remaining, source.position + k⟩

end CodeDocument.Iterator

/-! ## The iterator only moves forward -/

namespace CodeDocument.Iterator

theorem Ahead.refl (a : Iterator) : Ahead a a :=
  ⟨List.suffix_refl _, rfl⟩

theorem Ahead.trans {a b c : Iterator} (h₁ : Ahead a b) (h₂ : Ahead b c) : Ahead a c :=
  ⟨h₂.1.trans h₁.1, h₂.2.trans h₁.2⟩

theorem Ahead.length_le {a b : Iterator} (h : Ahead a b) :
    b.remaining.length ≤ a.remaining.length :=
  h.1.length_le

theorem Ahead.position_le {a b : Iterator} (h : Ahead a b) : a.position ≤ b.position := by
  have h₁ := h.length_le
  have h₂ := h.2
  omega

theorem Ahead.mk_cons (c : Char) (rest : List Char) (position : Nat) :
    Ahead ⟨c :: rest, position⟩ ⟨rest, position + 1⟩ :=
  ⟨List.suffix_cons c rest, by simp only [List.length_cons]; omega⟩

theorem skip_cons (c : Char) (rest : List Char) (position : Nat) :
    skip ⟨c :: rest, position⟩ = ⟨rest, position + 1⟩ := rfl

theorem skip_nil (position : Nat) : skip ⟨[], position⟩ = ⟨[], position⟩ := rfl

theorem ahead_skip (a : Iterator) : Ahead a a.skip := by
  obtain ⟨l, p⟩ := a
  cases l with
  | nil => exact Ahead.refl _
  | cons c rest => exact Ahead.mk_cons c rest p

theorem length_skip (a : Iterator) (h : a.remaining ≠ []) :
    a.skip.remaining.length + 1 = a.remaining.length := by
  obtain ⟨l, p⟩ := a
  cases l with
  | nil => exact absurd rfl h
  | cons c rest => rfl

theorem remaining_ne_nil_of_peek {a : Iterator} (h : a.peekNextChar ≠ '\x00') :
    a.remaining ≠ [] := by
  intro hnil
  apply h
  simp [peekNextChar, hnil]

theorem skipWhileFrom_eq (p : Char → Bool) (l : List Char) (position count : Nat) :
    skipWhileFrom p l position count
      = (⟨l.dropWhile p, position + (l.takeWhile p).length⟩,
          count + (l.takeWhile p).length) := by
  induction l generalizing position count with
  | nil => simp [skipWhileFrom]
  | cons c rest ih =>
    by_cases hc : p c = true
    · simp [skipWhileFrom, hc, ih, List.takeWhile_cons, List.dropWhile_cons]
      omega
    · simp [skipWhileFrom, hc, List.takeWhile_cons, List.dropWhile_cons]

theorem skipWhile_eq (p : Char → Bool) (a : Iterator) :
    a.skipWhile p
      = (⟨a.remaining.dropWhile p, a.position + (a.remaining.takeWhile p).length⟩,
          (a.remaining.takeWhile p).length) := by
  simp [skipWhile, skipWhileFrom_eq]

theorem ahead_skipWhile (p : Char → Bool) (a : Iterator) : Ahead a (a.skipWhile p).1 := by
  rw [skipWhile_eq]
  refine ⟨List.dropWhile_suffix p, ?_⟩
  have h := congrArg List.length (List.takeWhile_append_dropWhile p a.remaining)
  simp only [List.length_append] at h
  simp only
  omega

theorem length_skipWhile (p : Char → Bool) (a : Iterator) :
    (a.skipWhile p).1.remaining.length + (a.skipWhile p).2 = a.remaining.length := by
  rw [skipWhile_eq]
  have h := congrArg List.length (List.takeWhile_append_dropWhile p a.remaining)
  simp only [List.length_append] at h
  simp only
  omega

theorem Ahead.remaining_eq {a b : Iterator} (h : Ahead a b) :
    a.remaining = a.remaining.take (b.position - a.position) ++ b.remaining := by
  obtain ⟨⟨t, ht⟩, hpos⟩ := h
  have hlen : t.length + b.remaining.length = a.remaining.length := by
    rw [← ht, List.length_append]
  have hk : b.position - a.position = t.length := by omega
  rw [hk, ← ht, List.take_left]

theorem Ahead.drop_eq {a b : Iterator} (h : Ahead a b) :
    a.remaining.drop (b.position - a.position) = b.remaining := by
  obtain ⟨⟨t, ht⟩, hpos⟩ := h
  have hlen : t.length + b.remaining.length = a.remaining.length := by
    rw [← ht, List.length_append]
  have hk : b.position - a.position = t.length := by omega
  rw [hk, ← ht, List.drop_left]

theorem Ahead.to_skip {a b : Iterator} (h : Ahead a b) : Ahead a b.skip :=
  h.trans (ahead_skip b)

theorem Ahead.to_skipWhile {a b : Iterator} (p : Char → Bool) (h : Ahead a b) :
    Ahead a (b.skipWhile p).1 :=
  h.trans (ahead_skipWhile p b)

theorem ahead_skipWhitespace (a : Iterator) : Ahead a a.skipWhitespace :=
  ahead_skipWhile _ a

theorem ahead_skipToEndOfLineFrom (l : List Char) (position : Nat) :
    Ahead ⟨l, position⟩ (skipToEndOfLineFrom l position) := by
  induction l generalizing position with
  | nil => exact Ahead.refl _
  | cons c rest ih =>
    unfold skipToEndOfLineFrom
    split
    · exact Ahead.mk_cons c rest position
    · exact (Ahead.mk_cons c rest position).trans (ih (position + 1))

theorem ahead_skipToEndOfLine (a : Iterator) : Ahead a a.skipToEndOfLine :=
  ahead_skipToEndOfLineFrom a.remaining a.position

theorem length_skipToEndOfLine (a : Iterator) (h : a.remaining ≠ []) :
    a.skipToEndOfLine.remaining.length < a.remaining.length := by
  obtain ⟨l, p⟩ := a
  cases l with
  | nil => exact absurd rfl h
  | cons c rest =>
    show (skipToEndOfLineFrom (c :: rest) p).remaining.length < (c :: rest).length
    unfold skipToEndOfLineFrom
    split
    · simp
    · have := (ahead_skipToEndOfLineFrom rest (p + 1)).length_le
      simp only [List.length_cons]
      simp only at this
      omega

end CodeDocument.Iterator

namespace CppTokeniser

open CharacterFunctions CPlusPlusCodeTokeniser CodeDocument.Iterator

theorem ahead_skipNumberSuffix (a : Iterator) : Ahead a (skipNumberSuffix a).2 := by
  unfold skipNumberSuffix
  dsimp only
  split_ifs <;> first | exact ahead_skip a | exact Ahead.refl a

theorem ahead_parseHexLiteral (a : Iterator) : Ahead a (parseHexLiteral a).2 := by
  unfold parseHexLiteral nextChar
  dsimp only
  have h1 := ahead_skip a
  have h2 := h1.trans (ahead_skip a.skip)
  have h3 := h2.trans (ahead_skipWhile isHexDigit a.skip.skip)
  split_ifs
  · exact h1
  · exact h2
  · exact h3
  · exact h3.trans (ahead_skipNumberSuffix _)

theorem length_parseHexLiteral (a : Iterator) (h : (parseHexLiteral a).1 = true) :
    (parseHexLiteral a).2.remaining.length < a.remaining.length := by
  have hne : a.remaining ≠ [] := by
    apply remaining_ne_nil_of_peek
    intro h0
    simp [parseHexLiteral, nextChar, h0] at h
  have h1 := length_skip a hne
  revert h
  unfold parseHexLiteral nextChar
  dsimp only
  have h2 := (ahead_skip a.skip).length_le
  have h3 := (ahead_skipWhile isHexDigit a.skip.skip).length_le
  have h4 := (ahead_skipNumberSuffix (a.skip.skip.skipWhile isHexDigit).1).length_le
  split_ifs <;> intro h <;> first | omega | simp at h

theorem ahead_parseOctalLiteral (a : Iterator) : Ahead a (parseOctalLiteral a).2 := by
  unfold parseOctalLiteral nextChar
  dsimp only
  have h1 := ahead_skip a
  have h2 := h1.trans (ahead_skip a.skip)
  have h3 := h2.trans (ahead_skipWhile isOctalDigit a.skip.skip)
  split_ifs <;> first | exact h1 | exact h2 | exact h3.trans (ahead_skipNumberSuffix _)

theorem length_parseOctalLiteral (a : Iterator) (h : (parseOctalLiteral a).1 = true) :
    (parseOctalLiteral a).2.remaining.length < a.remaining.length := by
  have hne : a.remaining ≠ [] := by
    apply remaining_ne_nil_of_peek
    intro h0
    simp [parseOctalLiteral, nextChar, h0] at h
  have h1 := length_skip a hne
  revert h
  unfold parseOctalLiteral nextChar
  dsimp only
  have h2 := (ahead_skip a.skip).length_le
  have h5 := (ahead_skipWhile isOctalDigit a.skip.skip).length_le
  have h6 := (ahead_skipNumberSuffix (a.skip.skip.skipWhile isOctalDigit).1).length_le
  split_ifs <;> intro h <;> first | omega | simp at h

theorem ahead_parseDecimalLiteral (a : Iterator) : Ahead a (parseDecimalLiteral a).2 := by
  unfold parseDecimalLiteral
  dsimp only
  have h1 := ahead_skipWhile isDecimalDigit a
  split_ifs
  · exact h1
  · exact h1.trans (ahead_skipNumberSuffix _)

theorem length_parseDecimalLiteral (a : Iterator) (h : (parseDecimalLiteral a).1 = true) :
    (parseDecimalLiteral a).2.remaining.length < a.remaining.length := by
  revert h
  unfold parseDecimalLiteral
  dsimp only
  have h1 := length_skipWhile isDecimalDigit a
  have h2 := (ahead_skipNumberSuffix (a.skipWhile isDecimalDigit).1).length_le
  split_ifs <;> intro h <;> first | omega | simp at h

theorem ahead_parseFloatMantissa (a : Iterator) : Ahead a (parseFloatMantissa a).1 := by
  unfold parseFloatMantissa
  dsimp only
  split_ifs <;>
    repeat (first
      | exact Ahead.refl _
      | apply Ahead.to_skip
      | apply Ahead.to_skipWhile)

theorem length_parseFloatMantissa (a : Iterator) (h : (parseFloatMantissa a).2.1 ≠ 0) :
    (parseFloatMantissa a).1.remaining.length < a.remaining.length := by
  have h1 := length_skipWhile isDecimalDigit a
  have h2 := (ahead_skip (a.skipWhile isDecimalDigit).1).length_le
  have h3 := (ahead_skipWhile isDecimalDigit (a.skipWhile isDecimalDigit).1.skip).length_le
  revert h
  unfold parseFloatMantissa
  dsimp only
  split_ifs with hp <;> dsimp only
  · intro _
    have := length_skip _ (remaining_ne_nil_of_peek
      (a := (a.skipWhile isDecimalDigit).1) (by rw [of_decide_eq_true hp]; decide))
    omega
  · intro h
    omega

theorem ahead_parseFloatExponent (a : Iterator) : Ahead a (parseFloatExponent a).2.2 := by
  unfold parseFloatExponent
  dsimp only
  split_ifs <;>
    repeat (first
      | exact Ahead.refl _
      | apply Ahead.to_skip
      | apply Ahead.to_skipWhile)

theorem ahead_parseFloatLiteral (a : Iterator) : Ahead a (parseFloatLiteral a).2 := by
  have h1 := ahead_parseFloatMantissa a
  have h2 := h1.trans (ahead_parseFloatExponent _)
  unfold parseFloatLiteral
  dsimp only
  split_ifs <;> first | exact h1 | exact h2 | exact h2.to_skip

theorem length_parseFloatLiteral (a : Iterator) (h : (parseFloatLiteral a).1 = true) :
    (parseFloatLiteral a).2.remaining.length < a.remaining.length := by
  have h1 := length_parseFloatMantissa a
  have h2 := (ahead_parseFloatExponent (parseFloatMantissa a).1).length_le
  have h3 := (ahead_skip (parseFloatExponent (parseFloatMantissa a).1).2.2).length_le
  revert h
  unfold parseFloatLiteral
  dsimp only
  split_ifs with hn <;> dsimp only <;> intro h <;> first
    | (simp at h; done)
    | (have hlt := h1 hn; omega)

theorem ahead_parseNumber (a : Iterator) : Ahead a (parseNumber a).2 := by
  unfold parseNumber
  dsimp only
  split_ifs <;> first
    | exact ahead_parseFloatLiteral a
    | exact ahead_parseHexLiteral a
    | exact ahead_parseOctalLiteral a
    | exact ahead_parseDecimalLiteral a
    | exact ahead_skip a

theorem length_parseNumber (a : Iterator) (h : a.remaining ≠ []) :
    (parseNumber a).2.remaining.length < a.remaining.length := by
  have h0 := length_skip a h
  unfold parseNumber
  dsimp only
  split_ifs with h1 h2 h3 h4 <;> dsimp only
  · exact length_parseFloatLiteral a h1
  · exact length_parseHexLiteral a h2
  · exact length_parseOctalLiteral a h3
  · exact length_parseDecimalLiteral a h4
  · omega

theorem parseIdentifierLoop_fst (l : List Char) (position tokenLength : Nat)
    (possibleIdentifier : List Char) :
    (parseIdentifierLoop l position tokenLength possibleIdentifier).1
        = ⟨l.dropWhile isIdentifierBody, position + (l.takeWhile isIdentifierBody).length⟩
      ∧ (parseIdentifierLoop l position tokenLength possibleIdentifier).2.1
        = tokenLength + (l.takeWhile isIdentifierBody).length := by
  induction l generalizing position tokenLength possibleIdentifier with
  | nil => simp [parseIdentifierLoop]
  | cons c rest ih =>
    unfold parseIdentifierLoop
    by_cases hc : isIdentifierBody c = true
    · simp only [hc, if_true, List.takeWhile_cons, List.dropWhile_cons, List.length_cons]
      rw [(ih _ _ _).1, (ih _ _ _).2]
      constructor
      · congr 1; omega
      · omega
    · simp [hc, List.takeWhile_cons, List.dropWhile_cons]

theorem ahead_skipQuotedStringLoop (quote : Char) (l : List Char) (position : Nat) :
    Ahead ⟨l, position⟩ (skipQuotedStringLoop quote l position) := by
  induction l, position using skipQuotedStringLoop.induct quote with
  | case1 position => exact Ahead.refl _
  | case2 c rest position h =>
    unfold skipQuotedStringLoop
    rw [if_pos h]
    exact Ahead.mk_cons _ _ _
  | case3 position h =>
    unfold skipQuotedStringLoop
    simp only [h, if_false, if_true]
    exact Ahead.mk_cons _ _ _
  | case4 position c2 rest2 h ih =>
    unfold skipQuotedStringLoop
    simp only [h, if_false, if_true]
    exact ((Ahead.mk_cons _ _ _).trans (Ahead.mk_cons _ _ _)).trans ih
  | case5 c rest position h hb ih =>
    unfold skipQuotedStringLoop
    simp only [h, hb, if_false]
    exact (Ahead.mk_cons _ _ _).trans ih

theorem parseIdentifierFrom_snd (buffer : List Char) (a : Iterator) :
    (parseIdentifierFrom buffer a).2 = (a.skipWhile isIdentifierBody).1 := by
  unfold parseIdentifierFrom
  dsimp only
  rw [skipWhile_eq]
  split_ifs <;> exact (parseIdentifierLoop_fst _ _ _ _).1

theorem ahead_parseIdentifier (a : Iterator) : Ahead a (parseIdentifier a).2 := by
  unfold parseIdentifier
  rw [parseIdentifierFrom_snd]
  exact ahead_skipWhile _ a

theorem isIdentifierBody_of_start {c : Char} (h : isIdentifierStart c = true) :
    isIdentifierBody c = true := by
  simp only [isIdentifierStart, isIdentifierBody, isLetterOrDigit, Bool.or_eq_true] at h ⊢
  tauto

theorem skipWhile_of_peek (p : Char → Bool) (a : Iterator) (h : p a.peekNextChar = true)
    (hne : a.remaining ≠ []) : (a.skipWhile p).1 = (a.skip.skipWhile p).1 := by
  obtain ⟨l, pos⟩ := a
  cases l with
  | nil => exact absurd rfl hne
  | cons c rest =>
    have hc : p c = true := h
    simp only [skipWhile_eq, skip_cons, List.dropWhile_cons, List.takeWhile_cons, hc, if_true,
      List.length_cons]
    congr 1
    omega

theorem ahead_skipQuotedString (a : Iterator) : Ahead a.skip (skipQuotedString a) := by
  unfold skipQuotedString nextChar
  exact ahead_skipQuotedStringLoop _ _ _

theorem ahead_skipCommentLoop (l : List Char) (position : Nat) (lastWasStar : Bool) :
    Ahead ⟨l, position⟩ (skipCommentLoop l position lastWasStar) := by
  induction l generalizing position lastWasStar with
  | nil => exact Ahead.refl _
  | cons c rest ih =>
    unfold skipCommentLoop
    split_ifs
    · exact Ahead.mk_cons _ _ _
    · exact (Ahead.mk_cons _ _ _).trans (ih _ _)

theorem ahead_skipComment (a : Iterator) : Ahead a (skipComment a) :=
  ahead_skipCommentLoop _ _ _

end CppTokeniser

namespace CPlusPlusCodeTokeniser

open CharacterFunctions CppTokeniser CodeDocument.Iterator

/-- A property of an `if` follows from the property of its two branches. -/
theorem ite_rec {α : Type} (P : α → Prop) {c : Prop} [Decidable c] {x y : α}
    (hx : c → P x) (hy : ¬ c → P y) : P (if c then x else y) := by
  by_cases h : c
  · rw [if_pos h]; exact hx h
  · rw [if_neg h]; exact hy h

theorem ahead_skipOperatorTail (partner : Char) (a : Iterator) :
    Ahead a (skipOperatorTail partner a) := by
  unfold skipOperatorTail
  dsimp only
  split_ifs <;>
    repeat (first
      | exact Ahead.refl _
      | apply Ahead.to_skip)


theorem ahead_readNextToken (a : Iterator) : Ahead a (readNextToken a).2 := by
  unfold readNextToken
  conv => zeta
  have hb := ahead_skipWhitespace a
  generalize a.skipWhitespace = b at hb ⊢
  repeat' (with_reducible
    refine ite_rec (fun r : Int × Iterator => Ahead a r.2) (fun _ => ?_) (fun _ => ?_))
  all_goals dsimp only
  all_goals
    with_reducible repeat (first
      | exact hb
      | apply Ahead.to_skip
      | refine Ahead.trans ?_ (ahead_parseNumber _)
      | refine Ahead.trans ?_ (ahead_skipToEndOfLine _)
      | refine Ahead.trans ?_ (ahead_skipComment _)
      | refine Ahead.trans ?_ (ahead_skipOperatorTail _ _)
      | refine Ahead.trans ?_ (ahead_parseIdentifier _)
      | refine Ahead.trans (Ahead.to_skip ?_) (ahead_skipQuotedString _))

theorem length_readNextToken (a : Iterator) (h : a.remaining ≠ []) :
    (readNextToken a).2.remaining.length < a.remaining.length := by
  have hb := (ahead_skipWhitespace a).length_le
  have hlen : a.remaining.length ≠ 0 := by simpa using h
  unfold readNextToken
  conv => zeta
  generalize a.skipWhitespace = b at hb ⊢
  by_cases hz : b.peekNextChar = '\x00'
  · rw [if_pos hz]
    dsimp only
    by_cases he : b.remaining = []
    · have := (ahead_skip b).length_le
      simp only [he, List.length_nil] at this
      omega
    · have := length_skip _ he
      omega
  · have hne := remaining_ne_nil_of_peek hz
    have hs := length_skip _ hne
    have hnum := length_parseNumber _ hne
    have hstrict : ∀ r : Iterator, Ahead b.skip r → r.remaining.length < a.remaining.length := by
      intro r hr
      have := hr.length_le
      omega
    repeat' (with_reducible
      refine ite_rec (fun r : Int × Iterator => r.2.remaining.length < a.remaining.length)
        (fun _ => ?_) (fun _ => ?_))
    all_goals dsimp only
    all_goals first
      | omega
      | (apply hstrict
         with_reducible repeat (first
          | exact Ahead.refl _
          | apply Ahead.to_skip
          | exact ahead_skipQuotedString _
          | refine Ahead.trans ?_ (ahead_parseNumber _)
          | refine Ahead.trans ?_ (ahead_skipToEndOfLine _)
          | refine Ahead.trans ?_ (ahead_skipComment _)
          | refine Ahead.trans ?_ (ahead_skipOperatorTail _ _))
         done)
      | (have hlt := length_skipToEndOfLine _ hne
         omega)
      | (rename_i hid
         apply hstrict
         unfold parseIdentifier
         rw [parseIdentifierFrom_snd,
           skipWhile_of_peek _ _ (isIdentifierBody_of_start hid) hne]
         exact ahead_skipWhile _ _)

theorem tokeniseWith_spec (text : List Char) :
    ∀ (fuel : Nat) (source : Iterator), source.remaining.length ≤ fuel →
      text.drop source.position = source.remaining →
      ∃ spans, tokeniseWith fuel source = some spans
        ∧ spansContiguous source.position spans (source.position + source.remaining.length)
        ∧ (spans.map (spanText text)).flatten = source.remaining := by
  intro fuel
  induction fuel with
  | zero =>
    intro source hlen _
    have hnil : source.remaining = [] := List.length_eq_zero.mp (Nat.le_zero.mp hlen)
    refine ⟨[], ?_, ?_, ?_⟩
    · simp [tokeniseWith, isEOF, hnil]
    · simp [spansContiguous, hnil]
    · simp [hnil]
  | succ fuel ih =>
    intro source hlen hdoc
    by_cases hnil : source.remaining = []
    · refine ⟨[], ?_, ?_, ?_⟩
      · simp [tokeniseWith, isEOF, hnil]
      · simp [spansContiguous, hnil]
      · simp [hnil]
    · have hahead := ahead_readNextToken source
      have hlt := length_readNextToken source hnil
      have hpos := hahead.2
      have hdoc2 : text.drop (readNextToken source).2.position
          = (readNextToken source).2.remaining := by
        have hp : (readNextToken source).2.position
            = source.position + ((readNextToken source).2.position - source.position) := by
          omega
        rw [hp, ← List.drop_drop, hdoc, hahead.drop_eq]
      obtain ⟨spans, hs, hc, hj⟩ := ih (readNextToken source).2 (by omega) hdoc2
      refine ⟨((readNextToken source).1, source.position, (readNextToken source).2.position)
        :: spans, ?_, ?_, ?_⟩
      · simp [tokeniseWith, isEOF, hnil, hs]
      · refine ⟨rfl, by omega, ?_⟩
        rw [← hpos]
        exact hc
      · rw [List.map_cons, List.flatten_cons, hj]
        simp only [spanText]
        rw [hdoc]
        exact hahead.remaining_eq.symm

end CPlusPlusCodeTokeniser

/-! ## Forward progress and reconstruction of the input -/

namespace CPlusPlusCodeTokeniser

open CharacterFunctions CppTokeniser CodeDocument.Iterator

/-- C1 (forward progress).  When at least one character remains, one call of
`readNextToken` leaves the iterator at a strictly greater position, with
strictly fewer characters ahead of it; hence the driver that repeats the call
reaches the end of the input within as many calls as characters remain. -/
theorem readNextToken_forward_progress (source : Iterator) (h : source.remaining ≠ []) :
    source.position < (readNextToken source).2.position
      ∧ (readNextToken source).2.remaining.length < source.remaining.length
      ∧ (tokeniseWith source.remaining.length source).isSome = true := by
  have hlt := length_readNextToken source h
  have hpos := (ahead_readNextToken source).2
  refine ⟨by omega, hlt, ?_⟩
  obtain ⟨spans, hs, _⟩ := tokeniseWith_spec
    (List.replicate source.position ' ' ++ source.remaining) source.remaining.length source
    (Nat.le_refl _) (List.drop_left' (List.length_replicate _ _))
  rw [hs]
  rfl

theorem readNextToken_forward_progress_witness :
    (startOf "x+1").remaining ≠ []
      ∧ (startOf "x+1").position < (readNextToken (startOf "x+1")).2.position
      ∧ (readNextToken (startOf "x+1")).2.remaining.length < (startOf "x+1").remaining.length
      ∧ (tokeniseWith (startOf "x+1").remaining.length (startOf "x+1")).isSome = true :=
  ⟨by decide, readNextToken_forward_progress (startOf "x+1") (by decide)⟩

/-- C2 (the spans rebuild the input).  Calling `readNextToken` repeatedly from
position 0 until the end of the input terminates; the recorded spans start at
0, each is non-empty and starts where the previous one ended, the last one
ends at the length of the text, and the concatenation of the characters of
the spans is the text. -/
theorem tokenise_spans_reconstruct (text : List Char) :
    ∃ spans, tokeniseWith text.length ⟨text, 0⟩ = some spans
      ∧ spansContiguous 0 spans text.length
      ∧ (spans.map (spanText text)).flatten = text := by
  obtain ⟨spans, hs, hc, hj⟩ := tokeniseWith_spec text text.length ⟨text, 0⟩
    (Nat.le_refl _) rfl
  exact ⟨spans, hs, by simpa using hc, hj⟩

end CPlusPlusCodeTokeniser

/-! ## The keyword table -/

namespace CppTokeniser

open CharacterFunctions

theorem char_eq_of_toNat_eq {c1 c2 : Char} (h : c1.toNat = c2.toNat) : c1 = c2 := by
  have h1 := Char.ofNat_toNat c1
  have h2 := Char.ofNat_toNat c2
  rw [← h1, ← h2, h]

theorem compare_eq_zero : ∀ (s1 s2 : List Char), CharacterFunctions.compare s1 s2 = 0 →
    cString s1 = cString s2
  | [], [], _ => rfl
  | [], c2 :: s2, h => by
    have hc : c2 = '\x00' := by
      apply char_eq_of_toNat_eq
      simp only [CharacterFunctions.compare] at h
      have : ('\x00' : Char).toNat = 0 := by decide
      omega
    simp [cString, hc]
  | c1 :: s1, [], h => by
    have hc : c1 = '\x00' := by
      apply char_eq_of_toNat_eq
      simp only [CharacterFunctions.compare] at h
      have : ('\x00' : Char).toNat = 0 := by decide
      omega
    simp [cString, hc]
  | c1 :: s1, c2 :: s2, h => by
    unfold CharacterFunctions.compare at h
    by_cases hne : c1 ≠ c2
    · rw [if_pos hne] at h
      exact absurd (char_eq_of_toNat_eq (by omega)) hne
    · rw [if_neg hne] at h
      have heq : c1 = c2 := not_not.mp hne
      subst heq
      by_cases h0 : c1 = '\x00'
      · simp [cString, h0]
      · rw [if_neg h0] at h
        have ih := compare_eq_zero s1 s2 h
        simp [cString, h0, ih]

theorem cString_of_nulFree (t rest : List Char) (h : ∀ c ∈ t, c ≠ '\x00') :
    cString (t ++ '\x00' :: rest) = t := by
  induction t with
  | nil => simp [cString]
  | cons c t ih =>
    have hc : c ≠ '\x00' := h c (List.mem_cons_self _ _)
    have ht : ∀ c ∈ t, c ≠ '\x00' := fun c hc => h c (List.mem_cons_of_mem _ hc)
    simp [cString, hc, ih ht]

theorem cString_self_of_nulFree (t : List Char) (h : ∀ c ∈ t, c ≠ '\x00') :
    cString t = t := by
  induction t with
  | nil => rfl
  | cons c t ih =>
    have hc : c ≠ '\x00' := h c (List.mem_cons_self _ _)
    have ht : ∀ c ∈ t, c ≠ '\x00' := fun c hc => h c (List.mem_cons_of_mem _ hc)
    simp [cString, hc, ih ht]

theorem searchKeywords_true (k : List (List Char)) (token : List Char)
    (h : searchKeywords k token = true) : ∃ ki ∈ k, cString ki = cString token := by
  induction k with
  | nil => simp [searchKeywords] at h
  | cons ki k ih =>
    unfold searchKeywords at h
    split_ifs at h with hc
    · exact ⟨ki, List.mem_cons_self _ _, compare_eq_zero _ _ hc.2⟩
    · obtain ⟨kj, hk, hj⟩ := ih h
      exact ⟨kj, List.mem_cons_of_mem _ hk, hj⟩

theorem keywordSpellings_nulFree : ∀ ki ∈ keywordSpellings, ∀ c ∈ ki, c ≠ '\x00' := by
  decide

end CppTokeniser

namespace CPlusPlusCodeTokeniser

open CharacterFunctions CppTokeniser CodeDocument.Iterator

theorem isReservedKeyword_sound (t : List Char) (hnul : ∀ c ∈ t, c ≠ '\x00')
    (h : isReservedKeyword t = true) :
    t ∈ keywordSpellings ∧ 2 ≤ t.length ∧ t.length ≤ 16 := by
  have key : ∀ k : List (List Char), (∀ ki ∈ k, ki ∈ keywordSpellings) →
      searchKeywords k (t ++ ['\x00']) = true → t ∈ keywordSpellings := by
    intro k hk hs
    obtain ⟨ki, hki, hc⟩ := searchKeywords_true k _ hs
    rw [cString_of_nulFree t [] hnul,
      cString_self_of_nulFree ki (keywordSpellings_nulFree ki (hk ki hki))] at hc
    rw [← hc]
    exact hk ki hki
  unfold isReservedKeyword CppTokeniser.isReservedKeyword at h
  split_ifs at h with h2 h3 h4 h5 h6 ho
  · exact ⟨key _ (fun ki hki => by simp [keywordSpellings, hki]) h, by omega, by omega⟩
  · exact ⟨key _ (fun ki hki => by simp [keywordSpellings, hki]) h, by omega, by omega⟩
  · exact ⟨key _ (fun ki hki => by simp [keywordSpellings, hki]) h, by omega, by omega⟩
  · exact ⟨key _ (fun ki hki => by simp [keywordSpellings, hki]) h, by omega, by omega⟩
  · exact ⟨key _ (fun ki hki => by simp [keywordSpellings, hki]) h, by omega, by omega⟩
  · exact ⟨key _ (fun ki hki => by simp [keywordSpellings, hki]) h, by omega, by omega⟩

/-- C4 (keyword exactness).  Whenever `isReservedKeyword` accepts a string, the
string is equal, character for character, to one of the listed spellings and
its length is between 2 and 16; `int` is accepted, while `Int`, `integer` and
seventeen `a` characters are rejected. -/
theorem isReservedKeyword_exact :
    (∀ t : List Char, (∀ c ∈ t, c ≠ '\x00') → isReservedKeyword t = true →
        t ∈ keywordSpellings ∧ 2 ≤ t.length ∧ t.length ≤ 16)
      ∧ isReservedKeyword "int".toList = true
      ∧ isReservedKeyword "Int".toList = false
      ∧ isReservedKeyword "integer".toList = false
      ∧ isReservedKeyword (List.replicate 17 'a') = false :=
  ⟨isReservedKeyword_sound, by decide, by decide, by decide, by decide⟩

theorem isReservedKeyword_exact_witness :
    (∀ c ∈ "while".toList, c ≠ '\x00') ∧ isReservedKeyword "while".toList = true
      ∧ "while".toList ∈ keywordSpellings ∧ 2 ≤ "while".toList.length
      ∧ "while".toList.length ≤ 16 :=
  ⟨by decide, by decide, isReservedKeyword_exact.1 "while".toList (by decide) (by decide)⟩

/-- C3 (the buckets are not one set): `wchar_t` is listed in `keywords6Char`
but has 7 characters, `@end` and `@class` are listed in `keywordsOther` but
have 4 and 6 characters; the switch on the length sends each of them to an
array that does not hold it, so `isReservedKeyword` rejects all three. -/
theorem isReservedKeyword_misses_listed :
    "wchar_t".toList ∈ keywords6Char ∧ isReservedKeyword "wchar_t".toList = false
      ∧ "@end".toList ∈ keywordsOther ∧ isReservedKeyword "@end".toList = false
      ∧ "@class".toList ∈ keywordsOther ∧ isReservedKeyword "@class".toList = false := by
  decide

set_option maxRecDepth 100000 in
theorem isReservedKeyword_complete_but_three :
    ∀ t ∈ keywordSpellings, t ∉ ["wchar_t".toList, "@end".toList, "@class".toList] →
      isReservedKeyword t = true := by
  decide

end CPlusPlusCodeTokeniser

/-! ## Identifiers and keywords -/

namespace CppTokeniser

open CharacterFunctions CodeDocument.Iterator

theorem skipWhileFrom_append (p : Char → Bool) (run rest : List Char) (position count : Nat)
    (hrun : ∀ c ∈ run, p c = true) (hrest : p (rest.headD '\x00') = false) :
    skipWhileFrom p (run ++ rest) position count
      = (⟨rest, position + run.length⟩, count + run.length) := by
  induction run generalizing position count with
  | nil =>
    cases rest with
    | nil => rfl
    | cons c rest =>
      have hc : p c = false := hrest
      simp [skipWhileFrom, hc]
  | cons c run ih =>
    have hc : p c = true := hrun c (List.mem_cons_self _ _)
    have ht : ∀ c ∈ run, p c = true := fun c hc => hrun c (List.mem_cons_of_mem _ hc)
    show skipWhileFrom p (c :: (run ++ rest)) position count = _
    rw [skipWhileFrom, if_pos hc, ih _ _ ht]
    simp only [List.length_cons, Prod.mk.injEq, Iterator.mk.injEq, true_and]
    omega

theorem skipWhile_append (p : Char → Bool) (run rest : List Char) (position : Nat)
    (hrun : ∀ c ∈ run, p c = true) (hrest : p (rest.headD '\x00') = false) :
    skipWhile p ⟨run ++ rest, position⟩ = (⟨rest, position + run.length⟩, run.length) := by
  simp [skipWhile, skipWhileFrom_append p run rest position 0 hrun hrest]

theorem parseIdentifierLoop_append (run rest : List Char) (position k : Nat)
    (buffer : List Char)
    (hrun : ∀ c ∈ run, isIdentifierBody c = true)
    (hrest : isIdentifierBody (rest.headD '\x00') = false) :
    parseIdentifierLoop (run ++ rest) position k buffer
      = (⟨rest, position + run.length⟩, k + run.length, storeRun k run buffer) := by
  induction run generalizing position k buffer with
  | nil =>
    cases rest with
    | nil => rfl
    | cons c rest =>
      have hc : isIdentifierBody c = false := hrest
      simp [parseIdentifierLoop, hc, storeRun]
  | cons c run ih =>
    have hc : isIdentifierBody c = true := hrun c (List.mem_cons_self _ _)
    have ht : ∀ c ∈ run, isIdentifierBody c = true :=
      fun c hc => hrun c (List.mem_cons_of_mem _ hc)
    show parseIdentifierLoop (c :: (run ++ rest)) position k buffer = _
    rw [parseIdentifierLoop, if_pos hc, ih _ _ _ ht]
    simp only [List.length_cons, storeRun, Prod.mk.injEq, Iterator.mk.injEq, true_and,
      and_true]
    omega

theorem storeRun_eq (run : List Char) : ∀ (k : Nat) (buffer : List Char),
    k + run.length ≤ 18 → buffer.length = 19 →
    storeRun k run buffer = buffer.take k ++ run ++ buffer.drop (k + run.length) := by
  induction run with
  | nil =>
    intro k buffer _ _
    simp [storeRun]
  | cons c run ih =>
    intro k buffer hk hlen
    simp only [List.length_cons] at hk
    have hk18 : k < 19 - 1 := by omega
    simp only [storeRun, hk18, if_true]
    rw [ih (k + 1) _ (by omega) (by simp [hlen])]
    have hkl : k < buffer.length := by omega
    rw [List.set_eq_take_append_cons_drop, if_pos hkl]
    have h1 : List.take (k + 1) (List.take k buffer ++ c :: List.drop (k + 1) buffer)
        = List.take k buffer ++ [c] := by
      rw [List.take_append_eq_append_take]
      simp [List.length_take, Nat.min_eq_left (Nat.le_of_lt hkl)]
    have h2 : List.drop (k + 1 + run.length)
          (List.take k buffer ++ c :: List.drop (k + 1) buffer)
        = List.drop (k + (run.length + 1)) buffer := by
      rw [List.drop_append_eq_append_drop]
      simp only [List.length_take, Nat.min_eq_left (Nat.le_of_lt hkl)]
      have e1 : k + 1 + run.length - k = run.length + 1 := by omega
      rw [e1, List.drop_succ_cons, List.drop_drop]
      have e2 : List.drop (k + 1 + run.length) (List.take k buffer) = [] := by
        apply List.drop_eq_nil_of_le
        simp only [List.length_take]
        omega
      rw [e2, List.nil_append]
      congr 1
      omega
    rw [h1, h2]
    simp [List.length_cons]

theorem toNat_eq_zero {c : Char} (h : c = '\x00') : (c.toNat : Int) = 0 := by
  subst h
  decide

theorem compare_cString_right : ∀ (s1 s2 : List Char),
    CharacterFunctions.compare s1 (cString s2) = CharacterFunctions.compare s1 s2
  | _, [] => rfl
  | [], c2 :: s2 => by
    by_cases h0 : c2 = '\x00'
    · simp [cString, h0, CharacterFunctions.compare]
    · simp [cString, h0, CharacterFunctions.compare]
  | c1 :: s1, c2 :: s2 => by
    by_cases h0 : c2 = '\x00'
    · subst h0
      by_cases h1 : c1 = '\x00'
      · simp [cString, CharacterFunctions.compare, h1]
      · simp [cString, CharacterFunctions.compare, h1]
    · have ih := compare_cString_right s1 s2
      simp only [cString, h0, if_false, CharacterFunctions.compare, ih]

theorem headD_cString (s : List Char) : (cString s).headD '\x00' = s.headD '\x00' := by
  cases s with
  | nil => rfl
  | cons c s =>
    by_cases h0 : c = '\x00'
    · simp [cString, h0]
    · simp [cString, h0]

theorem searchKeywords_cString (k : List (List Char)) (token : List Char) :
    searchKeywords k (cString token) = searchKeywords k token := by
  induction k with
  | nil => rfl
  | cons ki k ih =>
    simp only [searchKeywords, headD_cString, compare_cString_right, ih]

theorem isReservedKeyword_cString (token : List Char) (tokenLength : Int) :
    isReservedKeyword (cString token) tokenLength = isReservedKeyword token tokenLength := by
  simp only [isReservedKeyword, searchKeywords_cString]

theorem isReservedKeyword_congr {t1 t2 : List Char} (h : cString t1 = cString t2)
    (tokenLength : Int) :
    isReservedKeyword t1 tokenLength = isReservedKeyword t2 tokenLength := by
  rw [← isReservedKeyword_cString t1, ← isReservedKeyword_cString t2, h]

theorem isReservedKeyword_out_of_range (token : List Char) (tokenLength : Int)
    (h : tokenLength < 2 ∨ tokenLength > 16) : isReservedKeyword token tokenLength = false := by
  unfold isReservedKeyword
  rw [if_neg (by omega), if_neg (by omega), if_neg (by omega), if_neg (by omega),
    if_neg (by omega), if_pos h]

theorem isIdentifierBody_ne_zero {c : Char} (h : isIdentifierBody c = true) : c ≠ '\x00' := by
  intro h0
  subst h0
  exact absurd h (by decide)

end CppTokeniser

namespace CPlusPlusCodeTokeniser

open CharacterFunctions CppTokeniser CodeDocument.Iterator

theorem parseIdentifierFrom_run (buffer run rest : List Char) (position : Nat)
    (hbuf : buffer.length = 19)
    (hrun : ∀ c ∈ run, isIdentifierBody c = true)
    (hrest : isIdentifierBody (rest.headD '\x00') = false) :
    parseIdentifierFrom buffer ⟨run ++ rest, position⟩
      = (if isReservedKeyword run = true then tokenType_builtInKeyword
          else tokenType_identifier, ⟨rest, position + run.length⟩) := by
  unfold parseIdentifierFrom
  simp only [parseIdentifierLoop_append run rest position 0 buffer hrun hrest, Nat.zero_add]
  have hnul : ∀ c ∈ run, c ≠ '\x00' := fun c hc => isIdentifierBody_ne_zero (hrun c hc)
  by_cases hlen : run.length > 1 ∧ run.length ≤ 16
  · rw [if_pos hlen]
    have hstore := storeRun_eq run 0 buffer (by omega) hbuf
    simp only [List.take_zero, List.nil_append, Nat.zero_add] at hstore
    have hset : (storeRun 0 run buffer).set run.length '\x00'
        = run ++ '\x00' :: buffer.drop (run.length + 1) := by
      rw [hstore, List.set_append_right _ _ (Nat.le_refl _), Nat.sub_self]
      cases hd : List.drop run.length buffer with
      | nil =>
        have := congrArg List.length hd
        simp only [List.length_drop, List.length_nil] at this
        omega
      | cons x xs =>
        have hx : buffer.drop (run.length + 1) = xs := by
          rw [← List.drop_drop, hd]
          rfl
        simp [hx]
    have hkey : CppTokeniser.isReservedKeyword ((storeRun 0 run buffer).set run.length '\x00')
        (run.length : Int) = isReservedKeyword run := by
      unfold CPlusPlusCodeTokeniser.isReservedKeyword
      apply isReservedKeyword_congr
      rw [hset, cString_of_nulFree run _ hnul, cString_of_nulFree run _ hnul]
    rw [hkey]
    split_ifs <;> rfl
  · rw [if_neg hlen]
    have hfalse : isReservedKeyword run = false := by
      unfold CPlusPlusCodeTokeniser.isReservedKeyword
      apply isReservedKeyword_out_of_range
      omega
    simp [hfalse]

theorem isWhitespace_false_of_identifierStart {c : Char} (h : isIdentifierStart c = true) :
    isWhitespace c = false := by
  by_contra hw
  simp only [isWhitespace, Bool.not_eq_false, Bool.or_eq_true, decide_eq_true_eq] at hw
  rcases hw with ((((hw | hw) | hw) | hw) | hw) | hw <;>
    (subst hw; exact absurd h (by decide))

theorem readNextToken_of_identifierStart (a : Iterator)
    (h : isIdentifierStart a.skipWhitespace.peekNextChar = true) :
    readNextToken a = parseIdentifier a.skipWhitespace := by
  unfold readNextToken
  conv => lhs; zeta
  generalize a.skipWhitespace = b at h ⊢
  generalize b.peekNextChar = c at h ⊢
  repeat
    (with_reducible
      refine ite_rec (fun r : Int × Iterator => r = parseIdentifier b) (fun hcond => ?_)
        (fun _ => ?_)
     · exfalso
       repeat' (rcases hcond with hcond | hcond)
       all_goals exact absurd h (by decide))
  rw [if_pos h]

/-- C5 (identifiers and keywords).  On an input made of whitespace `w`, then a
run `c :: run` of identifier-body characters whose first character `c` is an
identifier-start character, then a remainder that does not continue the run,
`readNextToken` consumes the whitespace and exactly the run, whatever its
length, and returns Keyword when `isReservedKeyword` of the run is true and
Identifier otherwise; a run of length 1 or of length 17 and more is an
Identifier. -/
theorem readNextToken_identifier (w run rest : List Char) (c : Char) (position : Nat)
    (hw : ∀ x ∈ w, isWhitespace x = true)
    (hc : isIdentifierStart c = true)
    (hrun : ∀ x ∈ run, isIdentifierBody x = true)
    (hrest : isIdentifierBody (rest.headD '\x00') = false) :
    readNextToken ⟨w ++ (c :: run ++ rest), position⟩
        = (if isReservedKeyword (c :: run) = true then tokenType_builtInKeyword
            else tokenType_identifier,
           ⟨rest, position + w.length + (c :: run).length⟩)
      ∧ ((c :: run).length = 1 ∨ 17 ≤ (c :: run).length →
          (readNextToken ⟨w ++ (c :: run ++ rest), position⟩).1 = tokenType_identifier) := by
  have hws : Iterator.skipWhitespace ⟨w ++ (c :: run ++ rest), position⟩
      = ⟨c :: run ++ rest, position + w.length⟩ := by
    unfold Iterator.skipWhitespace
    rw [skipWhile_append isWhitespace w (c :: run ++ rest) position hw
      (isWhitespace_false_of_identifierStart hc)]
  have hrun' : ∀ x ∈ c :: run, isIdentifierBody x = true := by
    intro x hx
    rcases List.mem_cons.mp hx with hx | hx
    · rw [hx]; exact isIdentifierBody_of_start hc
    · exact hrun x hx
  have hmain : readNextToken ⟨w ++ (c :: run ++ rest), position⟩
      = (if isReservedKeyword (c :: run) = true then tokenType_builtInKeyword
          else tokenType_identifier,
         ⟨rest, position + w.length + (c :: run).length⟩) := by
    rw [readNextToken_of_identifierStart _ (by rw [hws]; exact hc), hws]
    exact parseIdentifierFrom_run _ (c :: run) rest _ (by simp) hrun' hrest
  refine ⟨hmain, fun hlen => ?_⟩
  rw [hmain]
  have hfalse : isReservedKeyword (c :: run) = false := by
    unfold CPlusPlusCodeTokeniser.isReservedKeyword
    apply isReservedKeyword_out_of_range
    omega
  simp [hfalse]

theorem readNextToken_identifier_witness :
    (∀ x ∈ "  ".toList, isWhitespace x = true)
      ∧ isIdentifierStart 'w' = true
      ∧ (∀ x ∈ "hile".toList, isIdentifierBody x = true)
      ∧ isIdentifierBody ("(x)".toList.headD '\x00') = false
      ∧ (readNextToken ⟨"  ".toList ++ ('w' :: "hile".toList ++ "(x)".toList), 0⟩
          = (if isReservedKeyword ('w' :: "hile".toList) = true then tokenType_builtInKeyword
              else tokenType_identifier,
             ⟨"(x)".toList, 0 + "  ".toList.length + ('w' :: "hile".toList).length⟩)
        ∧ (('w' :: "hile".toList).length = 1 ∨ 17 ≤ ('w' :: "hile".toList).length →
            (readNextToken ⟨"  ".toList ++ ('w' :: "hile".toList ++ "(x)".toList), 0⟩).1
              = tokenType_identifier)) :=
  ⟨by decide, by decide, by decide, by decide,
    readNextToken_identifier "  ".toList "hile".toList "(x)".toList 'w' 0
      (by decide) (by decide) (by decide) (by decide)⟩

end CPlusPlusCodeTokeniser

/-! ## Numeric literals -/

namespace CppTokeniser

open CharacterFunctions CodeDocument.Iterator

theorem char_le_iff {a b : Char} : a ≤ b ↔ a.toNat ≤ b.toNat := Iff.rfl

theorem isHexDigit_letterOrDigit {c : Char} (h : isHexDigit c = true) :
    isLetterOrDigit c = true := by
  simp only [isHexDigit, isLetterOrDigit, isLetter, isDigit, Bool.or_eq_true, Bool.and_eq_true,
    decide_eq_true_eq, ge_iff_le, char_le_iff, Char.reduceToNat] at h ⊢
  omega

theorem isDecimalDigit_letterOrDigit {c : Char} (h : isDecimalDigit c = true) :
    isLetterOrDigit c = true := by
  simp only [isDecimalDigit, isLetterOrDigit, isLetter, isDigit, Bool.or_eq_true,
    Bool.and_eq_true, decide_eq_true_eq, ge_iff_le, char_le_iff, Char.reduceToNat] at h ⊢
  omega

theorem isOctalDigit_decimal {c : Char} (h : isOctalDigit c = true) :
    isDecimalDigit c = true := by
  simp only [isDecimalDigit, isOctalDigit, Bool.and_eq_true,
    decide_eq_true_eq, ge_iff_le, char_le_iff, Char.reduceToNat] at h ⊢
  omega

theorem isDecimalDigit_not_letter {c : Char} (h : isLetter c = true) :
    isDecimalDigit c = false := by
  rw [Bool.eq_false_iff]
  intro hd
  simp only [isDecimalDigit, isLetter, Bool.or_eq_true, Bool.and_eq_true,
    decide_eq_true_eq, ge_iff_le, char_le_iff, Char.reduceToNat] at h hd
  omega

theorem isDecimalDigit_cases {c : Char} (h : isDecimalDigit c = true) :
    c = '0' ∨ c = '1' ∨ c = '2' ∨ c = '3' ∨ c = '4' ∨ c = '5' ∨ c = '6' ∨ c = '7'
      ∨ c = '8' ∨ c = '9' := by
  simp only [isDecimalDigit, Bool.and_eq_true, decide_eq_true_eq, ge_iff_le, char_le_iff,
    Char.reduceToNat] at h
  have hc := Char.ofNat_toNat c
  obtain ⟨h1, h2⟩ := h
  generalize c.toNat = n at hc h1 h2
  subst hc
  interval_cases n <;> decide

theorem peekNextChar_mk (l : List Char) (position : Nat) :
    (⟨l, position⟩ : Iterator).peekNextChar = l.headD '\x00' := rfl

/-- When the next character is neither a letter nor a digit, `skipNumberSuffix`
accepts and leaves the iterator where it is. -/
theorem skipNumberSuffix_accept (a : Iterator) (h : isLetterOrDigit a.peekNextChar = false) :
    skipNumberSuffix a = (true, a) := by
  unfold skipNumberSuffix
  have hl : ¬ (a.peekNextChar = 'l' ∨ a.peekNextChar = 'L' ∨ a.peekNextChar = 'u'
      ∨ a.peekNextChar = 'U') := by
    intro hc
    rcases hc with hc | hc | hc | hc <;> (rw [hc] at h; exact absurd h (by decide))
  simp only [if_neg hl, h]
  rfl

/-- When the next character is a letter or a digit other than `l`, `L`, `u`,
`U`, `skipNumberSuffix` rejects. -/
theorem skipNumberSuffix_reject (a : Iterator) (h : isLetterOrDigit a.peekNextChar = true)
    (hl : ¬ (a.peekNextChar = 'l' ∨ a.peekNextChar = 'L' ∨ a.peekNextChar = 'u'
      ∨ a.peekNextChar = 'U')) :
    (skipNumberSuffix a).1 = false := by
  unfold skipNumberSuffix
  simp only [if_neg hl, h, if_true]

theorem parseFloatMantissa_digits (d rest : List Char) (position : Nat)
    (hd : ∀ x ∈ d, isDecimalDigit x = true)
    (hrest : isDecimalDigit (rest.headD '\x00') = false) (hpoint : rest.headD '\x00' ≠ '.') :
    parseFloatMantissa ⟨d ++ rest, position⟩ = (⟨rest, position + d.length⟩, d.length, false) := by
  unfold parseFloatMantissa
  simp only [skipWhile_append isDecimalDigit d rest position hd hrest, peekNextChar_mk,
    decide_eq_false hpoint]
  rfl

/-- A run of digits followed by a character that is none of a digit, `.`,
`e`, `E`, `f`, `F` is not a float literal. -/
theorem parseFloatLiteral_digits (d rest : List Char) (position : Nat)
    (hd : ∀ x ∈ d, isDecimalDigit x = true)
    (hrest : isDecimalDigit (rest.headD '\x00') = false) (hpoint : rest.headD '\x00' ≠ '.')
    (he : ¬ (rest.headD '\x00' = 'e' ∨ rest.headD '\x00' = 'E'))
    (hf : ¬ (rest.headD '\x00' = 'f' ∨ rest.headD '\x00' = 'F')) :
    (parseFloatLiteral ⟨d ++ rest, position⟩).1 = false := by
  unfold parseFloatLiteral
  simp only [parseFloatMantissa_digits d rest position hd hrest hpoint]
  by_cases hn : d.length = 0
  · simp [hn]
  · have hexp : parseFloatExponent ⟨rest, position + d.length⟩
        = (true, false, ⟨rest, position + d.length⟩) := by
      unfold parseFloatExponent
      simp only [peekNextChar_mk, decide_eq_false he]
      rfl
    simp only [if_neg hn, hexp, peekNextChar_mk, if_neg hf]
    simp

theorem headD_letterOrDigit_false (r : List Char)
    (hr : ∀ c ∈ r.head?, isLetter c = false ∧ isDigit c = false) :
    isLetterOrDigit (r.headD '\x00') = false := by
  cases r with
  | nil => decide
  | cons c r =>
    have := hr c (by simp)
    simp [isLetterOrDigit, this.1, this.2]

theorem parseHexLiteral_accept (x : Char) (h r : List Char) (position : Nat)
    (hx : x = 'x' ∨ x = 'X') (hne : h ≠ [])
    (hh : ∀ c ∈ h, isHexDigit c = true)
    (hr : isLetterOrDigit (r.headD '\x00') = false) :
    parseHexLiteral ⟨'0' :: x :: (h ++ r), position⟩
      = (true, ⟨r, position + 2 + h.length⟩) := by
  have hhex : isHexDigit (r.headD '\x00') = false := by
    rw [Bool.eq_false_iff]
    intro hc
    rw [isHexDigit_letterOrDigit hc] at hr
    exact absurd hr (by decide)
  have hlen : h.length ≠ 0 := fun h0 => hne (List.length_eq_zero.mp h0)
  have hx' : ¬ (x ≠ 'x' ∧ x ≠ 'X') := by
    rcases hx with hx | hx <;> simp [hx]
  unfold parseHexLiteral nextChar
  simp only [peekNextChar_mk, skip_cons, List.headD_cons, ne_eq, not_true_eq_false, if_false,
    if_neg hx', skipWhile_append isHexDigit h r (position + 1 + 1) hh hhex, if_neg hlen]
  rw [skipNumberSuffix_accept ⟨r, position + 1 + 1 + h.length⟩ hr]

/-- `parseHexLiteral` rejects a text whose second character is not `x` or `X`. -/
theorem parseHexLiteral_reject (c0 c1 : Char) (t : List Char) (position : Nat)
    (h1 : c1 ≠ 'x' ∧ c1 ≠ 'X') :
    (parseHexLiteral ⟨c0 :: c1 :: t, position⟩).1 = false := by
  unfold parseHexLiteral nextChar
  simp only [peekNextChar_mk, skip_cons, List.headD_cons]
  split_ifs <;> rfl

theorem readNextToken_skipWhitespace_digit (c : Char) (t : List Char) (position : Nat)
    (hc : isDecimalDigit c = true) :
    Iterator.skipWhitespace ⟨c :: t, position⟩ = ⟨c :: t, position⟩ := by
  have hw : isWhitespace c = false := by
    rcases isDecimalDigit_cases hc with h | h | h | h | h | h | h | h | h | h <;>
      (subst h; decide)
  simp [Iterator.skipWhitespace, skipWhile, skipWhileFrom, hw]

theorem rejectsSuffix_of_digit {x : Char} (h : isDecimalDigit x = true) : rejectsSuffix x := by
  refine ⟨isDecimalDigit_letterOrDigit h, ?_⟩
  intro hx
  rcases hx with hx | hx | hx | hx <;> (subst hx; exact absurd h (by decide))

theorem headD_dropWhile_rejectsSuffix (p : Char → Bool) (c : Char) (rest : List Char)
    (hc : rejectsSuffix c) (hp : p c = false) :
    ∀ m : List Char, (∀ x ∈ m, rejectsSuffix x) →
      rejectsSuffix ((List.dropWhile p (m ++ c :: rest)).headD '\x00')
  | [], _ => by simpa [List.dropWhile_cons, hp] using hc
  | x :: m, hm => by
    by_cases hx : p x = true
    · simp only [List.cons_append, List.dropWhile_cons, hx, if_true]
      exact headD_dropWhile_rejectsSuffix p c rest hc hp m
        (fun y hy => hm y (List.mem_cons_of_mem _ hy))
    · simp only [List.cons_append, List.dropWhile_cons, hx, List.headD_cons]
      exact hm x (List.mem_cons_self _ _)

/-- After any digit loop over a run of digits that is followed by a letter
other than a suffix letter, `skipNumberSuffix` rejects. -/
theorem skipNumberSuffix_after_skipWhile (p : Char → Bool) (m : List Char) (c : Char)
    (rest : List Char) (position : Nat)
    (hm : ∀ x ∈ m, rejectsSuffix x) (hc : rejectsSuffix c) (hp : p c = false) :
    (skipNumberSuffix (skipWhile p ⟨m ++ c :: rest, position⟩).1).1 = false := by
  have hq := headD_dropWhile_rejectsSuffix p c rest hc hp m hm
  apply skipNumberSuffix_reject
  · rw [skipWhile_eq]
    exact hq.1
  · rw [skipWhile_eq]
    exact hq.2

theorem parseDecimalLiteral_reject (d : List Char) (c : Char) (rest : List Char)
    (position : Nat) (hd : ∀ x ∈ d, isDecimalDigit x = true)
    (hc : rejectsSuffix c) (hcd : isDecimalDigit c = false) :
    (parseDecimalLiteral ⟨d ++ c :: rest, position⟩).1 = false := by
  unfold parseDecimalLiteral
  dsimp only
  split_ifs
  · rfl
  · exact skipNumberSuffix_after_skipWhile isDecimalDigit d c rest position
      (fun x hx => rejectsSuffix_of_digit (hd x hx)) hc hcd

theorem parseOctalLiteral_reject (d0 : Char) (d : List Char) (c : Char) (rest : List Char)
    (position : Nat) (hd : ∀ x ∈ d, isDecimalDigit x = true)
    (hc : rejectsSuffix c) (hcd : isDecimalDigit c = false) :
    (parseOctalLiteral ⟨d0 :: (d ++ c :: rest), position⟩).1 = false := by
  have hco : isOctalDigit c = false := by
    rw [Bool.eq_false_iff]
    intro ho
    rw [isOctalDigit_decimal ho] at hcd
    exact absurd hcd (by decide)
  unfold parseOctalLiteral nextChar
  simp only [peekNextChar_mk, skip_cons, List.headD_cons]
  cases d with
  | nil =>
    simp only [List.nil_append, skip_cons, List.headD_cons, hco]
    split_ifs <;> first | rfl | contradiction
  | cons d1 d =>
    simp only [List.cons_append, skip_cons, List.headD_cons]
    split_ifs <;> first
      | rfl
      | exact skipNumberSuffix_after_skipWhile isOctalDigit d c rest _
          (fun x hx => rejectsSuffix_of_digit (hd x (List.mem_cons_of_mem _ hx))) hc hco

end CppTokeniser

namespace CPlusPlusCodeTokeniser

open CharacterFunctions CppTokeniser CodeDocument.Iterator

theorem readNextToken_of_digit (a : Iterator)
    (h : isDecimalDigit a.skipWhitespace.peekNextChar = true) :
    readNextToken a = parseNumber a.skipWhitespace := by
  have hd := isDecimalDigit_cases h
  have h0 : a.skipWhitespace.peekNextChar ≠ '\x00' := by
    intro h0
    rw [h0] at h
    exact absurd h (by decide)
  unfold readNextToken
  conv => lhs; zeta
  rw [if_neg h0, if_pos hd]

/-- C6 (hex literals).  On `0x` or `0X`, a non-empty run `h` of hex digits and
a remainder that is empty or begins with a character that is neither a letter
nor a digit, `readNextToken` returns IntegerLiteral and consumes exactly the
`2 + |h|` characters of the literal. -/
theorem readNextToken_hexLiteral (x : Char) (h r : List Char) (position : Nat)
    (hx : x = 'x' ∨ x = 'X') (hne : h ≠ [])
    (hh : ∀ c ∈ h, isHexDigit c = true)
    (hr : ∀ c ∈ r.head?, isLetter c = false ∧ isDigit c = false) :
    readNextToken ⟨'0' :: x :: (h ++ r), position⟩
      = (tokenType_integerLiteral, ⟨r, position + 2 + h.length⟩) := by
  have hws := readNextToken_skipWhitespace_digit '0' (x :: (h ++ r)) position (by decide)
  rw [readNextToken_of_digit _ (by rw [hws]; show isDecimalDigit '0' = true; decide), hws]
  have hfloat : (parseFloatLiteral ⟨'0' :: x :: (h ++ r), position⟩).1 = false := by
    apply parseFloatLiteral_digits ['0'] (x :: (h ++ r)) position (by decide)
    all_goals rcases hx with hx | hx <;> (subst hx; simp only [List.headD_cons]; decide)
  unfold parseNumber
  simp only [hfloat, parseHexLiteral_accept x h r position hx hne hh
    (headD_letterOrDigit_false r hr)]
  rfl

theorem readNextToken_hexLiteral_witness :
    ('x' = 'x' ∨ 'x' = 'X') ∧ "1A".toList ≠ []
      ∧ (∀ c ∈ "1A".toList, isHexDigit c = true)
      ∧ (∀ c ∈ ([] : List Char).head?, isLetter c = false ∧ isDigit c = false)
      ∧ readNextToken ⟨'0' :: 'x' :: ("1A".toList ++ []), 0⟩
        = (tokenType_integerLiteral, ⟨[], 0 + 2 + "1A".toList.length⟩) :=
  ⟨by decide, by decide, by decide, by decide,
    readNextToken_hexLiteral 'x' "1A".toList [] 0 (by decide) (by decide) (by decide)
      (by decide)⟩

/-- C7 (malformed integer literal).  On a non-empty run `d0 :: d` of decimal
digits immediately followed by a letter `c` that is none of `e`, `E`, `f`,
`F`, `x`, `X`, `l`, `L`, `u`, `U`, all four literal grammars fail:
`readNextToken` returns Error and consumes exactly the first digit. -/
theorem readNextToken_malformed_integer (d0 : Char) (d : List Char) (c : Char)
    (rest : List Char) (position : Nat)
    (hd0 : isDecimalDigit d0 = true) (hd : ∀ x ∈ d, isDecimalDigit x = true)
    (hc : isLetter c = true)
    (hne : c ∉ ['e', 'E', 'f', 'F', 'x', 'X', 'l', 'L', 'u', 'U']) :
    readNextToken ⟨d0 :: (d ++ c :: rest), position⟩
      = (tokenType_error, ⟨d ++ c :: rest, position + 1⟩) := by
  simp only [List.mem_cons, List.mem_singleton, List.not_mem_nil, or_false, not_or] at hne
  obtain ⟨he, hE, hf, hF, hx, hX, hl, hL, hu, hU⟩ := hne
  have hcd : isDecimalDigit c = false := isDecimalDigit_not_letter hc
  have hq : rejectsSuffix c := ⟨by simp [isLetterOrDigit, hc], by tauto⟩
  have hall : ∀ x ∈ d0 :: d, isDecimalDigit x = true := by
    intro x hx
    rcases List.mem_cons.mp hx with hx | hx
    · rw [hx]; exact hd0
    · exact hd x hx
  have hpoint : c ≠ '.' := by
    intro h
    subst h
    exact absurd hc (by decide)
  have hws := readNextToken_skipWhitespace_digit d0 (d ++ c :: rest) position hd0
  rw [readNextToken_of_digit _ (by rw [hws]; exact hd0), hws]
  have hfloat : (parseFloatLiteral ⟨d0 :: (d ++ c :: rest), position⟩).1 = false :=
    parseFloatLiteral_digits (d0 :: d) (c :: rest) position hall hcd hpoint
      (by simp only [List.headD_cons]; tauto) (by simp only [List.headD_cons]; tauto)
  have hhex : (parseHexLiteral ⟨d0 :: (d ++ c :: rest), position⟩).1 = false := by
    cases d with
    | nil => exact parseHexLiteral_reject d0 c rest position ⟨hx, hX⟩
    | cons d1 d =>
      have hd1 : isDecimalDigit d1 = true := hd d1 (List.mem_cons_self _ _)
      refine parseHexLiteral_reject d0 d1 (d ++ c :: rest) position ⟨?_, ?_⟩ <;>
        (intro h; subst h; exact absurd hd1 (by decide))
  have hoct := parseOctalLiteral_reject d0 d c rest position hd hq hcd
  have hdec : (parseDecimalLiteral ⟨d0 :: (d ++ c :: rest), position⟩).1 = false :=
    parseDecimalLiteral_reject (d0 :: d) c rest position hall hq hcd
  unfold parseNumber
  simp only [hfloat, hhex, hoct, hdec, skip_cons]
  rfl

theorem readNextToken_malformed_integer_witness :
    isDecimalDigit '1' = true ∧ (∀ x ∈ "23".toList, isDecimalDigit x = true)
      ∧ isLetter 'a' = true
      ∧ 'a' ∉ ['e', 'E', 'f', 'F', 'x', 'X', 'l', 'L', 'u', 'U']
      ∧ readNextToken ⟨'1' :: ("23".toList ++ 'a' :: "bc".toList), 0⟩
        = (tokenType_error, ⟨"23".toList ++ 'a' :: "bc".toList, 0 + 1⟩) :=
  ⟨by decide, by decide, by decide, by decide,
    readNextToken_malformed_integer '1' "23".toList 'a' "bc".toList 0
      (by decide) (by decide) (by decide) (by decide)⟩

end CPlusPlusCodeTokeniser

/-! ## The minus sign -/

namespace CPlusPlusCodeTokeniser

open CharacterFunctions CppTokeniser CodeDocument.Iterator

theorem readNextToken_of_minus (a : Iterator) (h : a.skipWhitespace.peekNextChar = '-') :
    readNextToken a
      = (if (parseNumber a.skipWhitespace.skip).1 = tokenType_error then
          if (parseNumber a.skipWhitespace.skip).2.peekNextChar = '-' then
            (tokenType_operator, (parseNumber a.skipWhitespace.skip).2.skip)
          else if (parseNumber a.skipWhitespace.skip).2.peekNextChar = '=' then
            (tokenType_operator, (parseNumber a.skipWhitespace.skip).2.skip)
          else (tokenType_operator, (parseNumber a.skipWhitespace.skip).2)
        else parseNumber a.skipWhitespace.skip) := by
  unfold readNextToken
  conv => lhs; zeta
  rw [h]
  simp only [Char.reduceEq, ↓reduceIte, or_false, or_self]

theorem skipWhitespace_minus (s : List Char) (position : Nat) :
    Iterator.skipWhitespace ⟨'-' :: s, position⟩ = ⟨'-' :: s, position⟩ := by
  have hw : isWhitespace '-' = false := by decide
  simp [Iterator.skipWhitespace, skipWhile, skipWhileFrom, hw]

theorem parseNumber_category (a : Iterator) :
    (parseNumber a).1 = tokenType_floatLiteral ∨ (parseNumber a).1 = tokenType_integerLiteral
      ∨ ((parseNumber a).1 = tokenType_error ∧ (parseNumber a).2 = a.skip) := by
  unfold parseNumber
  dsimp only
  split_ifs <;> simp

/-- C8 (a negative numeric literal is one token).  When `parseNumber` succeeds
with category `k` on the remainder `s` after a `-`, consuming `n` characters
and leaving `r`, `readNextToken` on `-` followed by `s` returns `k`, which is
IntegerLiteral or FloatLiteral, and consumes exactly `1 + n` characters. -/
theorem readNextToken_negative_literal (s r : List Char) (position n : Nat) (k : Int)
    (hparse : parseNumber ⟨s, position + 1⟩ = (k, ⟨r, position + 1 + n⟩))
    (hk : k ≠ tokenType_error) :
    readNextToken ⟨'-' :: s, position⟩ = (k, ⟨r, position + (1 + n)⟩)
      ∧ (k = tokenType_integerLiteral ∨ k = tokenType_floatLiteral) := by
  have hws := skipWhitespace_minus s position
  have hcat := parseNumber_category ⟨s, position + 1⟩
  rw [hparse] at hcat
  constructor
  · rw [readNextToken_of_minus _ (by rw [hws]; rfl), hws, skip_cons, hparse, if_neg hk,
      Nat.add_assoc]
  · rcases hcat with h | h | h
    · exact Or.inr h
    · exact Or.inl h
    · exact absurd h.1 hk

theorem readNextToken_negative_literal_witness :
    parseNumber ⟨"0x1F;".toList, 0 + 1⟩ = (tokenType_integerLiteral, ⟨";".toList, 0 + 1 + 4⟩)
      ∧ tokenType_integerLiteral ≠ tokenType_error
      ∧ readNextToken ⟨'-' :: "0x1F;".toList, 0⟩
          = (tokenType_integerLiteral, ⟨";".toList, 0 + (1 + 4)⟩)
      ∧ (tokenType_integerLiteral = tokenType_integerLiteral
          ∨ tokenType_integerLiteral = tokenType_floatLiteral) :=
  ⟨by decide, by decide,
    readNextToken_negative_literal "0x1F;".toList ";".toList 0 4 tokenType_integerLiteral
      (by decide) (by decide)⟩

/-- What the `-` case does when `parseNumber` fails on the remainder `s`:
`parseNumber` has already skipped the first character of `s`, and the tests
for a following `-` or `=` look at the character after that one. -/
theorem readNextToken_minus_operator (s : List Char) (position : Nat)
    (hfail : (parseNumber ⟨s, position + 1⟩).1 = tokenType_error) :
    readNextToken ⟨'-' :: s, position⟩
      = (tokenType_operator,
          if (Iterator.skip ⟨s, position + 1⟩).peekNextChar = '-'
              ∨ (Iterator.skip ⟨s, position + 1⟩).peekNextChar = '=' then
            (Iterator.skip ⟨s, position + 1⟩).skip
          else Iterator.skip ⟨s, position + 1⟩) := by
  have hws := skipWhitespace_minus s position
  have hcat := parseNumber_category ⟨s, position + 1⟩
  have hskip : (parseNumber ⟨s, position + 1⟩).2 = Iterator.skip ⟨s, position + 1⟩ := by
    rcases hcat with h | h | h
    · rw [h] at hfail; exact absurd hfail (by decide)
    · rw [h] at hfail; exact absurd hfail (by decide)
    · exact h.2
  rw [readNextToken_of_minus _ (by rw [hws]; rfl), hws, skip_cons, if_pos hfail, hskip]
  split_ifs <;> simp_all

/-- C9 (minus as operator): on `-a` no numeric literal starts at `a`, yet
`readNextToken` consumes two characters, the `-` and the `a`; on `--=` it
consumes three. -/
theorem readNextToken_minus_swallows_next :
    (parseNumber ⟨"a".toList, 1⟩).1 = tokenType_error
      ∧ readNextToken (startOf "-a") = (tokenType_operator, ⟨[], 2⟩)
      ∧ readNextToken (startOf "-a=b") = (tokenType_operator, ⟨"b".toList, 3⟩)
      ∧ (parseNumber ⟨"-=".toList, 1⟩).1 = tokenType_error
      ∧ readNextToken (startOf "--=") = (tokenType_operator, ⟨[], 3⟩) := by
  decide

end CPlusPlusCodeTokeniser

/-! ## Quoted strings -/

namespace CppTokeniser

open CharacterFunctions CodeDocument.Iterator

theorem followsBackslash_cons (c : Char) (t : List Char) (hc : c ≠ '\\') (i : Nat) :
    followsBackslash (c :: t) (i + 1) = followsBackslash t i := by
  induction i with
  | zero => simp [followsBackslash, hc]
  | succ i ih =>
    rw [followsBackslash, ih]
    simp [followsBackslash]

theorem followsBackslash_escape (x : Char) (t : List Char) (i : Nat) :
    followsBackslash ('\\' :: x :: t) (i + 2) = followsBackslash t i := by
  induction i with
  | zero => simp [followsBackslash]
  | succ i ih =>
    rw [followsBackslash, ih]
    simp [followsBackslash]

theorem closesString_cons (quote c : Char) (t : List Char) (hc : c ≠ '\\') (i : Nat) :
    closesString quote (c :: t) (i + 1) = closesString quote t i := by
  simp [closesString, followsBackslash_cons c t hc]

theorem closesString_escape (quote x : Char) (t : List Char) (i : Nat) :
    closesString quote ('\\' :: x :: t) (i + 2) = closesString quote t i := by
  simp [closesString, followsBackslash_escape]

/-- The loop of `skipQuotedString` stops right after the first character that
closes the string, or at the end of the text when no character does. -/
theorem skipQuotedStringLoop_spec (quote : Char) (hq : quote ≠ '\\') :
    ∀ (t : List Char) (position : Nat), (∀ x ∈ t, x ≠ '\x00') →
      (∃ i, closesString quote t i = true ∧ (∀ j < i, closesString quote t j = false)
          ∧ skipQuotedStringLoop quote t position = ⟨t.drop (i + 1), position + (i + 1)⟩)
        ∨ ((∀ j, closesString quote t j = false)
          ∧ skipQuotedStringLoop quote t position = ⟨[], position + t.length⟩) := by
  intro t position
  induction t, position using skipQuotedStringLoop.induct quote with
  | case1 position =>
    intro _
    right
    exact ⟨fun j => by simp [closesString], rfl⟩
  | case2 c rest position h =>
    intro hnul
    have hc : c = quote := by
      rcases h with h | h
      · exact h
      · exact absurd h (hnul c (List.mem_cons_self _ _))
    left
    refine ⟨0, by simp [closesString, followsBackslash, hc], fun j hj => absurd hj (by omega), ?_⟩
    unfold skipQuotedStringLoop
    rw [if_pos h]
    rfl
  | case3 position h =>
    intro _
    right
    refine ⟨fun j => ?_, ?_⟩
    · cases j with
      | zero => simp [closesString, Ne.symm hq]
      | succ j => simp [closesString]
    · unfold skipQuotedStringLoop
      simp [h]
  | case4 position x rest h ih =>
    intro hnul
    have hrest : ∀ y ∈ rest, y ≠ '\x00' := fun y hy =>
      hnul y (List.mem_cons_of_mem _ (List.mem_cons_of_mem _ hy))
    have h0 : closesString quote ('\\' :: x :: rest) 0 = false := by
      simp [closesString, Ne.symm hq]
    have h1 : closesString quote ('\\' :: x :: rest) 1 = false := by
      simp [closesString, followsBackslash]
    have hloop : skipQuotedStringLoop quote ('\\' :: x :: rest) position
        = skipQuotedStringLoop quote rest (position + 2) := by
      rw [skipQuotedStringLoop]
      simp only [h, if_false, if_true]
    rcases ih hrest with ⟨i, hi, hmin, hres⟩ | ⟨hnone, hres⟩
    · left
      refine ⟨i + 2, by rw [closesString_escape]; exact hi, fun j hj => ?_, ?_⟩
      · match j with
        | 0 => exact h0
        | 1 => exact h1
        | j + 2 =>
          rw [closesString_escape]
          exact hmin j (by omega)
      · rw [hloop, hres]
        simp only [List.drop_succ_cons, Iterator.mk.injEq, true_and]
        omega
    · right
      refine ⟨fun j => ?_, ?_⟩
      · match j with
        | 0 => exact h0
        | 1 => exact h1
        | j + 2 =>
          rw [closesString_escape]
          exact hnone j
      · rw [hloop, hres]
        simp only [List.length_cons, Iterator.mk.injEq, true_and]
        omega
  | case5 c rest position h hb ih =>
    intro hnul
    have hrest : ∀ y ∈ rest, y ≠ '\x00' := fun y hy => hnul y (List.mem_cons_of_mem _ hy)
    have hcq : c ≠ quote := fun hc => h (Or.inl hc)
    have h0 : closesString quote (c :: rest) 0 = false := by
      simp [closesString, hcq]
    have hloop : skipQuotedStringLoop quote (c :: rest) position
        = skipQuotedStringLoop quote rest (position + 1) := by
      conv => lhs; unfold skipQuotedStringLoop
      simp only [h, hb, if_false]
    rcases ih hrest with ⟨i, hi, hmin, hres⟩ | ⟨hnone, hres⟩
    · left
      refine ⟨i + 1, by rw [closesString_cons _ _ _ hb]; exact hi, fun j hj => ?_, ?_⟩
      · match j with
        | 0 => exact h0
        | j + 1 =>
          rw [closesString_cons _ _ _ hb]
          exact hmin j (by omega)
      · rw [hloop, hres]
        simp only [List.drop_succ_cons, Iterator.mk.injEq, true_and]
        omega
    · right
      refine ⟨fun j => ?_, ?_⟩
      · match j with
        | 0 => exact h0
        | j + 1 =>
          rw [closesString_cons _ _ _ hb]
          exact hnone j
      · rw [hloop, hres]
        simp only [List.length_cons, Iterator.mk.injEq, true_and]
        omega

end CppTokeniser

namespace CPlusPlusCodeTokeniser

open CharacterFunctions CppTokeniser CodeDocument.Iterator

theorem readNextToken_of_quote (a : Iterator)
    (h : a.skipWhitespace.peekNextChar = '"' ∨ a.skipWhitespace.peekNextChar = '\'') :
    readNextToken a = (tokenType_stringLiteral, skipQuotedString a.skipWhitespace) := by
  unfold readNextToken
  conv => lhs; zeta
  rcases h with h | h <;> rw [h] <;>
    simp only [Char.reduceEq, ↓reduceIte, or_false, or_self, or_true, true_or]

/-- C10 (quoted strings).  On whitespace `w`, a quote (`"` or `'`) and a body
`t`, `readNextToken` returns StringLiteral.  The iterator ends right after the
first character of `t` that closes the string (the same quote, not directly
following a consumed backslash), or at the end of the input when no character
of `t` closes it; a string that is not terminated is still a StringLiteral,
and only the opening kind of quote can close. -/
theorem readNextToken_quotedString (w t : List Char) (quote : Char) (position : Nat)
    (hw : ∀ x ∈ w, isWhitespace x = true) (hq : quote = '"' ∨ quote = '\'')
    (hnul : ∀ x ∈ t, x ≠ '\x00') :
    (readNextToken ⟨w ++ quote :: t, position⟩).1 = tokenType_stringLiteral
      ∧ ((∃ i, closesString quote t i = true ∧ t.get? i = some quote
            ∧ (∀ j < i, closesString quote t j = false)
            ∧ (readNextToken ⟨w ++ quote :: t, position⟩).2
                = ⟨t.drop (i + 1), position + w.length + 1 + (i + 1)⟩)
        ∨ ((∀ j, closesString quote t j = false)
            ∧ (readNextToken ⟨w ++ quote :: t, position⟩).2
                = ⟨[], position + w.length + 1 + t.length⟩)) := by
  have hqw : isWhitespace quote = false := by
    rcases hq with hq | hq <;> (subst hq; decide)
  have hqb : quote ≠ '\\' := by
    rcases hq with hq | hq <;> (subst hq; decide)
  have hws : Iterator.skipWhitespace ⟨w ++ quote :: t, position⟩
      = ⟨quote :: t, position + w.length⟩ := by
    unfold Iterator.skipWhitespace
    rw [skipWhile_append isWhitespace w (quote :: t) position hw hqw]
  have hread : readNextToken ⟨w ++ quote :: t, position⟩
      = (tokenType_stringLiteral, skipQuotedStringLoop quote t (position + w.length + 1)) := by
    rw [readNextToken_of_quote _ (by rw [hws]; exact hq), hws]
    rfl
  rw [hread]
  refine ⟨rfl, ?_⟩
  rcases skipQuotedStringLoop_spec quote hqb t (position + w.length + 1) hnul with
    ⟨i, hi, hmin, hres⟩ | ⟨hnone, hres⟩
  · left
    refine ⟨i, hi, ?_, hmin, hres⟩
    simp only [closesString, Bool.and_eq_true, decide_eq_true_eq] at hi
    exact hi.1
  · right
    exact ⟨hnone, hres⟩

theorem readNextToken_quotedString_witness :
    (∀ x ∈ " ".toList, isWhitespace x = true) ∧ ('\'' = '"' ∨ '\'' = '\'')
      ∧ (∀ x ∈ "a\"\\'b' c".toList, x ≠ '\x00')
      ∧ (readNextToken ⟨" ".toList ++ '\'' :: "a\"\\'b' c".toList, 0⟩).1
          = tokenType_stringLiteral
      ∧ ((∃ i, closesString '\'' "a\"\\'b' c".toList i = true
            ∧ "a\"\\'b' c".toList.get? i = some '\''
            ∧ (∀ j < i, closesString '\'' "a\"\\'b' c".toList j = false)
            ∧ (readNextToken ⟨" ".toList ++ '\'' :: "a\"\\'b' c".toList, 0⟩).2
                = ⟨"a\"\\'b' c".toList.drop (i + 1), 0 + " ".toList.length + 1 + (i + 1)⟩)
        ∨ ((∀ j, closesString '\'' "a\"\\'b' c".toList j = false)
            ∧ (readNextToken ⟨" ".toList ++ '\'' :: "a\"\\'b' c".toList, 0⟩).2
                = ⟨[], 0 + " ".toList.length + 1 + "a\"\\'b' c".toList.length⟩)) :=
  ⟨by decide, by decide, by decide,
    readNextToken_quotedString " ".toList "a\"\\'b' c".toList '\'' 0
      (by decide) (by decide) (by decide)⟩

end CPlusPlusCodeTokeniser

/-! ## Block comments -/

namespace CppTokeniser

open CharacterFunctions CodeDocument.Iterator

theorem closesComment_cons (c : Char) (t : List Char) (i : Nat) :
    closesComment (c :: t) (i + 1) ↔ closesComment t i := by
  simp [closesComment]

theorem skipCommentLoop_star (t : List Char) (position : Nat)
    (h : t.head? ≠ some '/') :
    skipCommentLoop t position true = skipCommentLoop t position false := by
  cases t with
  | nil => rfl
  | cons c rest =>
    have hc : c ≠ '/' := fun hc => h (by simp [hc])
    unfold skipCommentLoop
    simp [hc]

/-- The loop of `skipComment` stops right after the first `*/` of the body, or
at the end of the text when the body holds none. -/
theorem skipCommentLoop_spec : ∀ (t : List Char) (position : Nat),
    (∀ x ∈ t, x ≠ '\x00') →
      (∃ i, closesComment t i ∧ (∀ j < i, ¬ closesComment t j)
          ∧ skipCommentLoop t position false = ⟨t.drop (i + 2), position + (i + 2)⟩)
        ∨ ((∀ j, ¬ closesComment t j)
          ∧ skipCommentLoop t position false = ⟨[], position + t.length⟩) := by
  intro t
  induction t with
  | nil =>
    intro position _
    right
    exact ⟨fun j => by simp [closesComment], rfl⟩
  | cons c rest ih =>
    intro position hnul
    have hc0 : c ≠ '\x00' := hnul c (List.mem_cons_self _ _)
    have hrest : ∀ x ∈ rest, x ≠ '\x00' := fun x hx => hnul x (List.mem_cons_of_mem _ hx)
    have hstep : skipCommentLoop (c :: rest) position false
        = skipCommentLoop rest (position + 1) (decide (c = '*')) := by
      conv => lhs; unfold skipCommentLoop
      simp [hc0]
    by_cases hclose : c = '*' ∧ rest.head? = some '/'
    · obtain ⟨hc, hr⟩ := hclose
      cases rest with
      | nil => simp at hr
      | cons d r2 =>
        have hd : d = '/' := by simpa using hr
        subst hc hd
        left
        refine ⟨0, by simp [closesComment], fun j hj => absurd hj (by omega), ?_⟩
        rw [hstep]
        simp [skipCommentLoop]
    · have h0 : ¬ closesComment (c :: rest) 0 := by
        intro h
        apply hclose
        simp only [closesComment, List.get?_cons_zero, Option.some.injEq, zero_add,
          List.get?_cons_succ] at h
        refine ⟨h.1, ?_⟩
        cases rest with
        | nil => simp at h
        | cons d r2 => simpa using h.2
      have hloop : skipCommentLoop (c :: rest) position false
          = skipCommentLoop rest (position + 1) false := by
        rw [hstep]
        by_cases hc : c = '*'
        · have hr : rest.head? ≠ some '/' := fun hr => hclose ⟨hc, hr⟩
          simp only [hc, decide_True]
          exact skipCommentLoop_star rest (position + 1) hr
        · simp [hc]
      rcases ih (position + 1) hrest with ⟨i, hi, hmin, hres⟩ | ⟨hnone, hres⟩
      · left
        refine ⟨i + 1, (closesComment_cons c rest i).mpr hi, fun j hj => ?_, ?_⟩
        · match j with
          | 0 => exact h0
          | j + 1 =>
            rw [closesComment_cons]
            exact hmin j (by omega)
        · rw [hloop, hres]
          simp only [List.drop_succ_cons, Iterator.mk.injEq, true_and]
          omega
      · right
        refine ⟨fun j => ?_, ?_⟩
        · match j with
          | 0 => exact h0
          | j + 1 =>
            rw [closesComment_cons]
            exact hnone j
        · rw [hloop, hres]
          simp only [List.length_cons, Iterator.mk.injEq, true_and]
          omega

end CppTokeniser

namespace CPlusPlusCodeTokeniser

open CharacterFunctions CppTokeniser CodeDocument.Iterator

theorem readNextToken_of_slash (a : Iterator) (h : a.skipWhitespace.peekNextChar = '/') :
    readNextToken a
      = (if a.skipWhitespace.skip.peekNextChar = '=' then
          (tokenType_operator, a.skipWhitespace.skip.skip)
        else if a.skipWhitespace.skip.peekNextChar = '/' then
          (tokenType_comment, a.skipWhitespace.skip.skipToEndOfLine)
        else if a.skipWhitespace.skip.peekNextChar = '*' then
          (tokenType_comment, skipComment a.skipWhitespace.skip.skip)
        else (tokenType_operator, a.skipWhitespace.skip)) := by
  unfold readNextToken
  conv => lhs; zeta
  rw [h]
  simp only [Char.reduceEq, ↓reduceIte, or_false, or_self]

/-- C11 (block comments).  On whitespace `w`, the opening `/*` and a body `t`,
`readNextToken` returns Comment.  The iterator ends right after the first
`*/` of the body (both characters taken from the body, so that the `*` of the
opening does not count), or at the end of the input when the body holds no
`*/`; a comment that is not terminated is still a Comment. -/
theorem readNextToken_blockComment (w t : List Char) (position : Nat)
    (hw : ∀ x ∈ w, isWhitespace x = true) (hnul : ∀ x ∈ t, x ≠ '\x00') :
    (readNextToken ⟨w ++ '/' :: '*' :: t, position⟩).1 = tokenType_comment
      ∧ ((∃ i, closesComment t i ∧ (∀ j < i, ¬ closesComment t j)
            ∧ (readNextToken ⟨w ++ '/' :: '*' :: t, position⟩).2
                = ⟨t.drop (i + 2), position + w.length + 2 + (i + 2)⟩)
        ∨ ((∀ j, ¬ closesComment t j)
            ∧ (readNextToken ⟨w ++ '/' :: '*' :: t, position⟩).2
                = ⟨[], position + w.length + 2 + t.length⟩)) := by
  have hws : Iterator.skipWhitespace ⟨w ++ '/' :: '*' :: t, position⟩
      = ⟨'/' :: '*' :: t, position + w.length⟩ := by
    unfold Iterator.skipWhitespace
    rw [skipWhile_append isWhitespace w ('/' :: '*' :: t) position hw
      (by show isWhitespace '/' = false; decide)]
  have hread : readNextToken ⟨w ++ '/' :: '*' :: t, position⟩
      = (tokenType_comment, skipCommentLoop t (position + w.length + 2) false) := by
    rw [readNextToken_of_slash _ (by rw [hws]; rfl), hws]
    simp only [skip_cons, peekNextChar_mk, List.headD_cons, Char.reduceEq, ↓reduceIte]
    rfl
  rw [hread]
  exact ⟨rfl, skipCommentLoop_spec t (position + w.length + 2) hnul⟩

theorem readNextToken_blockComment_witness :
    (∀ x ∈ " ".toList, isWhitespace x = true) ∧ (∀ x ∈ "/**/x".toList, x ≠ '\x00')
      ∧ (readNextToken ⟨" ".toList ++ '/' :: '*' :: "/**/x".toList, 0⟩).1 = tokenType_comment
      ∧ ((∃ i, closesComment "/**/x".toList i ∧ (∀ j < i, ¬ closesComment "/**/x".toList j)
            ∧ (readNextToken ⟨" ".toList ++ '/' :: '*' :: "/**/x".toList, 0⟩).2
                = ⟨"/**/x".toList.drop (i + 2), 0 + " ".toList.length + 2 + (i + 2)⟩)
        ∨ ((∀ j, ¬ closesComment "/**/x".toList j)
            ∧ (readNextToken ⟨" ".toList ++ '/' :: '*' :: "/**/x".toList, 0⟩).2
                = ⟨[], 0 + " ".toList.length + 2 + "/**/x".toList.length⟩)) :=
  ⟨by decide, by decide,
    readNextToken_blockComment " ".toList "/**/x".toList 0 (by decide) (by decide)⟩

end CPlusPlusCodeTokeniser

/-! ## Operators -/

namespace CPlusPlusCodeTokeniser

open CharacterFunctions CppTokeniser CodeDocument.Iterator

theorem skipWhitespace_of_not_whitespace (c : Char) (rest : List Char) (position : Nat)
    (hc : isWhitespace c = false) :
    Iterator.skipWhitespace ⟨c :: rest, position⟩ = ⟨c :: rest, position⟩ := by
  simp [Iterator.skipWhitespace, skipWhile, skipWhileFrom, hc]

/-- The four doubled-operator cases whose partner is the character itself. -/
theorem readNextToken_of_doubling (c : Char) (rest : List Char) (position : Nat)
    (hc : c = '<' ∨ c = '|' ∨ c = '&' ∨ c = '^') :
    readNextToken ⟨c :: rest, position⟩
      = (tokenType_operator, skipOperatorTail c ⟨rest, position + 1⟩) := by
  have hws : Iterator.skipWhitespace ⟨c :: rest, position⟩ = ⟨c :: rest, position⟩ := by
    apply skipWhitespace_of_not_whitespace
    rcases hc with h | h | h | h <;> (subst h; decide)
  unfold readNextToken
  conv => lhs; zeta
  rw [hws, peekNextChar_mk, List.headD_cons, skip_cons]
  rcases hc with h | h | h | h <;> subst h <;>
    simp only [Char.reduceEq, ↓reduceIte, or_false, or_self]

/-- The case `'>'`, whose partner in the source is `'<'`. -/
theorem readNextToken_of_greater (rest : List Char) (position : Nat) :
    readNextToken ⟨'>' :: rest, position⟩
      = (tokenType_operator, skipOperatorTail '<' ⟨rest, position + 1⟩) := by
  have hws : Iterator.skipWhitespace ⟨'>' :: rest, position⟩ = ⟨'>' :: rest, position⟩ :=
    skipWhitespace_of_not_whitespace _ _ _ (by decide)
  unfold readNextToken
  conv => lhs; zeta
  rw [hws, peekNextChar_mk, List.headD_cons, skip_cons]
  simp only [Char.reduceEq, ↓reduceIte, or_false, or_self]

theorem skipOperatorTail_equals (partner : Char) (rest : List Char) (position : Nat) :
    skipOperatorTail partner ⟨'=' :: rest, position⟩ = ⟨rest, position + 1⟩ := by
  simp [skipOperatorTail, peekNextChar_mk, skip_cons]

theorem skipOperatorTail_partner_equals (partner : Char) (rest : List Char) (position : Nat)
    (hp : partner ≠ '=') :
    skipOperatorTail partner ⟨partner :: '=' :: rest, position⟩ = ⟨rest, position + 2⟩ := by
  simp [skipOperatorTail, peekNextChar_mk, skip_cons, hp]

theorem skipOperatorTail_partner (partner : Char) (rest : List Char) (position : Nat)
    (hp : partner ≠ '=') (hr : rest.headD '\x00' ≠ '=') :
    skipOperatorTail partner ⟨partner :: rest, position⟩ = ⟨rest, position + 1⟩ := by
  unfold skipOperatorTail
  simp only [peekNextChar_mk, List.headD_cons, skip_cons]
  rw [if_neg hp, if_pos trivial, if_neg hr]

theorem skipOperatorTail_other (partner : Char) (rest : List Char) (position : Nat)
    (he : rest.headD '\x00' ≠ '=') (hp : rest.headD '\x00' ≠ partner) :
    skipOperatorTail partner ⟨rest, position⟩ = ⟨rest, position⟩ := by
  unfold skipOperatorTail
  simp only [peekNextChar_mk]
  rw [if_neg he, if_neg hp]

/-- C12 (operator doubling).  For `c` one of `<`, `|`, `&`, `^`, `readNextToken`
on an input that starts with `c` returns Operator and consumes 2 characters
when `=` follows, 3 characters when `c` and `=` follow, 2 characters when `c`
follows without `=` after it, and 1 character otherwise; `<<=` is one
Operator of length 3, `&&` one of length 2 and a lone `<` one of length 1. -/
theorem readNextToken_operator_doubling (c : Char) (rest : List Char) (position : Nat)
    (hc : c = '<' ∨ c = '|' ∨ c = '&' ∨ c = '^') :
    readNextToken ⟨c :: '=' :: rest, position⟩ = (tokenType_operator, ⟨rest, position + 2⟩)
      ∧ readNextToken ⟨c :: c :: '=' :: rest, position⟩
          = (tokenType_operator, ⟨rest, position + 3⟩)
      ∧ (rest.headD '\x00' ≠ '=' →
          readNextToken ⟨c :: c :: rest, position⟩ = (tokenType_operator, ⟨rest, position + 2⟩))
      ∧ (rest.headD '\x00' ≠ '=' → rest.headD '\x00' ≠ c →
          readNextToken ⟨c :: rest, position⟩ = (tokenType_operator, ⟨rest, position + 1⟩))
      ∧ readNextToken (startOf "<<=") = (tokenType_operator, ⟨[], 3⟩)
      ∧ readNextToken (startOf "&&") = (tokenType_operator, ⟨[], 2⟩)
      ∧ readNextToken (startOf "<") = (tokenType_operator, ⟨[], 1⟩) := by
  have hne : c ≠ '=' := by
    rcases hc with h | h | h | h <;> (subst h; decide)
  refine ⟨?_, ?_, fun hr => ?_, fun he hp => ?_, by decide, by decide, by decide⟩
  · rw [readNextToken_of_doubling c _ position hc, skipOperatorTail_equals]
  · rw [readNextToken_of_doubling c _ position hc, skipOperatorTail_partner_equals _ _ _ hne]
  · rw [readNextToken_of_doubling c _ position hc, skipOperatorTail_partner _ _ _ hne hr]
  · rw [readNextToken_of_doubling c _ position hc, skipOperatorTail_other _ _ _ he hp]

theorem readNextToken_operator_doubling_witness :
    ('|' = '<' ∨ '|' = '|' ∨ '|' = '&' ∨ '|' = '^')
      ∧ (readNextToken ⟨'|' :: '=' :: "x".toList, 0⟩ = (tokenType_operator, ⟨"x".toList, 0 + 2⟩)
      ∧ readNextToken ⟨'|' :: '|' :: '=' :: "x".toList, 0⟩
          = (tokenType_operator, ⟨"x".toList, 0 + 3⟩)
      ∧ ("x".toList.headD '\x00' ≠ '=' →
          readNextToken ⟨'|' :: '|' :: "x".toList, 0⟩
            = (tokenType_operator, ⟨"x".toList, 0 + 2⟩))
      ∧ ("x".toList.headD '\x00' ≠ '=' → "x".toList.headD '\x00' ≠ '|' →
          readNextToken ⟨'|' :: "x".toList, 0⟩ = (tokenType_operator, ⟨"x".toList, 0 + 1⟩))
      ∧ readNextToken (startOf "<<=") = (tokenType_operator, ⟨[], 3⟩)
      ∧ readNextToken (startOf "&&") = (tokenType_operator, ⟨[], 2⟩)
      ∧ readNextToken (startOf "<") = (tokenType_operator, ⟨[], 1⟩)) :=
  ⟨by decide, readNextToken_operator_doubling '|' "x".toList 0 (by decide)⟩

/-- C13 (the partner of `>` is `<`).  On an input that starts with `>`,
`readNextToken` returns Operator and consumes 2 characters when `=` follows,
3 characters for `><=`, 2 characters for `><` without `=` after it, and exactly
1 character in every other case; on `>>` and on `>>=` the first token is the
single character `>`. -/
theorem readNextToken_greater (rest : List Char) (position : Nat) :
    readNextToken ⟨'>' :: '=' :: rest, position⟩ = (tokenType_operator, ⟨rest, position + 2⟩)
      ∧ readNextToken ⟨'>' :: '<' :: '=' :: rest, position⟩
          = (tokenType_operator, ⟨rest, position + 3⟩)
      ∧ (rest.headD '\x00' ≠ '=' →
          readNextToken ⟨'>' :: '<' :: rest, position⟩
            = (tokenType_operator, ⟨rest, position + 2⟩))
      ∧ (rest.headD '\x00' ≠ '=' → rest.headD '\x00' ≠ '<' →
          readNextToken ⟨'>' :: rest, position⟩ = (tokenType_operator, ⟨rest, position + 1⟩))
      ∧ readNextToken ⟨'>' :: '>' :: rest, position⟩
          = (tokenType_operator, ⟨'>' :: rest, position + 1⟩)
      ∧ readNextToken (startOf ">>") = (tokenType_operator, ⟨">".toList, 1⟩)
      ∧ readNextToken (startOf ">>=") = (tokenType_operator, ⟨">=".toList, 1⟩) := by
  refine ⟨?_, ?_, fun hr => ?_, fun he hp => ?_, ?_, by decide, by decide⟩
  · rw [readNextToken_of_greater, skipOperatorTail_equals]
  · rw [readNextToken_of_greater, skipOperatorTail_partner_equals _ _ _ (by decide)]
  · rw [readNextToken_of_greater, skipOperatorTail_partner _ _ _ (by decide) hr]
  · rw [readNextToken_of_greater, skipOperatorTail_other _ _ _ he hp]
  · rw [readNextToken_of_greater, skipOperatorTail_other _ _ _
      (by simp only [List.headD_cons]; decide) (by simp only [List.headD_cons]; decide)]

theorem readNextToken_greater_witness :
    "a".toList.headD '\x00' ≠ '=' ∧ "a".toList.headD '\x00' ≠ '<'
      ∧ readNextToken ⟨'>' :: "a".toList, 0⟩ = (tokenType_operator, ⟨"a".toList, 0 + 1⟩) :=
  ⟨by decide, by decide, (readNextToken_greater "a".toList 0).2.2.2.1 (by decide) (by decide)⟩

end CPlusPlusCodeTokeniser

/-! ## The colour table -/

namespace CPlusPlusCodeTokeniser

/-- C14 (colour table bound safety).  For every integer `tokenType`,
`getDefaultColour` never reads outside its 11-entry table: for
`0 <= tokenType < 11` it returns the table entry at that index, and for every
other value, such as -1 and 999, the fallback colour black, 0xff000000. -/
theorem getDefaultColour_bounds (tokenType : Int) :
    colours.length = 11
      ∧ (0 ≤ tokenType ∧ tokenType < 11 →
          ∃ h : tokenType.toNat < colours.length,
            getDefaultColour tokenType = some (colours.get ⟨tokenType.toNat, h⟩))
      ∧ (¬ (0 ≤ tokenType ∧ tokenType < 11) → getDefaultColour tokenType = some 0xff000000)
      ∧ getDefaultColour (-1) = some 0xff000000
      ∧ getDefaultColour 999 = some 0xff000000 := by
  refine ⟨rfl, fun hr => ?_, fun hr => ?_, by decide, by decide⟩
  · have hlen : colours.length = 11 := rfl
    have h : tokenType.toNat < colours.length := by omega
    refine ⟨h, ?_⟩
    unfold getDefaultColour
    rw [if_pos (by rw [hlen]; exact ⟨hr.1, hr.2⟩), List.get?_eq_get h]
  · have hlen : colours.length = 11 := rfl
    unfold getDefaultColour
    rw [if_neg (by rw [hlen]; exact hr)]
    rfl

theorem getDefaultColour_bounds_witness :
    (0 ≤ (7 : Int) ∧ (7 : Int) < 11)
      ∧ ∃ h : (7 : Int).toNat < colours.length,
          getDefaultColour 7 = some (colours.get ⟨(7 : Int).toNat, h⟩) :=
  ⟨by decide, (getDefaultColour_bounds 7).2.1 (by decide)⟩

end CPlusPlusCodeTokeniser

/-! ## The position in the document plays no part -/

namespace CodeDocument.Iterator

open CharacterFunctions

theorem peekNextChar_shift (k : Nat) (a : Iterator) :
    (a.shift k).peekNextChar = a.peekNextChar := rfl

theorem remaining_shift (k : Nat) (a : Iterator) : (a.shift k).remaining = a.remaining := rfl

theorem position_shift (k : Nat) (a : Iterator) : (a.shift k).position = a.position + k := rfl

theorem skip_shift (k : Nat) (a : Iterator) : (a.shift k).skip = a.skip.shift k := by
  obtain ⟨r, p⟩ := a
  cases r with
  | nil => rfl
  | cons c r =>
    show (⟨r, p + k + 1⟩ : Iterator) = ⟨r, p + 1 + k⟩
    rw [Nat.add_right_comm]

theorem skipWhile_shift (p : Char → Bool) (k : Nat) (a : Iterator) :
    (a.shift k).skipWhile p = ((a.skipWhile p).1.shift k, (a.skipWhile p).2) := by
  rw [skipWhile_eq, skipWhile_eq]
  show ((⟨_, a.position + k + _⟩ : Iterator), _) = ((⟨_, a.position + _ + k⟩ : Iterator), _)
  rw [Nat.add_right_comm]
  rfl

theorem skipWhitespace_shift (k : Nat) (a : Iterator) :
    (a.shift k).skipWhitespace = a.skipWhitespace.shift k := by
  unfold skipWhitespace
  rw [skipWhile_shift]

theorem skipToEndOfLineFrom_shift (k : Nat) (l : List Char) (position : Nat) :
    skipToEndOfLineFrom l (position + k) = (skipToEndOfLineFrom l position).shift k := by
  induction l generalizing position with
  | nil => rfl
  | cons c rest ih =>
    unfold skipToEndOfLineFrom
    by_cases hc : c = '\n'
    · rw [if_pos hc, if_pos hc]
      show (⟨rest, position + k + 1⟩ : Iterator) = ⟨rest, position + 1 + k⟩
      rw [Nat.add_right_comm]
    · rw [if_neg hc, if_neg hc, Nat.add_right_comm]
      exact ih (position + 1)

theorem skipToEndOfLine_shift (k : Nat) (a : Iterator) :
    (a.shift k).skipToEndOfLine = a.skipToEndOfLine.shift k :=
  skipToEndOfLineFrom_shift k a.remaining a.position

end CodeDocument.Iterator

namespace CppTokeniser

open CharacterFunctions CPlusPlusCodeTokeniser CodeDocument.Iterator

theorem parseIdentifierLoop_shift (k : Nat) (l : List Char) (position tokenLength : Nat)
    (possibleIdentifier : List Char) :
    parseIdentifierLoop l (position + k) tokenLength possibleIdentifier
      = ((parseIdentifierLoop l position tokenLength possibleIdentifier).1.shift k,
          (parseIdentifierLoop l position tokenLength possibleIdentifier).2) := by
  induction l generalizing position tokenLength possibleIdentifier with
  | nil => rfl
  | cons c rest ih =>
    unfold parseIdentifierLoop
    by_cases hc : isIdentifierBody c = true
    · rw [if_pos hc, if_pos hc, Nat.add_right_comm]
      exact ih (position + 1) _ _
    · rw [if_neg hc, if_neg hc]
      rfl

theorem parseIdentifierFrom_shift (k : Nat) (possibleIdentifier : List Char) (a : Iterator) :
    parseIdentifierFrom possibleIdentifier (a.shift k)
      = ((parseIdentifierFrom possibleIdentifier a).1,
          (parseIdentifierFrom possibleIdentifier a).2.shift k) := by
  unfold parseIdentifierFrom
  simp only [remaining_shift, position_shift, parseIdentifierLoop_shift]
  split_ifs <;> rfl

theorem parseIdentifier_shift (k : Nat) (a : Iterator) :
    parseIdentifier (a.shift k) = ((parseIdentifier a).1, (parseIdentifier a).2.shift k) :=
  parseIdentifierFrom_shift k _ a

theorem skipNumberSuffix_shift (k : Nat) (a : Iterator) :
    skipNumberSuffix (a.shift k) = ((skipNumberSuffix a).1, (skipNumberSuffix a).2.shift k) := by
  unfold skipNumberSuffix
  simp only [peekNextChar_shift, skip_shift]
  split_ifs <;> first | rfl | simp_all [peekNextChar_shift]

theorem parseHexLiteral_shift (k : Nat) (a : Iterator) :
    parseHexLiteral (a.shift k) = ((parseHexLiteral a).1, (parseHexLiteral a).2.shift k) := by
  unfold parseHexLiteral
  simp only [nextChar, peekNextChar_shift, skip_shift, skipWhile_shift, skipNumberSuffix_shift]
  split_ifs <;> rfl

theorem parseOctalLiteral_shift (k : Nat) (a : Iterator) :
    parseOctalLiteral (a.shift k)
      = ((parseOctalLiteral a).1, (parseOctalLiteral a).2.shift k) := by
  unfold parseOctalLiteral
  simp only [nextChar, peekNextChar_shift, skip_shift, skipWhile_shift, skipNumberSuffix_shift]
  split_ifs <;> rfl

theorem parseDecimalLiteral_shift (k : Nat) (a : Iterator) :
    parseDecimalLiteral (a.shift k)
      = ((parseDecimalLiteral a).1, (parseDecimalLiteral a).2.shift k) := by
  unfold parseDecimalLiteral
  simp only [skipWhile_shift, skipNumberSuffix_shift]
  split_ifs <;> rfl

theorem parseFloatMantissa_shift (k : Nat) (a : Iterator) :
    parseFloatMantissa (a.shift k)
      = ((parseFloatMantissa a).1.shift k, (parseFloatMantissa a).2) := by
  unfold parseFloatMantissa
  simp only [peekNextChar_shift, skip_shift, skipWhile_shift]
  split_ifs <;> rfl

theorem parseFloatExponent_shift (k : Nat) (a : Iterator) :
    parseFloatExponent (a.shift k)
      = ((parseFloatExponent a).1, (parseFloatExponent a).2.1,
          (parseFloatExponent a).2.2.shift k) := by
  unfold parseFloatExponent
  simp only [peekNextChar_shift, skip_shift, ← apply_ite (shift k), skipWhile_shift]
  split_ifs <;> rfl

theorem parseFloatLiteral_shift (k : Nat) (a : Iterator) :
    parseFloatLiteral (a.shift k)
      = ((parseFloatLiteral a).1, (parseFloatLiteral a).2.shift k) := by
  unfold parseFloatLiteral
  simp only [parseFloatMantissa_shift, parseFloatExponent_shift, peekNextChar_shift, skip_shift]
  split_ifs <;> rfl

theorem parseNumber_shift (k : Nat) (a : Iterator) :
    parseNumber (a.shift k) = ((parseNumber a).1, (parseNumber a).2.shift k) := by
  unfold parseNumber
  simp only [parseFloatLiteral_shift, parseHexLiteral_shift, parseOctalLiteral_shift,
    parseDecimalLiteral_shift, skip_shift]
  split_ifs <;> rfl

theorem skipQuotedStringLoop_shift (k : Nat) (quote : Char) (l : List Char) (position : Nat) :
    skipQuotedStringLoop quote l (position + k)
      = (skipQuotedStringLoop quote l position).shift k := by
  induction l, position using skipQuotedStringLoop.induct quote with
  | case1 position => rfl
  | case2 c rest position h =>
    unfold skipQuotedStringLoop
    rw [if_pos h, if_pos h]
    show (⟨rest, position + k + 1⟩ : Iterator) = ⟨rest, position + 1 + k⟩
    rw [Nat.add_right_comm]
  | case3 position h =>
    unfold skipQuotedStringLoop
    simp only [h, if_false, if_true]
    show (⟨[], position + k + 1⟩ : Iterator) = ⟨[], position + 1 + k⟩
    rw [Nat.add_right_comm]
  | case4 position c2 rest2 h ih =>
    unfold skipQuotedStringLoop
    simp only [h, if_false, if_true]
    rw [Nat.add_right_comm]
    exact ih
  | case5 c rest position h hb ih =>
    unfold skipQuotedStringLoop
    simp only [h, hb, if_false]
    rw [Nat.add_right_comm]
    exact ih

theorem skipQuotedString_shift (k : Nat) (a : Iterator) :
    skipQuotedString (a.shift k) = (skipQuotedString a).shift k := by
  unfold skipQuotedString
  simp only [nextChar, peekNextChar_shift, skip_shift]
  exact skipQuotedStringLoop_shift k _ _ _

theorem skipCommentLoop_shift (k : Nat) (l : List Char) (position : Nat) (lastWasStar : Bool) :
    skipCommentLoop l (position + k) lastWasStar
      = (skipCommentLoop l position lastWasStar).shift k := by
  induction l generalizing position lastWasStar with
  | nil => rfl
  | cons c rest ih =>
    unfold skipCommentLoop
    by_cases hc : c = '\x00' ∨ (c = '/' ∧ lastWasStar = true)
    · rw [if_pos hc, if_pos hc]
      show (⟨rest, position + k + 1⟩ : Iterator) = ⟨rest, position + 1 + k⟩
      rw [Nat.add_right_comm]
    · rw [if_neg hc, if_neg hc, Nat.add_right_comm]
      exact ih (position + 1) _

theorem skipComment_shift (k : Nat) (a : Iterator) :
    skipComment (a.shift k) = (skipComment a).shift k :=
  skipCommentLoop_shift k a.remaining a.position false

end CppTokeniser

namespace CPlusPlusCodeTokeniser

open CharacterFunctions CppTokeniser CodeDocument.Iterator

theorem skipOperatorTail_shift (k : Nat) (partner : Char) (a : Iterator) :
    skipOperatorTail partner (a.shift k) = (skipOperatorTail partner a).shift k := by
  unfold skipOperatorTail
  simp only [peekNextChar_shift, skip_shift]
  split_ifs <;> rfl

theorem ite_shift (k : Nat) {c : Prop} [Decidable c] {x y x' y' : Int × Iterator}
    (hx : x' = (x.1, x.2.shift k)) (hy : y' = (y.1, y.2.shift k)) :
    (if c then x' else y') = ((if c then x else y).1, (if c then x else y).2.shift k) := by
  by_cases h : c
  · rw [if_pos h, if_pos h]; exact hx
  · rw [if_neg h, if_neg h]; exact hy

/-- The position of the iterator in the document has no part in what
`readNextToken` does: `k` characters further into a document, with the same
text ahead, it returns the same category and ends at the same place in the
text, `k` positions further. -/
theorem readNextToken_shift (k : Nat) (a : Iterator) :
    readNextToken (a.shift k) = ((readNextToken a).1, (readNextToken a).2.shift k) := by
  unfold readNextToken
  conv => zeta
  rw [skipWhitespace_shift]
  generalize a.skipWhitespace = b
  rw [peekNextChar_shift]
  repeat' (with_reducible refine ite_shift k ?_ ?_)
  all_goals
    simp only [peekNextChar_shift, skip_shift, parseNumber_shift, parseIdentifier_shift,
      skipQuotedString_shift, skipComment_shift, skipToEndOfLine_shift, skipOperatorTail_shift]
  all_goals first | rfl | (split_ifs <;> rfl)

end CPlusPlusCodeTokeniser

/-! ## Leading whitespace -/

namespace CPlusPlusCodeTokeniser

open CharacterFunctions CppTokeniser CodeDocument.Iterator

theorem skipWhitespace_eq (l : List Char) (position : Nat) :
    Iterator.skipWhitespace ⟨l, position⟩
      = ⟨l.dropWhile isWhitespace, position + (l.takeWhile isWhitespace).length⟩ := by
  unfold Iterator.skipWhitespace
  rw [skipWhile_eq]

theorem skipWhitespace_append (w s : List Char) (position : Nat)
    (hw : ∀ x ∈ w, isWhitespace x = true) :
    Iterator.skipWhitespace ⟨w ++ s, position⟩
      = Iterator.skipWhitespace ⟨s, position + w.length⟩ := by
  induction w generalizing position with
  | nil => rfl
  | cons c w ih =>
    have hc : isWhitespace c = true := hw c (List.mem_cons_self _ _)
    have ht : ∀ x ∈ w, isWhitespace x = true := fun x hx => hw x (List.mem_cons_of_mem _ hx)
    have h1 : Iterator.skipWhitespace ⟨c :: (w ++ s), position⟩
        = Iterator.skipWhitespace ⟨w ++ s, position + 1⟩ := by
      simp only [skipWhitespace_eq, List.dropWhile_cons, List.takeWhile_cons, hc, if_true,
        List.length_cons, Iterator.mk.injEq, true_and]
      omega
    rw [List.cons_append, h1, ih (position + 1) ht, List.length_cons]
    congr 2
    omega

theorem isWhitespace_peek_skipWhitespace (a : Iterator) :
    isWhitespace a.skipWhitespace.peekNextChar = false := by
  obtain ⟨l, position⟩ := a
  rw [skipWhitespace_eq, peekNextChar_mk]
  induction l with
  | nil => decide
  | cons c l ih =>
    by_cases hc : isWhitespace c = true
    · rw [List.dropWhile_cons, if_pos hc]
      exact ih
    · rw [List.dropWhile_cons, if_neg hc, List.headD_cons]
      exact Bool.eq_false_iff.mpr hc

theorem skipWhitespace_of_peek (b : Iterator) (h : isWhitespace b.peekNextChar = false) :
    b.skipWhitespace = b := by
  obtain ⟨l, position⟩ := b
  cases l with
  | nil => rfl
  | cons c rest => exact skipWhitespace_of_not_whitespace c rest position h

theorem skipWhitespace_idem (a : Iterator) : a.skipWhitespace.skipWhitespace = a.skipWhitespace :=
  skipWhitespace_of_peek _ (isWhitespace_peek_skipWhitespace a)

theorem readNextToken_skipWhitespace (a : Iterator) :
    readNextToken a.skipWhitespace = readNextToken a := by
  unfold readNextToken
  rw [skipWhitespace_idem]

/-- C15 (leading whitespace).  For whitespace `w` and any input `s`,
`readNextToken` in front of `w` followed by `s` gives the result of
`readNextToken` in front of `s`: the same category, the same end, and `|w|`
more characters consumed, wherever in a document `s` starts (in particular
when `s` is the whole input and starts at 0).  A call whose token holds
whitespace only has reached the end of the input. -/
theorem readNextToken_leading_whitespace (w s : List Char) (position : Nat)
    (hw : ∀ x ∈ w, isWhitespace x = true) :
    readNextToken ⟨w ++ s, position⟩ = readNextToken ⟨s, position + w.length⟩
      ∧ (readNextToken ⟨w ++ s, position⟩).2.position - position
          = w.length + ((readNextToken ⟨s, position + w.length⟩).2.position
              - (position + w.length))
      ∧ (∀ start : Nat,
          (readNextToken ⟨w ++ s, position⟩).1 = (readNextToken ⟨s, start⟩).1
            ∧ (readNextToken ⟨w ++ s, position⟩).2.remaining
                = (readNextToken ⟨s, start⟩).2.remaining
            ∧ (readNextToken ⟨w ++ s, position⟩).2.position - position
                = w.length + ((readNextToken ⟨s, start⟩).2.position - start))
      ∧ ∀ source : Iterator,
          (∀ x ∈ source.remaining.take ((readNextToken source).2.position - source.position),
            isWhitespace x = true) →
          (readNextToken source).2.remaining = [] := by
  have h1 : readNextToken ⟨w ++ s, position⟩ = readNextToken ⟨s, position + w.length⟩ := by
    rw [← readNextToken_skipWhitespace ⟨w ++ s, position⟩, skipWhitespace_append w s position hw,
      readNextToken_skipWhitespace]
  have h2 : (readNextToken ⟨w ++ s, position⟩).2.position - position
      = w.length + ((readNextToken ⟨s, position + w.length⟩).2.position
          - (position + w.length)) := by
    rw [h1]
    have := (ahead_readNextToken ⟨s, position + w.length⟩).position_le
    simp only at this
    omega
  have h3 : ∀ q : Nat, readNextToken ⟨s, q⟩
      = ((readNextToken ⟨s, 0⟩).1, (readNextToken ⟨s, 0⟩).2.shift q) := by
    intro q
    have hq := readNextToken_shift q ⟨s, 0⟩
    have hs : Iterator.shift q ⟨s, 0⟩ = ⟨s, q⟩ := by
      show (⟨s, 0 + q⟩ : Iterator) = ⟨s, q⟩
      rw [Nat.zero_add]
    rw [hs] at hq
    exact hq
  refine ⟨h1, h2, ?_, ?_⟩
  · intro start
    rw [h2, h1, h3 start, h3 (position + w.length)]
    refine ⟨rfl, rfl, ?_⟩
    show w.length + ((readNextToken ⟨s, 0⟩).2.position + (position + w.length)
        - (position + w.length))
      = w.length + ((readNextToken ⟨s, 0⟩).2.position + start - start)
    omega
  · intro source hall
    by_contra hne
    have hread := readNextToken_skipWhitespace source
    have hab := ahead_readNextToken source.skipWhitespace
    rw [hread] at hab
    have hws := isWhitespace_peek_skipWhitespace source
    obtain ⟨l, p⟩ := source
    rw [skipWhitespace_eq] at hab hws
    rw [peekNextChar_mk] at hws
    cases hd : l.dropWhile isWhitespace with
    | nil =>
      rw [hd] at hab
      exact hne (List.suffix_nil.mp hab.1)
    | cons c rest =>
      rw [hd] at hws
      have hc : isWhitespace c = false := hws
      have hb : l.dropWhile isWhitespace ≠ [] := by rw [hd]; simp
      have hlt := length_readNextToken ⟨l.dropWhile isWhitespace,
        p + (l.takeWhile isWhitespace).length⟩ hb
      rw [← skipWhitespace_eq, hread] at hlt
      rw [skipWhitespace_eq] at hlt
      have hpos := hab.2
      simp only at hpos hlt
      have hsplit := List.takeWhile_append_dropWhile isWhitespace l
      have hmem : c ∈ l.take ((readNextToken ⟨l, p⟩).2.position - p) := by
        rw [List.mem_iff_get?]
        refine ⟨(l.takeWhile isWhitespace).length, ?_⟩
        have hidx : (l.takeWhile isWhitespace).length
            < (readNextToken ⟨l, p⟩).2.position - p := by omega
        have hget : ∀ t : List Char, (t ++ c :: rest)[t.length]? = some c := by
          intro t
          rw [List.getElem?_append_right (Nat.le_refl _), Nat.sub_self]
          exact List.getElem?_cons_zero
        have hg := hget (l.takeWhile isWhitespace)
        rw [← hd, hsplit] at hg
        rw [List.get?_eq_getElem?, List.getElem?_take_of_lt hidx]
        exact hg
      have := hall c hmem
      rw [hc] at this
      exact absurd this (by decide)

theorem readNextToken_leading_whitespace_witness :
    (∀ x ∈ " \t".toList, isWhitespace x = true)
      ∧ readNextToken ⟨" \t".toList ++ "if(".toList, 0⟩
          = readNextToken ⟨"if(".toList, 0 + " \t".toList.length⟩
      ∧ (readNextToken ⟨" \t".toList ++ "if(".toList, 0⟩).2.position - 0
          = " \t".toList.length + ((readNextToken ⟨"if(".toList, 0 + " \t".toList.length⟩).2.position
              - (0 + " \t".toList.length))
      ∧ (∀ start : Nat,
          (readNextToken ⟨" \t".toList ++ "if(".toList, 0⟩).1
              = (readNextToken ⟨"if(".toList, start⟩).1
            ∧ (readNextToken ⟨" \t".toList ++ "if(".toList, 0⟩).2.remaining
                = (readNextToken ⟨"if(".toList, start⟩).2.remaining
            ∧ (readNextToken ⟨" \t".toList ++ "if(".toList, 0⟩).2.position - 0
                = " \t".toList.length + ((readNextToken ⟨"if(".toList, start⟩).2.position - start))
      ∧ ∀ source : Iterator,
          (∀ x ∈ source.remaining.take ((readNextToken source).2.position - source.position),
            isWhitespace x = true) →
          (readNextToken source).2.remaining = [] :=
  ⟨by decide, readNextToken_leading_whitespace " \t".toList "if(".toList 0 (by decide)⟩

end CPlusPlusCodeTokeniser

/-! ## Bare digit runs -/

namespace CppTokeniser

open CharacterFunctions CodeDocument.Iterator

/-- `parseHexLiteral` rejects a text whose second character, or the end
sentinel when there is none, is not `x` or `X`. -/
theorem parseHexLiteral_reject_headD (c0 : Char) (t : List Char) (position : Nat)
    (h1 : t.headD '\x00' ≠ 'x' ∧ t.headD '\x00' ≠ 'X') :
    (parseHexLiteral ⟨c0 :: t, position⟩).1 = false := by
  cases t with
  | cons c1 t => exact parseHexLiteral_reject c0 c1 t position h1
  | nil =>
    unfold parseHexLiteral nextChar
    simp only [peekNextChar_mk, skip_cons, List.headD_cons, List.headD_nil]
    split_ifs <;> first | rfl | (exfalso; revert h1; simp_all)

theorem isOctalDigit_false_of_not_digit {c : Char} (h : isDecimalDigit c = false) :
    isOctalDigit c = false := by
  rw [Bool.eq_false_iff]
  intro ho
  rw [isOctalDigit_decimal ho] at h
  exact absurd h (by decide)

/-- When `parseOctalLiteral` accepts a run of decimal digits that is followed
by neither a letter nor a digit, it has consumed the whole run. -/
theorem parseOctalLiteral_digit_run (d0 : Char) (d rest : List Char) (position : Nat)
    (hd : ∀ x ∈ d, isDecimalDigit x = true)
    (hrest : isLetterOrDigit (rest.headD '\x00') = false)
    (hok : (parseOctalLiteral ⟨d0 :: (d ++ rest), position⟩).1 = true) :
    (parseOctalLiteral ⟨d0 :: (d ++ rest), position⟩).2 = ⟨rest, position + 1 + d.length⟩ := by
  have hrd : isDecimalDigit (rest.headD '\x00') = false := by
    rw [Bool.eq_false_iff]
    intro h
    rw [isDecimalDigit_letterOrDigit h] at hrest
    exact absurd hrest (by decide)
  have hro : isOctalDigit (rest.headD '\x00') = false := isOctalDigit_false_of_not_digit hrd
  revert hok
  unfold parseOctalLiteral nextChar
  simp only [peekNextChar_mk, skip_cons, List.headD_cons]
  cases d with
  | nil =>
    simp only [List.nil_append, hro]
    split_ifs <;> first | contradiction | simp
  | cons d1 d =>
    simp only [List.cons_append, skip_cons, List.headD_cons]
    by_cases hall : ∀ x ∈ d, isOctalDigit x = true
    · rw [skipWhile_append isOctalDigit d rest _ hall hro]
      simp only [skipNumberSuffix_accept ⟨rest, position + 1 + 1 + d.length⟩ hrest,
        List.length_cons]
      split_ifs <;> intro h <;> first
        | (simp at h; done)
        | (simp only [Iterator.mk.injEq, true_and]; omega)
    · have hex : ∃ x ∈ d, isOctalDigit x = false := by
        by_contra hcon
        apply hall
        intro x hx
        by_contra hx'
        exact hcon ⟨x, hx, Bool.eq_false_iff.mpr hx'⟩
      obtain ⟨x, hx, hxo⟩ := hex
      obtain ⟨m, m', hsplit⟩ := List.append_of_mem hx
      have hm : ∀ y ∈ m, rejectsSuffix y := fun y hy =>
        rejectsSuffix_of_digit (hd y (List.mem_cons_of_mem _ (by rw [hsplit]; simp [hy])))
      have hxq : rejectsSuffix x :=
        rejectsSuffix_of_digit (hd x (List.mem_cons_of_mem _ hx))
      have hrej := skipNumberSuffix_after_skipWhile isOctalDigit m x (m' ++ rest)
        (position + 1 + 1) hm hxq hxo
      have hl : d ++ rest = m ++ x :: (m' ++ rest) := by rw [hsplit]; simp
      rw [hl]
      split_ifs <;> intro h <;> first
        | (simp at h)
        | (rw [hrej] at h; exact absurd h (by decide))

theorem parseDecimalLiteral_digit_run (d0 : Char) (d rest : List Char) (position : Nat)
    (hd0 : isDecimalDigit d0 = true) (hd : ∀ x ∈ d, isDecimalDigit x = true)
    (hrest : isLetterOrDigit (rest.headD '\x00') = false) :
    parseDecimalLiteral ⟨d0 :: (d ++ rest), position⟩
      = (true, ⟨rest, position + 1 + d.length⟩) := by
  have hrd : isDecimalDigit (rest.headD '\x00') = false := by
    rw [Bool.eq_false_iff]
    intro h
    rw [isDecimalDigit_letterOrDigit h] at hrest
    exact absurd hrest (by decide)
  have hall : ∀ x ∈ d0 :: d, isDecimalDigit x = true := by
    intro x hx
    rcases List.mem_cons.mp hx with hx | hx
    · rw [hx]; exact hd0
    · exact hd x hx
  have hsk := skipWhile_append isDecimalDigit (d0 :: d) rest position hall hrd
  rw [List.cons_append] at hsk
  unfold parseDecimalLiteral
  simp only [hsk, List.length_cons, Nat.add_one_ne_zero, if_false]
  rw [skipNumberSuffix_accept ⟨rest, position + (d.length + 1)⟩ hrest]
  simp only [Prod.mk.injEq, Iterator.mk.injEq, true_and]
  omega

end CppTokeniser

namespace CPlusPlusCodeTokeniser

open CharacterFunctions CppTokeniser CodeDocument.Iterator

/-- C17 (bare digit runs are integers).  On a non-empty run `d0 :: d` of decimal
digits followed by the end of the input or by a character that is neither a
letter, a digit nor `.`, `readNextToken` returns IntegerLiteral and consumes
exactly the run, also when the run starts with `0` and holds an `8` or a `9`:
the octal attempt is rolled back and the decimal grammar takes the run. -/
theorem readNextToken_digit_run (d0 : Char) (d rest : List Char) (position : Nat)
    (hd0 : isDecimalDigit d0 = true) (hd : ∀ x ∈ d, isDecimalDigit x = true)
    (hrest : ∀ c ∈ rest.head?, isLetter c = false ∧ isDigit c = false ∧ c ≠ '.') :
    readNextToken ⟨d0 :: (d ++ rest), position⟩
        = (tokenType_integerLiteral, ⟨rest, position + 1 + d.length⟩)
      ∧ readNextToken (startOf "010") = (tokenType_integerLiteral, ⟨[], 3⟩)
      ∧ readNextToken (startOf "0189;") = (tokenType_integerLiteral, ⟨";".toList, 4⟩) := by
  refine ⟨?_, by decide, by decide⟩
  have hln : isLetterOrDigit (rest.headD '\x00') = false :=
    headD_letterOrDigit_false rest (fun c hc => ⟨(hrest c hc).1, (hrest c hc).2.1⟩)
  have hrd : isDecimalDigit (rest.headD '\x00') = false := by
    rw [Bool.eq_false_iff]
    intro h
    rw [isDecimalDigit_letterOrDigit h] at hln
    exact absurd hln (by decide)
  have hpoint : rest.headD '\x00' ≠ '.' := by
    cases rest with
    | nil => decide
    | cons c rest => exact (hrest c (by simp)).2.2
  have hletter : ∀ x : Char, isLetterOrDigit x = true → rest.headD '\x00' ≠ x := by
    intro x hx h
    rw [h, hx] at hln
    exact absurd hln (by decide)
  have hall : ∀ x ∈ d0 :: d, isDecimalDigit x = true := by
    intro x hx
    rcases List.mem_cons.mp hx with hx | hx
    · rw [hx]; exact hd0
    · exact hd x hx
  have hws := readNextToken_skipWhitespace_digit d0 (d ++ rest) position hd0
  rw [readNextToken_of_digit _ (by rw [hws]; exact hd0), hws]
  have hfloat : (parseFloatLiteral ⟨d0 :: (d ++ rest), position⟩).1 = false :=
    parseFloatLiteral_digits (d0 :: d) rest position hall hrd hpoint
      (fun h => h.elim (hletter 'e' (by decide)) (hletter 'E' (by decide)))
      (fun h => h.elim (hletter 'f' (by decide)) (hletter 'F' (by decide)))
  have hhex : (parseHexLiteral ⟨d0 :: (d ++ rest), position⟩).1 = false := by
    apply parseHexLiteral_reject_headD
    cases d with
    | nil => exact ⟨hletter 'x' (by decide), hletter 'X' (by decide)⟩
    | cons d1 d =>
      have hd1 : isDecimalDigit d1 = true := hd d1 (List.mem_cons_self _ _)
      simp only [List.cons_append, List.headD_cons]
      constructor <;> (intro h; subst h; exact absurd hd1 (by decide))
  have hdec := parseDecimalLiteral_digit_run d0 d rest position hd0 hd hln
  unfold parseNumber
  simp only [hfloat, hhex, hdec]
  by_cases hoct : (parseOctalLiteral ⟨d0 :: (d ++ rest), position⟩).1 = true
  · simp only [hoct, if_true, parseOctalLiteral_digit_run d0 d rest position hd hln hoct]
    rfl
  · simp only [hoct]
    rfl

theorem readNextToken_digit_run_witness :
    isDecimalDigit '0' = true ∧ (∀ x ∈ "79".toList, isDecimalDigit x = true)
      ∧ (∀ c ∈ " x".toList.head?, isLetter c = false ∧ isDigit c = false ∧ c ≠ '.')
      ∧ (readNextToken ⟨'0' :: ("79".toList ++ " x".toList), 0⟩
          = (tokenType_integerLiteral, ⟨" x".toList, 0 + 1 + "79".toList.length⟩)
        ∧ readNextToken (startOf "010") = (tokenType_integerLiteral, ⟨[], 3⟩)
        ∧ readNextToken (startOf "0189;") = (tokenType_integerLiteral, ⟨";".toList, 4⟩)) :=
  ⟨by decide, by decide, by decide,
    readNextToken_digit_run '0' "79".toList " x".toList 0 (by decide) (by decide) (by decide)⟩

end CPlusPlusCodeTokeniser

/-! ## Float literals followed by a letter -/

namespace CppTokeniser

open CharacterFunctions CodeDocument.Iterator

/-- The mantissa `d1 . d2` followed by a character that is not a digit. -/
theorem parseFloatMantissa_point (d1 d2 rest : List Char) (position : Nat)
    (hd1 : ∀ x ∈ d1, isDecimalDigit x = true) (hd2 : ∀ x ∈ d2, isDecimalDigit x = true)
    (hrest : isDecimalDigit (rest.headD '\x00') = false) :
    parseFloatMantissa ⟨d1 ++ '.' :: (d2 ++ rest), position⟩
      = (⟨rest, position + d1.length + 1 + d2.length⟩, d1.length + d2.length, true) := by
  unfold parseFloatMantissa
  simp only [skipWhile_append isDecimalDigit d1 ('.' :: (d2 ++ rest)) position hd1
      (by show isDecimalDigit '.' = false; decide),
    peekNextChar_mk, List.headD_cons, decide_True, if_true, skip_cons,
    skipWhile_append isDecimalDigit d2 rest (position + d1.length + 1) hd2 hrest]

/-- A mantissa with a point followed by a character that starts neither an
exponent nor a suffix is a float literal, and nothing after it is looked at. -/
theorem parseFloatLiteral_point (d1 d2 rest : List Char) (position : Nat)
    (hd1 : ∀ x ∈ d1, isDecimalDigit x = true) (hd2 : ∀ x ∈ d2, isDecimalDigit x = true)
    (hlen : d1.length + d2.length ≠ 0)
    (hrest : isDecimalDigit (rest.headD '\x00') = false)
    (he : ¬ (rest.headD '\x00' = 'e' ∨ rest.headD '\x00' = 'E'))
    (hf : ¬ (rest.headD '\x00' = 'f' ∨ rest.headD '\x00' = 'F')) :
    parseFloatLiteral ⟨d1 ++ '.' :: (d2 ++ rest), position⟩
      = (true, ⟨rest, position + d1.length + 1 + d2.length⟩) := by
  have hexp : parseFloatExponent ⟨rest, position + d1.length + 1 + d2.length⟩
      = (true, false, ⟨rest, position + d1.length + 1 + d2.length⟩) := by
    unfold parseFloatExponent
    simp only [peekNextChar_mk, decide_eq_false he]
    rfl
  unfold parseFloatLiteral
  simp only [parseFloatMantissa_point d1 d2 rest position hd1 hd2 hrest, if_neg hlen, hexp,
    peekNextChar_mk, if_neg hf]
  simp

end CppTokeniser

namespace CPlusPlusCodeTokeniser

open CharacterFunctions CppTokeniser CodeDocument.Iterator

theorem readNextToken_of_point (a : Iterator) (h : a.skipWhitespace.peekNextChar = '.') :
    readNextToken a
      = (if (parseNumber a.skipWhitespace).1 = tokenType_error then
          (tokenType_punctuation, (parseNumber a.skipWhitespace).2)
        else parseNumber a.skipWhitespace) := by
  unfold readNextToken
  conv => lhs; zeta
  rw [h]
  simp only [Char.reduceEq, ↓reduceIte, or_false, or_self]

/-- C20 (no check of what follows a float).  On a mantissa `d1 . d2` with at
least one digit, followed by a letter `c` that is none of `e`, `E`, `f`, `F`,
`readNextToken` returns FloatLiteral and consumes exactly the mantissa,
leaving `c` to start the next token: `1.5abc` is the FloatLiteral `1.5` and
then the Identifier `abc`, whereas `123abc` starts with an Error token. -/
theorem readNextToken_float_then_letter (d1 d2 : List Char) (c : Char) (rest : List Char)
    (position : Nat)
    (hd1 : ∀ x ∈ d1, isDecimalDigit x = true) (hd2 : ∀ x ∈ d2, isDecimalDigit x = true)
    (hlen : 1 ≤ d1.length + d2.length)
    (hc : isLetter c = true) (hne : c ∉ ['e', 'E', 'f', 'F']) :
    readNextToken ⟨d1 ++ '.' :: (d2 ++ c :: rest), position⟩
        = (tokenType_floatLiteral, ⟨c :: rest, position + d1.length + 1 + d2.length⟩)
      ∧ readNextToken (startOf "1.5abc") = (tokenType_floatLiteral, ⟨"abc".toList, 3⟩)
      ∧ readNextToken ⟨"abc".toList, 3⟩ = (tokenType_identifier, ⟨[], 6⟩)
      ∧ (readNextToken (startOf "123abc")).1 = tokenType_error := by
  refine ⟨?_, by decide, by decide, by decide⟩
  simp only [List.mem_cons, List.mem_singleton, List.not_mem_nil, or_false, not_or] at hne
  obtain ⟨he, hE, hf, hF⟩ := hne
  have hcd : isDecimalDigit c = false := isDecimalDigit_not_letter hc
  have hfloat := parseFloatLiteral_point d1 d2 (c :: rest) position hd1 hd2 (by omega) hcd
    (by simp only [List.headD_cons]; tauto) (by simp only [List.headD_cons]; tauto)
  have hnum : parseNumber ⟨d1 ++ '.' :: (d2 ++ c :: rest), position⟩
      = (tokenType_floatLiteral, ⟨c :: rest, position + d1.length + 1 + d2.length⟩) := by
    unfold parseNumber
    simp only [hfloat, if_true]
  cases d1 with
  | nil =>
    have hws : Iterator.skipWhitespace ⟨[] ++ '.' :: (d2 ++ c :: rest), position⟩
        = ⟨[] ++ '.' :: (d2 ++ c :: rest), position⟩ :=
      skipWhitespace_of_not_whitespace _ _ _ (by decide)
    rw [readNextToken_of_point _ (by rw [hws]; rfl), hws, hnum]
    rfl
  | cons d0 d1 =>
    have hd0 : isDecimalDigit d0 = true := hd1 d0 (List.mem_cons_self _ _)
    have hws := readNextToken_skipWhitespace_digit d0 (d1 ++ '.' :: (d2 ++ c :: rest))
      position hd0
    rw [List.cons_append, readNextToken_of_digit _ (by rw [hws]; exact hd0), hws,
      ← List.cons_append, hnum]

theorem readNextToken_float_then_letter_witness :
    (∀ x ∈ "1".toList, isDecimalDigit x = true) ∧ (∀ x ∈ "5".toList, isDecimalDigit x = true)
      ∧ 1 ≤ "1".toList.length + "5".toList.length
      ∧ isLetter 'a' = true ∧ 'a' ∉ ['e', 'E', 'f', 'F']
      ∧ (readNextToken ⟨"1".toList ++ '.' :: ("5".toList ++ 'a' :: "bc".toList), 0⟩
          = (tokenType_floatLiteral,
              ⟨'a' :: "bc".toList, 0 + "1".toList.length + 1 + "5".toList.length⟩)
        ∧ readNextToken (startOf "1.5abc") = (tokenType_floatLiteral, ⟨"abc".toList, 3⟩)
        ∧ readNextToken ⟨"abc".toList, 3⟩ = (tokenType_identifier, ⟨[], 6⟩)
        ∧ (readNextToken (startOf "123abc")).1 = tokenType_error) :=
  ⟨by decide, by decide, by decide, by decide, by decide,
    readNextToken_float_then_letter "1".toList "5".toList 'a' "bc".toList 0
      (by decide) (by decide) (by decide) (by decide) (by decide)⟩

end CPlusPlusCodeTokeniser

/-! ## The identifier buffer -/

namespace CppTokeniser

open CharacterFunctions CPlusPlusCodeTokeniser CodeDocument.Iterator

theorem parseIdentifierLoopTraced_fst (l : List Char) :
    ∀ (position tokenLength : Nat) (buffer : List Char),
      (parseIdentifierLoopTraced l position tokenLength buffer).1
        = parseIdentifierLoop l position tokenLength buffer := by
  induction l with
  | nil => intro _ _ _; rfl
  | cons c rest ih =>
    intro position tokenLength buffer
    unfold parseIdentifierLoopTraced parseIdentifierLoop
    split_ifs
    · exact ih _ _ _
    · exact ih _ _ _
    · rfl

theorem parseIdentifierLoopTraced_writes (l : List Char) :
    ∀ (position tokenLength : Nat) (buffer : List Char),
      ∀ i ∈ (parseIdentifierLoopTraced l position tokenLength buffer).2,
        tokenLength ≤ i ∧ i ≤ 17 := by
  induction l with
  | nil =>
    intro _ _ _ i hi
    simp [parseIdentifierLoopTraced] at hi
  | cons c rest ih =>
    intro position tokenLength buffer i
    unfold parseIdentifierLoopTraced
    split_ifs with hc hk
    · intro hi
      rcases List.mem_cons.mp hi with hi | hi
      · omega
      · have := ih _ _ _ i hi
        omega
    · intro hi
      have := ih _ _ _ i hi
      omega
    · intro hi
      simp at hi

theorem parseIdentifierTraced_result (buffer : List Char) (source : Iterator) :
    (parseIdentifierTraced buffer source).result = parseIdentifierFrom buffer source := by
  unfold parseIdentifierTraced parseIdentifierFrom
  simp only [parseIdentifierLoopTraced_fst]
  split_ifs <;> rfl

theorem headD_dropWhile_false (p : Char → Bool) (hp : p '\x00' = false) (l : List Char) :
    p ((l.dropWhile p).headD '\x00') = false := by
  induction l with
  | nil => exact hp
  | cons c l ih =>
    by_cases hc : p c = true
    · rw [List.dropWhile_cons, if_pos hc]
      exact ih
    · rw [List.dropWhile_cons, if_neg hc, List.headD_cons]
      exact Bool.eq_false_iff.mpr hc

theorem parseIdentifierLoop_takeWhile (l : List Char) (position : Nat) (buffer : List Char) :
    parseIdentifierLoop l position 0 buffer
      = (⟨l.dropWhile isIdentifierBody, position + (l.takeWhile isIdentifierBody).length⟩,
          (l.takeWhile isIdentifierBody).length,
          storeRun 0 (l.takeWhile isIdentifierBody) buffer) := by
  have h := parseIdentifierLoop_append (l.takeWhile isIdentifierBody)
    (l.dropWhile isIdentifierBody) position 0 buffer
    (fun c hc => (List.mem_takeWhile_imp hc))
    (headD_dropWhile_false isIdentifierBody (by decide) l)
  rw [List.takeWhile_append_dropWhile, Nat.zero_add] at h
  exact h

/-- C18 (identifier buffer safety).  For every input and every content of the
19-element array `possibleIdentifier`, each character write of
`parseIdentifier` is at an index of at most 17 and the terminator write at an
index of at most 16, however long the run of identifier characters is; and
whenever the keyword lookup is called, the array still has 19 elements and
starts with exactly the consumed run followed by the terminator. -/
theorem parseIdentifier_buffer_safe (buffer : List Char) (source : Iterator)
    (hbuf : buffer.length = 19) :
    (parseIdentifierTraced buffer source).result = parseIdentifierFrom buffer source
      ∧ (parseIdentifierTraced buffer source).result.2
          = ⟨source.remaining.drop (source.remaining.takeWhile isIdentifierBody).length,
             source.position + (source.remaining.takeWhile isIdentifierBody).length⟩
      ∧ (∀ i ∈ (parseIdentifierTraced buffer source).charWrites, i ≤ 17)
      ∧ (∀ i, (parseIdentifierTraced buffer source).terminatorWrite = some i → i ≤ 16)
      ∧ (∀ arg, (parseIdentifierTraced buffer source).lookupArguments = some arg →
          arg.1.length = 19
            ∧ arg.1.take ((source.remaining.takeWhile isIdentifierBody).length + 1)
                = source.remaining.takeWhile isIdentifierBody ++ ['\x00']
            ∧ arg.2 = ((source.remaining.takeWhile isIdentifierBody).length : Int)) := by
  obtain ⟨l, position⟩ := source
  have hloop := parseIdentifierLoop_takeWhile l position buffer
  have hfst := parseIdentifierLoopTraced_fst l position 0 buffer
  rw [hloop] at hfst
  have hwr := parseIdentifierLoopTraced_writes l position 0 buffer
  have hdrop : l.drop (l.takeWhile isIdentifierBody).length = l.dropWhile isIdentifierBody := by
    conv => lhs; arg 2; rw [← List.takeWhile_append_dropWhile isIdentifierBody l]
    exact List.drop_left _ _
  refine ⟨parseIdentifierTraced_result buffer _, ?_, ?_, ?_, ?_⟩
  · unfold parseIdentifierTraced
    simp only [hfst, hdrop]
    split_ifs <;> rfl
  · intro i hi
    have hcw : (parseIdentifierTraced buffer ⟨l, position⟩).charWrites
        = (parseIdentifierLoopTraced l position 0 buffer).2 := by
      unfold parseIdentifierTraced
      simp only
      split_ifs <;> rfl
    rw [hcw] at hi
    exact (hwr i hi).2
  · intro i
    unfold parseIdentifierTraced
    simp only [hfst]
    split_ifs with hlen <;> intro h <;> first
      | (simp only [Option.some.injEq] at h; omega)
      | (simp at h)
  · intro arg
    unfold parseIdentifierTraced
    simp only [hfst]
    by_cases hlen : (l.takeWhile isIdentifierBody).length > 1
        ∧ (l.takeWhile isIdentifierBody).length ≤ 16
    · have hstore := storeRun_eq (l.takeWhile isIdentifierBody) 0 buffer (by omega) hbuf
      simp only [List.take_zero, List.nil_append, Nat.zero_add] at hstore
      have hlenS : (storeRun 0 (l.takeWhile isIdentifierBody) buffer).length = 19 := by
        rw [hstore, List.length_append, List.length_drop, hbuf]
        omega
      have hkey : ∀ a : List Char × Int,
          a = ((storeRun 0 (l.takeWhile isIdentifierBody) buffer).set
                (l.takeWhile isIdentifierBody).length '\x00',
              ((l.takeWhile isIdentifierBody).length : Int)) →
          a.1.length = 19
            ∧ a.1.take ((l.takeWhile isIdentifierBody).length + 1)
                = l.takeWhile isIdentifierBody ++ ['\x00']
            ∧ a.2 = ((l.takeWhile isIdentifierBody).length : Int) := by
        intro a ha
        subst ha
        refine ⟨by simp [hlenS], ?_, rfl⟩
        simp only
        rw [hstore, List.set_append_right _ _ (Nat.le_refl _), Nat.sub_self]
        cases hd : List.drop (l.takeWhile isIdentifierBody).length buffer with
        | nil =>
          have := congrArg List.length hd
          simp only [List.length_drop, List.length_nil] at this
          omega
        | cons x xs =>
          rw [List.set_cons_zero, List.take_append_eq_append_take, List.take_of_length_le
            (by omega), Nat.add_sub_cancel_left]
          rfl
      rw [if_pos hlen]
      split_ifs <;> intro h <;> exact hkey arg (Option.some.inj h).symm
    · rw [if_neg hlen]
      intro h
      simp at h

theorem parseIdentifier_buffer_safe_witness :
    (List.replicate 19 'z').length = 19
      ∧ ((parseIdentifierTraced (List.replicate 19 'z') ⟨"int x".toList, 0⟩).result = parseIdentifierFrom (List.replicate 19 'z') ⟨"int x".toList, 0⟩
      ∧ (parseIdentifierTraced (List.replicate 19 'z') ⟨"int x".toList, 0⟩).result.2
          = ⟨"int x".toList.drop ("int x".toList.takeWhile isIdentifierBody).length, 0 + ("int x".toList.takeWhile isIdentifierBody).length⟩
      ∧ (∀ i ∈ (parseIdentifierTraced (List.replicate 19 'z') ⟨"int x".toList, 0⟩).charWrites, i ≤ 17)
      ∧ (∀ i, (parseIdentifierTraced (List.replicate 19 'z') ⟨"int x".toList, 0⟩).terminatorWrite = some i → i ≤ 16)
      ∧ (∀ arg, (parseIdentifierTraced (List.replicate 19 'z') ⟨"int x".toList, 0⟩).lookupArguments = some arg →
          arg.1.length = 19
            ∧ arg.1.take (("int x".toList.takeWhile isIdentifierBody).length + 1) = ("int x".toList.takeWhile isIdentifierBody) ++ ['\x00']
            ∧ arg.2 = (("int x".toList.takeWhile isIdentifierBody).length : Int))) :=
  ⟨by decide, parseIdentifier_buffer_safe (List.replicate 19 'z') ⟨"int x".toList, 0⟩ (by decide)⟩

end CppTokeniser

/-! ## The Error category -/

namespace CPlusPlusCodeTokeniser

open CharacterFunctions CppTokeniser CodeDocument.Iterator

theorem parseNumber_error_iff (a : Iterator) :
    (parseNumber a).1 = tokenType_error
      ↔ (parseFloatLiteral a).1 = false ∧ (parseHexLiteral a).1 = false
          ∧ (parseOctalLiteral a).1 = false ∧ (parseDecimalLiteral a).1 = false := by
  unfold parseNumber
  dsimp only
  split_ifs <;>
    simp_all [tokenType_error, tokenType_floatLiteral, tokenType_integerLiteral]

theorem parseIdentifier_ne_error (a : Iterator) : (parseIdentifier a).1 ≠ tokenType_error := by
  unfold parseIdentifier parseIdentifierFrom
  dsimp only
  split_ifs <;> dsimp only <;> decide

theorem readNextToken_of_zero (a : Iterator) (h : a.skipWhitespace.peekNextChar = '\x00') :
    readNextToken a = (tokenType_error, a.skipWhitespace.skip) := by
  unfold readNextToken
  conv => lhs; zeta
  rw [if_pos h]

theorem readNextToken_ne_error_of_switchChar (a : Iterator)
    (h : a.skipWhitespace.peekNextChar ∈ switchChars) :
    (readNextToken a).1 ≠ tokenType_error := by
  unfold readNextToken
  conv => zeta
  generalize a.skipWhitespace = b at h ⊢
  generalize b.peekNextChar = c at h ⊢
  simp only [switchChars, List.mem_cons, List.mem_singleton, List.not_mem_nil, or_false] at h
  rcases h with h | h | h | h | h | h | h | h | h | h | h | h | h | h | h | h | h | h | h
      | h | h | h | h | h | h | h | h <;> subst h <;>
    simp only [Char.reduceEq, ↓reduceIte, or_false, or_self, or_true, true_or, false_or] <;>
    first
      | decide
      | (split_ifs <;> first | decide | (dsimp only; decide) | assumption)

theorem isDecimalDigit_iff (c : Char) :
    isDecimalDigit c = true
      ↔ (c = '0' ∨ c = '1' ∨ c = '2' ∨ c = '3' ∨ c = '4' ∨ c = '5' ∨ c = '6' ∨ c = '7'
          ∨ c = '8' ∨ c = '9') := by
  constructor
  · exact isDecimalDigit_cases
  · intro h
    rcases h with h | h | h | h | h | h | h | h | h | h <;> (subst h; decide)

/-- The `default` case of the switch for a character that is not an
identifier start. -/
theorem readNextToken_of_other (a : Iterator)
    (h0 : a.skipWhitespace.peekNextChar ≠ '\x00')
    (hd : isDecimalDigit a.skipWhitespace.peekNextChar = false)
    (hs : a.skipWhitespace.peekNextChar ∉ switchChars)
    (hi : isIdentifierStart a.skipWhitespace.peekNextChar = false) :
    readNextToken a = (tokenType_error, a.skipWhitespace.skip) := by
  unfold readNextToken
  conv => lhs; zeta
  generalize a.skipWhitespace = b at h0 hd hs hi ⊢
  generalize b.peekNextChar = c at h0 hd hs hi ⊢
  repeat
    (with_reducible
      refine ite_rec (fun r : Int × Iterator => r = (tokenType_error, b.skip)) (fun hcond => ?_)
        (fun _ => ?_)
     · exfalso
       repeat' (rcases hcond with hcond | hcond)
       all_goals first
         | exact h0 rfl
         | exact absurd hd (by decide)
         | exact hs (by decide))
  rw [if_neg (by rw [hi]; decide)]

/-- C19 (the Error category).  `readNextToken` returns Error exactly when,
after the whitespace, the peeked character is the end sentinel 0, or it is a
decimal digit at which none of the float, hex, octal and decimal grammars
matches, or it is neither a digit, nor one of the characters with a case of
their own, nor an identifier start.  A token that starts with a quote, `/`,
`#`, `.` or `-` is never Error. -/
theorem readNextToken_error_iff (a : Iterator) :
    ((readNextToken a).1 = tokenType_error
        ↔ a.skipWhitespace.peekNextChar = '\x00'
          ∨ (isDecimalDigit a.skipWhitespace.peekNextChar = true
              ∧ (parseFloatLiteral a.skipWhitespace).1 = false
              ∧ (parseHexLiteral a.skipWhitespace).1 = false
              ∧ (parseOctalLiteral a.skipWhitespace).1 = false
              ∧ (parseDecimalLiteral a.skipWhitespace).1 = false)
          ∨ (isDecimalDigit a.skipWhitespace.peekNextChar = false
              ∧ a.skipWhitespace.peekNextChar ∉ switchChars
              ∧ isIdentifierStart a.skipWhitespace.peekNextChar = false))
      ∧ (a.skipWhitespace.peekNextChar ∈ ['"', '\'', '/', '#', '.', '-'] →
          (readNextToken a).1 ≠ tokenType_error) := by
  have hswitch : ∀ c ∈ switchChars,
      c ≠ '\x00' ∧ isDecimalDigit c = false := by decide
  constructor
  · by_cases h0 : a.skipWhitespace.peekNextChar = '\x00'
    · rw [readNextToken_of_zero a h0]
      exact iff_of_true rfl (Or.inl h0)
    · by_cases hd : isDecimalDigit a.skipWhitespace.peekNextChar = true
      · rw [readNextToken_of_digit a hd, parseNumber_error_iff]
        constructor
        · intro h
          exact Or.inr (Or.inl ⟨hd, h⟩)
        · intro h
          rcases h with h | h | h
          · exact absurd h h0
          · exact h.2
          · rw [hd] at h
            exact absurd h.1 (by decide)
      · have hd' : isDecimalDigit a.skipWhitespace.peekNextChar = false :=
          Bool.eq_false_iff.mpr hd
        by_cases hs : a.skipWhitespace.peekNextChar ∈ switchChars
        · refine iff_of_false (readNextToken_ne_error_of_switchChar a hs) ?_
          intro h
          rcases h with h | h | h
          · exact h0 h
          · exact hd h.1
          · exact h.2.1 hs
        · by_cases hi : isIdentifierStart a.skipWhitespace.peekNextChar = true
          · rw [readNextToken_of_identifierStart a hi]
            refine iff_of_false (parseIdentifier_ne_error _) ?_
            intro h
            rcases h with h | h | h
            · exact h0 h
            · exact hd h.1
            · rw [hi] at h
              exact absurd h.2.2 (by decide)
          · have hi' : isIdentifierStart a.skipWhitespace.peekNextChar = false :=
              Bool.eq_false_iff.mpr hi
            rw [readNextToken_of_other a h0 hd' hs hi']
            exact iff_of_true rfl (Or.inr (Or.inr ⟨hd', hs, hi'⟩))
  · intro h
    apply readNextToken_ne_error_of_switchChar
    revert h
    generalize a.skipWhitespace.peekNextChar = c
    intro h
    simp only [List.mem_cons, List.mem_singleton, List.not_mem_nil, or_false] at h
    rcases h with h | h | h | h | h | h <;> (subst h; decide)

theorem readNextToken_error_iff_witness :
    (startOf " -x").skipWhitespace.peekNextChar ∈ ['"', '\'', '/', '#', '.', '-']
      ∧ (readNextToken (startOf " -x")).1 ≠ tokenType_error :=
  ⟨by decide, (readNextToken_error_iff (startOf " -x")).2 (by decide)⟩

end CPlusPlusCodeTokeniser

/-! ## The float grammar -/

namespace CppTokeniser

open CharacterFunctions CPlusPlusCodeTokeniser CodeDocument.Iterator

theorem skip_of_headD (r : List Char) (position : Nat) (c : Char) (hc : c ≠ '\x00')
    (h : r.headD '\x00' = c) :
    Iterator.skip ⟨r, position⟩ = ⟨r.tail, position + 1⟩ ∧ r = c :: r.tail := by
  cases r with
  | nil => exact absurd h.symm hc
  | cons x r =>
    have hx : x = c := h
    subst hx
    exact ⟨rfl, rfl⟩

theorem parseFloatMantissa_eq (s : List Char) (position : Nat) :
    parseFloatMantissa ⟨s, position⟩
      = if (s.dropWhile isDecimalDigit).headD '\x00' = '.' then
          (⟨(s.dropWhile isDecimalDigit).tail.dropWhile isDecimalDigit,
              position + (s.takeWhile isDecimalDigit).length + 1
                + ((s.dropWhile isDecimalDigit).tail.takeWhile isDecimalDigit).length⟩,
            (s.takeWhile isDecimalDigit).length
              + ((s.dropWhile isDecimalDigit).tail.takeWhile isDecimalDigit).length, true)
        else
          (⟨s.dropWhile isDecimalDigit, position + (s.takeWhile isDecimalDigit).length⟩,
            (s.takeWhile isDecimalDigit).length, false) := by
  unfold parseFloatMantissa
  simp only [skipWhile_eq, peekNextChar_mk]
  by_cases hp : (s.dropWhile isDecimalDigit).headD '\x00' = '.'
  · rw [(skip_of_headD _ _ '.' (by decide) hp).1]
    simp only [hp, decide_True, if_true, skipWhile_eq]
  · simp only [hp, decide_False, if_false]
    rfl

theorem parseFloatMantissa_remaining (s : List Char) (position : Nat) :
    (parseFloatMantissa ⟨s, position⟩).1.remaining = afterMantissa s := by
  rw [parseFloatMantissa_eq]
  unfold afterMantissa
  dsimp only
  split_ifs <;> rfl

theorem parseFloatExponent_fst (r : List Char) (position : Nat) :
    (parseFloatExponent ⟨r, position⟩).1 = !danglingExponentAt r := by
  unfold parseFloatExponent danglingExponentAt
  simp only [peekNextChar_mk]
  by_cases he : r.headD '\x00' = 'e' ∨ r.headD '\x00' = 'E'
  · have hskip : Iterator.skip ⟨r, position⟩ = ⟨r.tail, position + 1⟩ := by
      rcases he with he | he
      · exact (skip_of_headD _ _ 'e' (by decide) he).1
      · exact (skip_of_headD _ _ 'E' (by decide) he).1
    simp only [he, decide_True, if_true, hskip, peekNextChar_mk]
    by_cases hs : r.tail.headD '\x00' = '+' ∨ r.tail.headD '\x00' = '-'
    · have hskip2 : Iterator.skip ⟨r.tail, position + 1⟩ = ⟨r.tail.tail, position + 1 + 1⟩ := by
        rcases hs with hs | hs
        · exact (skip_of_headD _ _ '+' (by decide) hs).1
        · exact (skip_of_headD _ _ '-' (by decide) hs).1
      simp only [hs, if_true, hskip2, skipWhile_eq]
      cases hh : r.tail.tail with
      | nil => simp; decide
      | cons x t =>
        by_cases hx : isDecimalDigit x = true
        · simp [List.takeWhile_cons, hx]
        · simp [List.takeWhile_cons, hx]
    · simp only [hs, if_false, skipWhile_eq]
      cases hh : r.tail with
      | nil => simp; decide
      | cons x t =>
        by_cases hx : isDecimalDigit x = true
        · simp [List.takeWhile_cons, hx]
        · simp [List.takeWhile_cons, hx]
  · simp only [he, decide_False, if_false, Bool.false_eq_true]
    rfl

theorem parseFloatMantissa_sound (s : List Char) (position : Nat) :
    ∃ d1 point d2 : List Char,
      (∀ x ∈ d1, isDecimalDigit x = true)
      ∧ ((point = [] ∧ d2 = [] ∧ (parseFloatMantissa ⟨s, position⟩).2.2 = false)
          ∨ (point = ['.'] ∧ (∀ x ∈ d2, isDecimalDigit x = true)
              ∧ (parseFloatMantissa ⟨s, position⟩).2.2 = true))
      ∧ (parseFloatMantissa ⟨s, position⟩).2.1 = d1.length + d2.length
      ∧ s = d1 ++ point ++ d2 ++ (parseFloatMantissa ⟨s, position⟩).1.remaining
      ∧ (parseFloatMantissa ⟨s, position⟩).1.position
          = position + (d1 ++ point ++ d2).length := by
  have hsplit := List.takeWhile_append_dropWhile isDecimalDigit s
  rw [parseFloatMantissa_eq]
  by_cases hp : (s.dropWhile isDecimalDigit).headD '\x00' = '.'
  · have hr := (skip_of_headD _ position '.' (by decide) hp).2
    have hsplit2 := List.takeWhile_append_dropWhile isDecimalDigit
      (s.dropWhile isDecimalDigit).tail
    refine ⟨s.takeWhile isDecimalDigit, ['.'],
      (s.dropWhile isDecimalDigit).tail.takeWhile isDecimalDigit,
      fun x hx => List.mem_takeWhile_imp hx,
      Or.inr ⟨rfl, fun x hx => List.mem_takeWhile_imp hx, by rw [if_pos hp]⟩,
      by rw [if_pos hp], ?_, ?_⟩
    · rw [if_pos hp]
      simp only [List.append_assoc, List.singleton_append, List.cons_append, List.nil_append]
      rw [hsplit2, ← hr, hsplit]
    · rw [if_pos hp]
      simp only [List.length_append, List.length_singleton]
      omega
  · refine ⟨s.takeWhile isDecimalDigit, [], [], fun x hx => List.mem_takeWhile_imp hx,
      Or.inl ⟨rfl, rfl, by rw [if_neg hp]⟩, by rw [if_neg hp]; rfl, ?_, ?_⟩
    · rw [if_neg hp]
      simp only [List.append_nil]
      exact hsplit.symm
    · rw [if_neg hp]
      simp

theorem takeWhile_ne_nil_of_length {l : List Char} (h : (l.takeWhile isDecimalDigit).length ≠ 0) :
    l.takeWhile isDecimalDigit ≠ [] := by
  intro hn
  rw [hn] at h
  exact h rfl

theorem parseFloatExponent_sound (r : List Char) (position : Nat)
    (hok : (parseFloatExponent ⟨r, position⟩).1 = true) :
    ∃ ex : List Char,
      ((ex = [] ∧ (parseFloatExponent ⟨r, position⟩).2.1 = false)
          ∨ (isExponentForm ex ∧ (parseFloatExponent ⟨r, position⟩).2.1 = true))
      ∧ r = ex ++ (parseFloatExponent ⟨r, position⟩).2.2.remaining
      ∧ (parseFloatExponent ⟨r, position⟩).2.2.position = position + ex.length := by
  revert hok
  unfold parseFloatExponent
  simp only [peekNextChar_mk]
  by_cases he : r.headD '\x00' = 'e' ∨ r.headD '\x00' = 'E'
  · have hskip : Iterator.skip ⟨r, position⟩ = ⟨r.tail, position + 1⟩
        ∧ r = r.headD '\x00' :: r.tail := by
      rcases he with he | he
      · have h := skip_of_headD r position 'e' (by decide) he
        exact ⟨h.1, by rw [he]; exact h.2⟩
      · have h := skip_of_headD r position 'E' (by decide) he
        exact ⟨h.1, by rw [he]; exact h.2⟩
    simp only [he, decide_True, if_true, hskip.1, peekNextChar_mk]
    by_cases hs : r.tail.headD '\x00' = '+' ∨ r.tail.headD '\x00' = '-'
    · have hskip2 : Iterator.skip ⟨r.tail, position + 1⟩ = ⟨r.tail.tail, position + 1 + 1⟩
          ∧ r.tail = r.tail.headD '\x00' :: r.tail.tail := by
        rcases hs with hs | hs
        · have h := skip_of_headD r.tail (position + 1) '+' (by decide) hs
          exact ⟨h.1, by rw [hs]; exact h.2⟩
        · have h := skip_of_headD r.tail (position + 1) '-' (by decide) hs
          exact ⟨h.1, by rw [hs]; exact h.2⟩
      simp only [hs, if_true, hskip2.1, skipWhile_eq]
      have hsplit := List.takeWhile_append_dropWhile isDecimalDigit r.tail.tail
      split_ifs with hn
      · intro h
        simp at h
      · intro _
        refine ⟨r.headD '\x00' :: ([r.tail.headD '\x00']
            ++ r.tail.tail.takeWhile isDecimalDigit),
          Or.inr ⟨⟨_, _, _, rfl, he, ?_, takeWhile_ne_nil_of_length hn,
            fun x hx => List.mem_takeWhile_imp hx⟩, rfl⟩, ?_, ?_⟩
        · rcases hs with hs | hs
          · exact Or.inr (Or.inl (by rw [hs]))
          · exact Or.inr (Or.inr (by rw [hs]))
        · simp only [List.cons_append, List.nil_append, List.append_assoc]
          rw [hsplit, ← hskip2.2, ← hskip.2]
        · simp only [List.length_cons, List.length_append, List.length_singleton,
            List.length_nil]
          omega
    · simp only [hs, if_false, skipWhile_eq]
      have hsplit := List.takeWhile_append_dropWhile isDecimalDigit r.tail
      split_ifs with hn
      · intro h
        simp at h
      · intro _
        refine ⟨r.headD '\x00' :: ([] ++ r.tail.takeWhile isDecimalDigit),
          Or.inr ⟨⟨_, _, _, rfl, he, Or.inl rfl, takeWhile_ne_nil_of_length hn,
            fun x hx => List.mem_takeWhile_imp hx⟩, rfl⟩, ?_, ?_⟩
        · simp only [List.cons_append, List.nil_append]
          rw [hsplit, ← hskip.2]
        · simp only [List.length_cons, List.nil_append]
          omega
  · simp only [he, decide_False, if_false, Bool.false_eq_true]
    intro _
    refine ⟨[], Or.inl ⟨rfl, ?_⟩, ?_, ?_⟩ <;> simp

theorem isExponentForm_ne_nil {ex : List Char} (h : isExponentForm ex) : ex ≠ [] := by
  obtain ⟨e, sign, digits, rfl, -⟩ := h
  exact List.cons_ne_nil _ _

/-- The result of `parseFloatLiteral` is true exactly when the mantissa holds a
digit, the exponent part does not fail, and a suffix, an exponent or a point
is there. -/
theorem parseFloatLiteral_fst (s : List Char) (position : Nat) :
    (parseFloatLiteral ⟨s, position⟩).1 = true
      ↔ (parseFloatMantissa ⟨s, position⟩).2.1 ≠ 0
        ∧ (parseFloatExponent (parseFloatMantissa ⟨s, position⟩).1).1 = true
        ∧ (((parseFloatExponent (parseFloatMantissa ⟨s, position⟩).1).2.2.peekNextChar = 'f'
            ∨ (parseFloatExponent (parseFloatMantissa ⟨s, position⟩).1).2.2.peekNextChar = 'F')
          ∨ (parseFloatExponent (parseFloatMantissa ⟨s, position⟩).1).2.1 = true
          ∨ (parseFloatMantissa ⟨s, position⟩).2.2 = true) := by
  unfold parseFloatLiteral
  dsimp only
  split_ifs <;> simp_all

theorem parseFloatLiteral_snd (s : List Char) (position : Nat)
    (h : (parseFloatLiteral ⟨s, position⟩).1 = true) :
    (parseFloatLiteral ⟨s, position⟩).2
      = if (parseFloatExponent (parseFloatMantissa ⟨s, position⟩).1).2.2.peekNextChar = 'f'
            ∨ (parseFloatExponent (parseFloatMantissa ⟨s, position⟩).1).2.2.peekNextChar = 'F'
        then (parseFloatExponent (parseFloatMantissa ⟨s, position⟩).1).2.2.skip
        else (parseFloatExponent (parseFloatMantissa ⟨s, position⟩).1).2.2 := by
  obtain ⟨hn, he, hs⟩ := (parseFloatLiteral_fst s position).1 h
  unfold parseFloatLiteral
  dsimp only
  rw [if_neg hn, if_neg (by rw [he]; decide)]
  split_ifs with h1 h2
  · rfl
  · rfl
  · exact absurd (hs.resolve_left h1) h2

/-- Soundness of `parseFloatLiteral`: on success the consumed text has the
form of a float literal. -/
theorem parseFloatLiteral_sound (s : List Char) (position : Nat)
    (h : (parseFloatLiteral ⟨s, position⟩).1 = true) :
    ∃ pre : List Char, isFloatForm pre
      ∧ s = pre ++ (parseFloatLiteral ⟨s, position⟩).2.remaining
      ∧ (parseFloatLiteral ⟨s, position⟩).2.position = position + pre.length := by
  obtain ⟨hn, he, hs⟩ := (parseFloatLiteral_fst s position).1 h
  rw [parseFloatLiteral_snd s position h]
  obtain ⟨d1, point, d2, hd1, hpt, hnum, hsplit, hpos⟩ := parseFloatMantissa_sound s position
  generalize parseFloatMantissa ⟨s, position⟩ = m at hn he hs hpt hnum hsplit hpos ⊢
  obtain ⟨⟨r, q⟩, n, hasPoint⟩ := m
  dsimp only at hn he hs hpt hnum hsplit hpos ⊢
  obtain ⟨ex, hex, hsplit2, hpos2⟩ := parseFloatExponent_sound r q he
  generalize parseFloatExponent ⟨r, q⟩ = e at he hs hex hsplit2 hpos2 ⊢
  obtain ⟨ok, hasExp, ⟨r2, q2⟩⟩ := e
  dsimp only at he hs hex hsplit2 hpos2 ⊢
  simp only [peekNextChar_mk] at hs ⊢
  have hdig : d1 ≠ [] ∨ d2 ≠ [] := by
    by_contra hc
    push_neg at hc
    rw [hc.1, hc.2] at hnum
    exact hn hnum
  have hpt2 : (point = [] ∧ d2 = []) ∨ (point = ['.'] ∧ ∀ x ∈ d2, isDecimalDigit x = true) := by
    rcases hpt with ⟨a, b, _⟩ | ⟨a, b, _⟩
    · exact Or.inl ⟨a, b⟩
    · exact Or.inr ⟨a, b⟩
  have hex2 : ex = [] ∨ isExponentForm ex := by
    rcases hex with ⟨a, _⟩ | ⟨a, _⟩
    · exact Or.inl a
    · exact Or.inr a
  by_cases hf : r2.headD '\x00' = 'f' ∨ r2.headD '\x00' = 'F'
  · rw [if_pos hf]
    have hsk : Iterator.skip ⟨r2, q2⟩ = ⟨r2.tail, q2 + 1⟩
        ∧ r2 = r2.headD '\x00' :: r2.tail := by
      rcases hf with hf | hf
      · have h := skip_of_headD r2 q2 'f' (by decide) hf
        exact ⟨h.1, by rw [hf]; exact h.2⟩
      · have h := skip_of_headD r2 q2 'F' (by decide) hf
        exact ⟨h.1, by rw [hf]; exact h.2⟩
    rw [hsk.1]
    refine ⟨d1 ++ point ++ d2 ++ ex ++ [r2.headD '\x00'],
      ⟨d1, point, d2, ex, [r2.headD '\x00'], rfl, hd1, hpt2, hex2, ?_, hdig,
        Or.inr (Or.inr (List.cons_ne_nil _ _))⟩, ?_, ?_⟩
    · rcases hf with hf | hf
      · exact Or.inr (Or.inl (by rw [hf]))
      · exact Or.inr (Or.inr (by rw [hf]))
    · show s = d1 ++ point ++ d2 ++ ex ++ [r2.headD '\x00'] ++ r2.tail
      rw [List.append_assoc _ [r2.headD '\x00'], List.singleton_append, ← hsk.2,
        List.append_assoc _ ex, ← hsplit2]
      exact hsplit
    · show q2 + 1 = position + (d1 ++ point ++ d2 ++ ex ++ [r2.headD '\x00']).length
      rw [hpos2, hpos]
      simp only [List.length_append, List.length_singleton]
      omega
  · rw [if_neg hf]
    refine ⟨d1 ++ point ++ d2 ++ ex ++ [],
      ⟨d1, point, d2, ex, [], rfl, hd1, hpt2, hex2, Or.inl rfl, hdig, ?_⟩, ?_, ?_⟩
    · rcases hs.resolve_left hf with hx | hx
      · rcases hex with ⟨_, b⟩ | ⟨a, _⟩
        · rw [hx] at b
          exact absurd b (by decide)
        · exact Or.inr (Or.inl (isExponentForm_ne_nil a))
      · rcases hpt with ⟨_, _, c⟩ | ⟨a, _, _⟩
        · rw [hx] at c
          exact absurd c (by decide)
        · exact Or.inl (by rw [a]; exact List.cons_ne_nil _ _)
    · show s = d1 ++ point ++ d2 ++ ex ++ [] ++ r2
      rw [List.append_nil, List.append_assoc _ ex, ← hsplit2]
      exact hsplit
    · show q2 = position + (d1 ++ point ++ d2 ++ ex ++ []).length
      rw [hpos2, hpos]
      simp only [List.length_append, List.length_nil]
      omega

theorem parseFloatExponent_snd (r : List Char) (position : Nat) :
    (parseFloatExponent ⟨r, position⟩).2.1
      = decide (r.headD '\x00' = 'e' ∨ r.headD '\x00' = 'E') := by
  unfold parseFloatExponent
  simp only [peekNextChar_mk]
  split_ifs <;> simp_all

theorem parseFloatExponent_none (r : List Char) (position : Nat)
    (he : ¬ (r.headD '\x00' = 'e' ∨ r.headD '\x00' = 'E')) :
    parseFloatExponent ⟨r, position⟩ = (true, false, ⟨r, position⟩) := by
  unfold parseFloatExponent
  simp only [peekNextChar_mk, decide_eq_false he]
  rfl

theorem digits_append_split (d t : List Char) (hd : ∀ x ∈ d, isDecimalDigit x = true)
    (ht : isDecimalDigit (t.headD '\x00') = false) :
    (d ++ t).dropWhile isDecimalDigit = t ∧ (d ++ t).takeWhile isDecimalDigit = d := by
  rw [List.dropWhile_append_of_pos hd, List.takeWhile_append_of_pos hd]
  cases t with
  | nil => simp
  | cons c t =>
    have hc : isDecimalDigit c = false := ht
    simp [List.dropWhile_cons, List.takeWhile_cons, hc]

/-- The text after a mantissa without a point that belongs to a text of the
float form starts with `e`, `E`, `f` or `F`. -/
theorem floatForm_follower (ex suffix rest : List Char)
    (hex : ex = [] ∨ isExponentForm ex)
    (hsuf : suffix = [] ∨ suffix = ['f'] ∨ suffix = ['F'])
    (hany : ex ≠ [] ∨ suffix ≠ []) :
    ∃ (c : Char) (t : List Char), ex ++ suffix ++ rest = c :: t
      ∧ ((c = 'e' ∨ c = 'E') ∨ (c = 'f' ∨ c = 'F')) := by
  rcases hex with hex | hex
  · subst hex
    rcases hsuf with hsuf | hsuf | hsuf
    · subst hsuf
      rcases hany with h | h <;> exact absurd rfl h
    · subst hsuf
      exact ⟨'f', rest, rfl, Or.inr (Or.inl rfl)⟩
    · subst hsuf
      exact ⟨'F', rest, rfl, Or.inr (Or.inr rfl)⟩
  · obtain ⟨e, sign, digits, rfl, he, -⟩ := hex
    exact ⟨e, sign ++ digits ++ suffix ++ rest, by simp, Or.inl he⟩

/-- Completeness of `parseFloatLiteral`: a text with a prefix of the float
form is accepted unless the longest mantissa is followed by an exponent that
is begun and not completed. -/
theorem parseFloatLiteral_complete (s : List Char) (position : Nat) (pre : List Char)
    (hpre : pre <+: s) (hform : isFloatForm pre) (hd : danglingExponent s = false) :
    (parseFloatLiteral ⟨s, position⟩).1 = true := by
  rw [parseFloatLiteral_fst]
  have hE : (parseFloatExponent (parseFloatMantissa ⟨s, position⟩).1).1 = true := by
    have h := parseFloatExponent_fst (parseFloatMantissa ⟨s, position⟩).1.remaining
      (parseFloatMantissa ⟨s, position⟩).1.position
    rw [danglingExponent, ← parseFloatMantissa_remaining s position] at hd
    rw [hd] at h
    exact h
  refine ⟨?_, hE, ?_⟩ <;> clear hE hd
  all_goals
    obtain ⟨rest, rfl⟩ := hpre
    obtain ⟨d1, point, d2, ex, suffix, rfl, hd1, hpt, hex, hsuf, hdig, hany⟩ := hform
    rcases hpt with ⟨hp, h2⟩ | ⟨hp, hd2⟩
  · subst hp
    subst h2
    obtain ⟨c, t, ht, hc⟩ := floatForm_follower ex suffix rest hex hsuf
      (hany.resolve_left (fun h => h rfl))
    have hs : d1 ++ [] ++ [] ++ ex ++ suffix ++ rest = d1 ++ c :: t := by
      rw [← ht]
      simp
    rw [hs, parseFloatMantissa_digits d1 (c :: t) position hd1
      (by rcases hc with (hc | hc) | (hc | hc) <;>
        (subst hc; simp only [List.headD_cons]; decide))
      (by rcases hc with (hc | hc) | (hc | hc) <;>
        (subst hc; simp only [List.headD_cons]; decide))]
    show d1.length ≠ 0
    rcases hdig with h | h
    · exact fun h0 => h (List.length_eq_zero.1 h0)
    · exact absurd rfl h
  · subst hp
    have hs : d1 ++ ['.'] ++ d2 ++ ex ++ suffix ++ rest
        = d1 ++ '.' :: (d2 ++ (ex ++ suffix ++ rest)) := by simp
    have hsp := digits_append_split d1 ('.' :: (d2 ++ (ex ++ suffix ++ rest))) hd1
      (by simp only [List.headD_cons]; decide)
    rw [hs, parseFloatMantissa_eq, hsp.1, hsp.2,
      if_pos (show ('.' :: (d2 ++ (ex ++ suffix ++ rest))).headD '\x00' = '.' from rfl)]
    show d1.length + (List.takeWhile isDecimalDigit (d2 ++ (ex ++ suffix ++ rest))).length ≠ 0
    rw [List.takeWhile_append_of_pos hd2, List.length_append]
    rcases hdig with h | h
    · have := List.length_pos.2 h
      omega
    · have := List.length_pos.2 h
      omega
  · subst hp
    subst h2
    obtain ⟨c, t, ht, hc⟩ := floatForm_follower ex suffix rest hex hsuf
      (hany.resolve_left (fun h => h rfl))
    have hs : d1 ++ [] ++ [] ++ ex ++ suffix ++ rest = d1 ++ c :: t := by
      rw [← ht]
      simp
    rw [hs, parseFloatMantissa_digits d1 (c :: t) position hd1
      (by rcases hc with (hc | hc) | (hc | hc) <;>
        (subst hc; simp only [List.headD_cons]; decide))
      (by rcases hc with (hc | hc) | (hc | hc) <;>
        (subst hc; simp only [List.headD_cons]; decide))]
    dsimp only
    rcases hc with hc | hc
    · refine Or.inr (Or.inl ?_)
      rw [parseFloatExponent_snd]
      exact decide_eq_true hc
    · refine Or.inl ?_
      rw [parseFloatExponent_none _ _
        (by rcases hc with hc | hc <;> (subst hc; simp only [List.headD_cons]; decide))]
      exact hc
  · subst hp
    have hs : d1 ++ ['.'] ++ d2 ++ ex ++ suffix ++ rest
        = d1 ++ '.' :: (d2 ++ (ex ++ suffix ++ rest)) := by simp
    have hsp := digits_append_split d1 ('.' :: (d2 ++ (ex ++ suffix ++ rest))) hd1
      (by simp only [List.headD_cons]; decide)
    rw [hs, parseFloatMantissa_eq, hsp.1, hsp.2,
      if_pos (show ('.' :: (d2 ++ (ex ++ suffix ++ rest))).headD '\x00' = '.' from rfl)]
    exact Or.inr (Or.inr rfl)

/-- A run of digits alone is not accepted by `parseFloatLiteral`. -/
theorem parseFloatLiteral_bare_digits (d : List Char) (position : Nat)
    (hd : ∀ x ∈ d, isDecimalDigit x = true) :
    (parseFloatLiteral ⟨d, position⟩).1 = false := by
  have h := parseFloatLiteral_digits d [] position hd (by decide) (by decide) (by decide)
    (by decide)
  rw [List.append_nil] at h
  exact h

/-- A run of digits alone does not have the float form. -/
theorem not_isFloatForm_of_digits (d : List Char) (hd : ∀ x ∈ d, isDecimalDigit x = true) :
    ¬ isFloatForm d := by
  rintro ⟨d1, point, d2, ex, suffix, rfl, -, hpt, hex, hsuf, -, hany⟩
  rcases hany with h | h | h
  · rcases hpt with ⟨hp, -⟩ | ⟨hp, -⟩
    · exact h hp
    · have := hd '.' (by rw [hp]; simp)
      exact absurd this (by decide)
  · rcases hex with hex | hex
    · exact h hex
    · obtain ⟨e, sign, digits, rfl, he, -⟩ := hex
      have := hd e (by simp)
      rcases he with he | he <;> (subst he; exact absurd this (by decide))
  · rcases hsuf with hsuf | hsuf | hsuf
    · exact h hsuf
    · have := hd 'f' (by rw [hsuf]; simp)
      exact absurd this (by decide)
    · have := hd 'F' (by rw [hsuf]; simp)
      exact absurd this (by decide)

/-- C16, as stated: on `1.5e` the prefix `1.5` has the form of a float literal
(digits, a point, digits), and `parseFloatLiteral` returns false, because
after the `e` it requires the digits of an exponent. -/
theorem parseFloatLiteral_prefix_form_counterexample :
    (∃ pre : List Char, pre <+: "1.5e".toList ∧ isFloatForm pre)
      ∧ (parseFloatLiteral ⟨"1.5e".toList, 0⟩).1 = false :=
  ⟨⟨"1.5".toList, ⟨['e'], rfl⟩, ['1'], ['.'], ['5'], [], [], rfl, by decide,
      Or.inr ⟨rfl, by decide⟩, Or.inl rfl, Or.inl rfl, Or.inl (by decide),
      Or.inl (by decide)⟩,
    by decide⟩

/-- C16 (amended): `parseFloatLiteral` succeeds on an input if and only if
some prefix of the input has the float form (optional digit run, optional `.`
followed by an optional digit run, optional exponent `e`/`E` with optional
sign and one or more digits, optional `f`/`F`, with at least one mantissa digit
and at least one of point, exponent, suffix) and the longest mantissa at the
start of the input is not followed by an `e` or `E` that lacks its digits.
On success the consumed text is a prefix of that form.  A bare digit run does
not have the form and is not accepted, and `3.14f` is one FloatLiteral token
spanning all 5 characters. -/
theorem parseFloatLiteral_grammar (s : List Char) (position : Nat) :
    ((parseFloatLiteral ⟨s, position⟩).1 = true
        ↔ (∃ pre : List Char, pre <+: s ∧ isFloatForm pre) ∧ danglingExponent s = false)
      ∧ ((parseFloatLiteral ⟨s, position⟩).1 = true →
          ∃ pre : List Char, isFloatForm pre
            ∧ s = pre ++ (parseFloatLiteral ⟨s, position⟩).2.remaining
            ∧ (parseFloatLiteral ⟨s, position⟩).2.position = position + pre.length)
      ∧ ((∀ x ∈ s, isDecimalDigit x = true) →
          ¬ isFloatForm s ∧ (parseFloatLiteral ⟨s, position⟩).1 = false)
      ∧ readNextToken ⟨"3.14f".toList, 0⟩
          = (tokenType_floatLiteral, ⟨[], 5⟩) := by
  refine ⟨⟨fun h => ?_, fun h => ?_⟩, parseFloatLiteral_sound s position,
    fun hd => ⟨not_isFloatForm_of_digits s hd, parseFloatLiteral_bare_digits s position hd⟩,
    by decide⟩
  · obtain ⟨pre, hform, hs, -⟩ := parseFloatLiteral_sound s position h
    refine ⟨⟨pre, ⟨_, hs.symm⟩, hform⟩, ?_⟩
    obtain ⟨-, he, -⟩ := (parseFloatLiteral_fst s position).1 h
    have hx := parseFloatExponent_fst (parseFloatMantissa ⟨s, position⟩).1.remaining
      (parseFloatMantissa ⟨s, position⟩).1.position
    rw [danglingExponent, ← parseFloatMantissa_remaining s position]
    have hy : (!danglingExponentAt (parseFloatMantissa ⟨s, position⟩).1.remaining) = true :=
      hx.symm.trans he
    cases hz : danglingExponentAt (parseFloatMantissa ⟨s, position⟩).1.remaining
    · rfl
    · rw [hz] at hy
      exact absurd hy (by decide)
  · obtain ⟨⟨pre, hpre, hform⟩, hd⟩ := h
    exact parseFloatLiteral_complete s position pre hpre hform hd

theorem parseFloatLiteral_grammar_witness :
    (parseFloatLiteral ⟨"3.14f".toList, 0⟩).1 = true
      ∧ (∃ pre : List Char, isFloatForm pre
            ∧ "3.14f".toList = pre ++ (parseFloatLiteral ⟨"3.14f".toList, 0⟩).2.remaining
            ∧ (parseFloatLiteral ⟨"3.14f".toList, 0⟩).2.position = 0 + pre.length) :=
  ⟨by decide, (parseFloatLiteral_grammar "3.14f".toList 0).2.1 (by decide)⟩

end CppTokeniser
